import Mathlib

/-!
Verification of the `es` Elasticsearch query-DSL builder (src/es.go).

The Go library builds query documents as raw strings: each constructor
returns a fragment of JSON text, `join` glues fragments with ",\n" while
dropping empty fragments, and the root constructor `Query` runs the result
through `compress`, which round-trips the text through `encoding/json`
(`json.Unmarshal` into `interface{}` followed by `json.Marshal`) and panics
on malformed input.

Modelling conventions:
* Go strings are modelled as `List Char` (`Str`).  Go source text operates
  on UTF-8 bytes; the model works at the rune level, which agrees with the
  byte level on everything the library produces.
* Functions that can panic in Go (`compress`, `Pretty`, `Interval`, and
  hence `Query`) return `Option` in the model, `none` modelling the panic.
* `encoding/json` is external library code; it is modelled here by an
  executable recursive-descent parser (`parseVal` and friends) for the JSON
  grammar Go accepts (no trailing data, no leading zeros, no trailing
  commas, string escapes including `\uXXXX`), and by a serializer
  (`serVal`) that emits compact output with object keys sorted, matching
  `json.Marshal` of a `map[string]interface{}` tree.  JSON numbers are
  modelled exactly as arbitrary-precision decimals `m / 10^e` instead of
  IEEE-754 `float64`.  The base parser `parse` rejects every surrogate
  `\uXXXX` escape and admits numbers of any magnitude: it is the model of
  the JSON *grammar* (well-formedness of the text).  `json.Unmarshal`'s
  accept set differs from the grammar in two places, captured by the
  refined parser `parseR` and the refined entry points `compressR` /
  `PrettyR`: a number token whose exact value `v` satisfies
  `|v| ≥ 2^1024 - 2^970` (the round-to-nearest-even overflow threshold of
  `float64`) makes `strconv.ParseFloat` inside `Unmarshal` return a range
  error, so the normalizers panic on such *well-formed* text; and lone or
  ill-paired surrogate escapes are accepted with `U+FFFD` substitution
  (well-paired ones combine into the encoded code point), exactly as in
  `encoding/json`'s `unquoteBytes`.  Values are otherwise kept exact: the
  53-bit rounding of in-range values, Go's silent underflow of tiny values
  to zero, and `strconv`'s switch to exponent notation when marshalling
  `|v| ≥ 1e21` or `0 < |v| < 1e-6` are not modelled, so the refined model
  is the reference for the panic / no-panic boundary, while output *bytes*
  are asserted only through the exact-decimal serializer.
* `fmt.Sprintf` `%q` on the argument strings is modelled by `goQuote`
  (`strconv.Quote`): ASCII as in Go, every character `≥ 0x80` treated as
  printable.
* `time.Now` and `time.LoadLocation` are impure / depend on the host
  time-zone database; `TimeZone` therefore takes an explicit environment
  `TZEnv` describing the current local offset and the offset each
  resolvable location name would yield at the current instant.
-/

namespace ES

/-- Go strings are modelled as lists of characters. -/
abbrev Str := List Char

/-! ### Basic character and digit helpers -/

/-- JSON whitespace (space, tab, line feed, carriage return). -/
def isWsChar (c : Char) : Bool :=
  c = ' ' || c = '\t' || c = '\n' || c = '\r'

/-- Numeric value of a list of decimal digits, most significant first. -/
def natOf (ds : Str) : Nat :=
  ds.foldl (fun a c => a * 10 + (c.toNat - 48)) 0

/-- Decimal digit character for `n < 10`. -/
def digitChar (n : Nat) : Char :=
  Char.ofNat (48 + n)

/-- Fuelled decimal rendering of a natural number (most significant first). -/
def natStrAux : Nat → Nat → Str
  | 0, _ => []
  | f + 1, n =>
    if n < 10 then [digitChar n]
    else natStrAux f (n / 10) ++ [digitChar (n % 10)]

/-- Decimal rendering of a natural number, as produced by Go `fmt` `%d`. -/
def natStr (n : Nat) : Str :=
  natStrAux (n + 1) n

/-- Decimal rendering of an integer, as produced by Go `fmt` `%d`. -/
def intStr (i : Int) : Str :=
  if i < 0 then '-' :: natStr i.natAbs else natStr i.natAbs

/-- Hexadecimal digit character (lower case) for `n < 16`. -/
def hexChar (n : Nat) : Char :=
  if n < 10 then Char.ofNat (48 + n) else Char.ofNat (87 + n)

/-- Four lower-case hex digits for `n < 0x10000`, as in `\uXXXX` escapes. -/
def hex4 (n : Nat) : Str :=
  [hexChar (n / 4096 % 16), hexChar (n / 256 % 16), hexChar (n / 16 % 16), hexChar (n % 16)]

/-- Value of one hexadecimal digit, upper or lower case. -/
def hexVal (c : Char) : Option Nat :=
  if '0' ≤ c ∧ c ≤ '9' then some (c.toNat - 48)
  else if 'a' ≤ c ∧ c ≤ 'f' then some (c.toNat - 87)
  else if 'A' ≤ c ∧ c ≤ 'F' then some (c.toNat - 55)
  else none

/-! ### `strconv.Quote`: the `%q` verb used by every constructor

Go escapes `"` and `\`, prints ASCII `0x20`–`0x7e` verbatim, uses the
named escapes for the control characters that have one, and `\xNN` for the
remaining control characters and DEL.  Characters `≥ 0x80` are printed
verbatim here (Go would also escape the non-printable ones among them). -/

/-- Quoting of one character, following `strconv.Quote`. -/
def goQuoteChar (c : Char) : Str :=
  if c = '"' ∨ c = '\\' then ['\\', c]
  else if 0x20 ≤ c.toNat ∧ c.toNat ≤ 0x7e then [c]
  else if c.toNat ≥ 0x80 then [c]
  else if c = '\x07' then ['\\', 'a']
  else if c = '\x08' then ['\\', 'b']
  else if c = '\x0c' then ['\\', 'f']
  else if c = '\n' then ['\\', 'n']
  else if c = '\r' then ['\\', 'r']
  else if c = '\t' then ['\\', 't']
  else if c = '\x0b' then ['\\', 'v']
  else ['\\', 'x', hexChar (c.toNat / 16 % 16), hexChar (c.toNat % 16)]

/-- Go `%q`: a double-quoted Go string literal. -/
def goQuote (s : Str) : Str :=
  '"' :: (s.map goQuoteChar).flatten ++ ['"']

/-! ### `clean`, `join`, `When` (src/es.go lines 27-34, 281-294) -/

/-- Clean empty strings which may be present from `When()`. -/
def clean (s : List Str) : List Str :=
  s.filter (fun v => v ≠ [])

/-- Go `strings.Join`: elements glued with the separator. -/
def strJoin (sep : Str) : List Str → Str
  | [] => []
  | [x] => x
  | x :: xs => x ++ sep ++ strJoin sep xs

/-- Join returns strings joined by a comma (and newline), after `clean`. -/
def join (s : List Str) : Str :=
  strJoin [',', '\n'] (clean s)

/-- When returns `children` only when `cond` is met. -/
def When (cond : Bool) (children : List Str) : Str :=
  if cond then join children else []

/-! ### `joinFloats` and the `%0.2f` verb (src/es.go lines 270-279)

Go formats each break-point, a `float64`, with `%0.2f`.  The model uses
exact rationals; `%0.2f` becomes rounding to two decimals with ties to
even, which is what correct `float64` formatting produces on the exact
halves representable in binary. -/

/-- Value scaled by 100 and rounded to the nearest integer, ties to even.
Written with integer arithmetic on numerator and denominator: with
`a / b = 100 q`, `n = ⌊a / b⌋` and `rem` the remainder. -/
def round2 (q : ℚ) : Int :=
  let a := q.num * 100
  let b : Int := (q.den : Int)
  let n := Int.ediv a b
  let rem := a - n * b
  if 2 * rem < b then n
  else if b < 2 * rem then n + 1
  else if n % 2 = 0 then n else n + 1

/-- Two decimal digits, zero padded on the left. -/
def pad2 (m : Nat) : Str :=
  if m < 10 then '0' :: natStr m else natStr m

/-- Go `fmt.Sprintf("%0.2f", v)` on the exactly-represented value. -/
def fmtF2 (q : ℚ) : Str :=
  let n := round2 q
  (if n < 0 then ['-'] else []) ++ natStr (n.natAbs / 100) ++ '.' :: pad2 (n.natAbs % 100)

/-- JoinFloats returns floats joined by a comma (src/es.go `joinFloats`). -/
def joinFloats (vals : List ℚ) : Str :=
  strJoin [',', ' '] (vals.map fmtF2)

/-! ### Fragment constructors (src/es.go lines 60-268)

Each definition is the `fmt.Sprintf` template of the Go function, with
`%q` rendered by `goQuote`, `%d` by `intStr`, `%s` by the join of the
variadic arguments.  Braces of the JSON templates appear as `\x7b`/`\x7d`
escapes. -/

/-- Filter applies the given filters: returns a function from further
children to the combined fragment. -/
def Filter (filters : List Str) : List Str → Str := fun children =>
  ("\n\t\t\t\"filter\": \x7b\n\t\t\t\t\"bool\": \x7b\n\t\t\t\t\t\"filter\": [\n\t\t\t\t\t\t".data)
    ++ join filters
    ++ ("\n\t\t\t\t\t]\n\t\t\t\t\x7d\n\t\t\t\x7d,\n\t\t\t".data)
    ++ join children
    ++ ("\n\t\t".data)

/-- Range for filtering. -/
def Range (gte lte : Str) : Str :=
  ("\x7b\n\t\t\"range\": \x7b\n\t\t\t\"timestamp\": \x7b\n\t\t\t\t\"gte\": ".data)
    ++ goQuote gte
    ++ (",\n\t\t\t\t\"lte\": ".data)
    ++ goQuote lte
    ++ ("\n\t\t\t\x7d\n\t\t\x7d\n\t\x7d".data)

/-- Term returns a term reference for filtering. -/
def Term (field value : Str) : Str :=
  ("\x7b\n\t\t\"term\": \x7b\n\t\t\t".data)
    ++ goQuote field
    ++ (": ".data)
    ++ goQuote value
    ++ ("\n\t\t\x7d\n\t\x7d".data)

/-- Aggs with one or more agg. -/
def Aggs (children : List Str) : Str :=
  ("\n  \"aggs\": \x7b\n    ".data) ++ join children ++ ("\n  \x7d".data)

/-- Agg with the given name. -/
def Agg (name : Str) (children : List Str) : Str :=
  ("\n  ".data) ++ goQuote name ++ (": \x7b\n    ".data) ++ join children ++ ("\n  \x7d".data)

/-- Terms agg of the given field. -/
def Terms (field : Str) (size : Int) : Str :=
  ("\n    \"terms\": \x7b\n      \"field\": ".data)
    ++ goQuote field
    ++ (",\n      \"size\": ".data)
    ++ intStr size
    ++ ("\n    \x7d\n  ".data)

/-- Sum agg of the given field. -/
def Sum (field : Str) : Str :=
  ("\n    \"sum\": \x7b\n      \"field\": ".data) ++ goQuote field ++ ("\n    \x7d\n  ".data)

/-- Avg agg of the given field. -/
def Avg (field : Str) : Str :=
  ("\n    \"avg\": \x7b\n      \"field\": ".data) ++ goQuote field ++ ("\n    \x7d\n  ".data)

/-- Min agg of the given field. -/
def Min (field : Str) : Str :=
  ("\n    \"min\": \x7b\n      \"field\": ".data) ++ goQuote field ++ ("\n    \x7d\n  ".data)

/-- Max agg of the given field. -/
def Max (field : Str) : Str :=
  ("\n    \"max\": \x7b\n      \"field\": ".data) ++ goQuote field ++ ("\n    \x7d\n  ".data)

/-- Stats agg of the given field. -/
def Stats (field : Str) : Str :=
  ("\n    \"stats\": \x7b\n      \"field\": ".data) ++ goQuote field ++ ("\n    \x7d\n  ".data)

/-- Percentiles agg of the given field, optionally specifying which
`percents` to include. -/
def Percentiles (field : Str) (percents : List ℚ) : Str :=
  if percents.length > 0 then
    ("\n      \"stats\": \x7b\n        \"field\": ".data)
      ++ goQuote field
      ++ (",\n        \"percents\": [".data)
      ++ joinFloats percents
      ++ ("]\n      \x7d\n    ".data)
  else
    ("\n    \"stats\": \x7b\n      \"field\": ".data) ++ goQuote field ++ ("\n    \x7d\n  ".data)

/-- DateHistogram agg of the given field. -/
def DateHistogram (field : Str) (options : List Str) : Str :=
  ("\n\t\t\"date_histogram\": \x7b\n\t\t\t\"field\": ".data)
    ++ goQuote field
    ++ (",\n\t\t\t".data)
    ++ join options
    ++ ("\n\t\t\x7d\n\t".data)

/-- Histogram agg of the given field. -/
def Histogram (field : Str) (options : List Str) : Str :=
  ("\n    \"histogram\": \x7b\n      \"field\": ".data)
    ++ goQuote field
    ++ (",\n      ".data)
    ++ join options
    ++ ("\n    \x7d\n  ".data)

/-- Environment seen by `TimeZone`: the process-local UTC offset at the
moment of the call (`offset(time.Now())`), and for each location name
resolvable by `time.LoadLocation`, the offset that location yields at the
current instant (`offset(time.Now().In(loc))`); `none` models a
`LoadLocation` error. -/
structure TZEnv where
  nowOffset : Str
  locOffset : Str → Option Str

/-- TimeZone offset such as "-08:00" or "America/Los_Angeles" (src/es.go
lines 207-222).  Contrary to its comment, the Go function never panics:
an unresolvable location falls through to quoting the literal argument. -/
def TimeZone (env : TZEnv) : List Str → Str
  | [] => ("\"time_zone\": ".data) ++ goQuote env.nowOffset
  | s :: _ =>
    match env.locOffset s with
    | some off => ("\"time_zone\": ".data) ++ goQuote off
    | none => ("\"time_zone\": ".data) ++ goQuote s

/-- Dynamic value passed to `Interval` (`interface{}` in Go): the type
switch distinguishes `string` and `int`; every other type (for example
`float64`, `bool` or `nil`) falls to the panicking default branch. -/
inductive GoVal where
  | goInt (n : Int)
  | goStr (s : Str)
  | goFloat (q : ℚ)
  | goBool (b : Bool)
  | goNil
deriving Repr, DecidableEq

/-- Interval int or string; the model returns `none` where Go panics. -/
def Interval : GoVal → Option Str
  | .goStr s => some (("\"interval\": ".data) ++ goQuote s)
  | .goInt n => some (("\"interval\": ".data) ++ intStr n)
  | _ => none

/-- Whether a dynamic value matches the `string` or `int` case of the
type switch in `Interval`. -/
def isIntOrStr : GoVal → Bool
  | .goInt _ => true
  | .goStr _ => true
  | _ => false

/-- MinDocCount of `n`. -/
def MinDocCount (n : Int) : Str :=
  ("\"min_doc_count\": ".data) ++ intStr n

/-- Missing value of `n`. -/
def Missing (n : Int) : Str :=
  ("\"missing\": ".data) ++ intStr n

/-- ExtendedBounds of `min` / `max`. -/
def ExtendedBounds (min max : Int) : Str :=
  ("\"extended_bounds\": \x7b\n    \"min\": ".data)
    ++ intStr min
    ++ (",\n    \"max\": ".data)
    ++ intStr max
    ++ ("\n  \x7d".data)

/-- Direction for sorting. -/
abbrev Direction := Str

/-- Ascending direction. -/
def Ascending : Direction := ("asc".data)

/-- Descending direction. -/
def Descending : Direction := ("desc".data)

/-- Order `field` by `direction`. -/
def Order (field : Str) (dir : Direction) : Str :=
  ("\"order\": \x7b\n    ".data) ++ goQuote field ++ (": ".data) ++ goQuote dir ++ ("\n  \x7d".data)

/-- Raw text assembled by `Query` before normalization (the `fmt.Sprintf`
inside src/es.go lines 53-58). -/
def queryRaw (children : List Str) : Str :=
  ("\x7b\n    \"size\": 0,\n    ".data) ++ join children ++ ("\n  \x7d".data)

/-! ### The generic JSON tree built by `json.Unmarshal` into `interface{}`

Numbers are `num m e`, denoting `m / 10^e`; the parser keeps them
canonical (`e = 0` or `10 ∤ m`), mirroring the fact that Go collapses
every decimal spelling of one value to the same `float64`.  Objects are
`obj ms` with `ms` sorted by key and duplicate-free, mirroring a Go map
(whose keys `json.Marshal` emits in sorted order). -/
inductive Json where
  | null : Json
  | bool : Bool → Json
  | num : Int → Nat → Json
  | str : Str → Json
  | arr : List Json → Json
  | obj : List (Str × Json) → Json
deriving Repr, Inhabited

mutual
def jeq : Json → Json → Bool
  | .null, .null => true
  | .bool a, .bool b => a == b
  | .num a b, .num c d => a == c && b == d
  | .str a, .str b => a == b
  | .arr a, .arr b => jeqL a b
  | .obj a, .obj b => jeqM a b
  | _, _ => false

def jeqL : List Json → List Json → Bool
  | [], [] => true
  | a :: as, b :: bs => jeq a b && jeqL as bs
  | _, _ => false

def jeqM : List (Str × Json) → List (Str × Json) → Bool
  | [], [] => true
  | (k, a) :: as, (l, b) :: bs => k == l && jeq a b && jeqM as bs
  | _, _ => false
end

mutual
theorem jeq_eq : ∀ a b : Json, jeq a b = true ↔ a = b
  | .null, .null => by simp [jeq]
  | .bool _, .bool _ => by simp [jeq]
  | .num _ _, .num _ _ => by simp [jeq]
  | .str _, .str _ => by simp [jeq]
  | .arr a, .arr b => by
    simp only [jeq, Json.arr.injEq]
    exact jeqL_eq a b
  | .obj a, .obj b => by
    simp only [jeq, Json.obj.injEq]
    exact jeqM_eq a b
  | .null, .bool _ => by simp [jeq]
  | .null, .num _ _ => by simp [jeq]
  | .null, .str _ => by simp [jeq]
  | .null, .arr _ => by simp [jeq]
  | .null, .obj _ => by simp [jeq]
  | .bool _, .null => by simp [jeq]
  | .bool _, .num _ _ => by simp [jeq]
  | .bool _, .str _ => by simp [jeq]
  | .bool _, .arr _ => by simp [jeq]
  | .bool _, .obj _ => by simp [jeq]
  | .num _ _, .null => by simp [jeq]
  | .num _ _, .bool _ => by simp [jeq]
  | .num _ _, .str _ => by simp [jeq]
  | .num _ _, .arr _ => by simp [jeq]
  | .num _ _, .obj _ => by simp [jeq]
  | .str _, .null => by simp [jeq]
  | .str _, .bool _ => by simp [jeq]
  | .str _, .num _ _ => by simp [jeq]
  | .str _, .arr _ => by simp [jeq]
  | .str _, .obj _ => by simp [jeq]
  | .arr _, .null => by simp [jeq]
  | .arr _, .bool _ => by simp [jeq]
  | .arr _, .num _ _ => by simp [jeq]
  | .arr _, .str _ => by simp [jeq]
  | .arr _, .obj _ => by simp [jeq]
  | .obj _, .null => by simp [jeq]
  | .obj _, .bool _ => by simp [jeq]
  | .obj _, .num _ _ => by simp [jeq]
  | .obj _, .str _ => by simp [jeq]
  | .obj _, .arr _ => by simp [jeq]

theorem jeqL_eq : ∀ a b : List Json, jeqL a b = true ↔ a = b
  | [], [] => by simp [jeqL]
  | x :: xs, y :: ys => by
    simp only [jeqL, Bool.and_eq_true, List.cons.injEq]
    exact and_congr (jeq_eq x y) (jeqL_eq xs ys)
  | [], _ :: _ => by simp [jeqL]
  | _ :: _, [] => by simp [jeqL]

theorem jeqM_eq : ∀ a b : List (Str × Json), jeqM a b = true ↔ a = b
  | [], [] => by simp [jeqM]
  | (k, x) :: xs, (l, y) :: ys => by
    simp only [jeqM, Bool.and_eq_true, List.cons.injEq, Prod.mk.injEq]
    rw [jeq_eq x y, jeqM_eq xs ys]
    simp [and_assoc, beq_iff_eq]
  | [], _ :: _ => by simp [jeqM]
  | _ :: _, [] => by simp [jeqM]
end

instance : DecidableEq Json := fun a b =>
  decidable_of_iff (jeq a b = true) (jeq_eq a b)

/-! ### Canonical numbers and canonical (map-like) member lists -/

/-- Strip trailing decimal zeros: reduce `(m, e)` (meaning `m / 10^e`)
until the scale is zero or the mantissa is not divisible by ten. -/
def canonNum : Int → Nat → Int × Nat
  | m, 0 => (m, 0)
  | m, e + 1 => if m % 10 = 0 then canonNum (m / 10) e else (m, e + 1)

/-- Byte-wise (here: scalar-wise) strict order on strings, the order in
which `json.Marshal` emits the keys of a Go map. -/
def ltStr : Str → Str → Bool
  | [], [] => false
  | [], _ :: _ => true
  | _ :: _, [] => false
  | a :: as, b :: bs => if a < b then true else if b < a then false else ltStr as bs

/-- Insert a key/value pair into a sorted member list, replacing an
existing binding of the same key (Go map assignment). -/
def insertMem (k : Str) (v : Json) : List (Str × Json) → List (Str × Json)
  | [] => [(k, v)]
  | (k1, v1) :: t =>
    if ltStr k k1 then (k, v) :: (k1, v1) :: t
    else if k = k1 then (k, v) :: t
    else (k1, v1) :: insertMem k v t

/-- Fold a parsed member list into a Go map: later duplicates overwrite
earlier ones, and the result is sorted by key. -/
def canonMembs (ms : List (Str × Json)) : List (Str × Json) :=
  ms.foldl (fun acc m => insertMem m.1 m.2 acc) []

/-! ### Recursive-descent JSON parser (model of `json.Unmarshal`) -/

/-- Drop leading JSON whitespace. -/
def skipWs : Str → Str
  | [] => []
  | c :: r => if isWsChar c then skipWs r else c :: r

/-- Single-character string escapes accepted by JSON. -/
def unescape : Char → Option Char
  | 'n' => some '\n'
  | 'r' => some '\r'
  | 't' => some '\t'
  | 'b' => some '\x08'
  | 'f' => some '\x0c'
  | '/' => some '/'
  | '"' => some '"'
  | '\\' => some '\\'
  | _ => none

/-- Parse a string body after the opening quote, up to and including the
closing quote.  Raw control characters are rejected; `\uXXXX` escapes are
accepted for non-surrogate code points (Go additionally combines
surrogate pairs, which the model omits). -/
def parseStr : Str → Option (Str × Str)
  | [] => none
  | c :: r =>
    if c = '"' then some ([], r)
    else if c = '\\' then
      match r with
      | 'u' :: h1 :: h2 :: h3 :: h4 :: r3 =>
        match hexVal h1, hexVal h2, hexVal h3, hexVal h4 with
        | some a, some b, some c2, some d =>
          let n := ((a * 16 + b) * 16 + c2) * 16 + d
          if n < 0xd800 ∨ 0xe000 ≤ n then
            (parseStr r3).map (fun p => (Char.ofNat n :: p.1, p.2))
          else none
        | _, _, _, _ => none
      | e :: r2 =>
        match unescape e with
        | some u => (parseStr r2).map (fun p => (u :: p.1, p.2))
        | none => none
      | [] => none
    else if c.toNat < 0x20 then none
    else (parseStr r).map (fun p => (c :: p.1, p.2))

/-- Leading decimal digits of a string. -/
def takeDigits (s : Str) : Str := s.takeWhile (fun c => c.isDigit)

/-- Remainder after the leading decimal digits. -/
def dropDigits (s : Str) : Str := s.dropWhile (fun c => c.isDigit)

/-- Combine mantissa and decimal exponent into a canonical `(m, e)` pair. -/
def mkNum (m0 : Int) (ex : Int) : Int × Nat :=
  if 0 ≤ ex then (m0 * 10 ^ ex.toNat, 0) else canonNum m0 (-ex).toNat

/-- Parse the optional exponent part and finish the number. -/
def parseNumExp (neg : Bool) (ip : Nat) (fs : Str) (s : Str) : Option ((Int × Nat) × Str) :=
  let M : Nat := ip * 10 ^ fs.length + natOf fs
  let m0 : Int := if neg then -(M : Int) else (M : Int)
  match s with
  | c :: t =>
    if c = 'e' ∨ c = 'E' then
      let p : Bool × Str := match t with
        | '+' :: u => (false, u)
        | '-' :: u => (true, u)
        | _ => (false, t)
      let es := takeDigits p.2
      if es = [] then none
      else
        let ex : Int := (if p.1 then -(natOf es : Int) else (natOf es : Int)) - fs.length
        some (mkNum m0 ex, dropDigits p.2)
    else some (mkNum m0 (-(fs.length : Int)), c :: t)
  | [] => some (mkNum m0 (-(fs.length : Int)), [])

/-- Parse the optional fraction part. -/
def parseNumFrac (neg : Bool) (ip : Nat) (s : Str) : Option ((Int × Nat) × Str) :=
  match s with
  | '.' :: t =>
    let fs := takeDigits t
    if fs = [] then none else parseNumExp neg ip fs (dropDigits t)
  | _ => parseNumExp neg ip [] s

/-- Parse the integer part (after the optional minus sign): `0` alone or
a nonzero digit followed by more digits — no leading zeros. -/
def parseNumBody : Bool → Str → Option ((Int × Nat) × Str)
  | _, [] => none
  | neg, c :: t =>
    if c = '0' then parseNumFrac neg 0 t
    else if c.isDigit then
      parseNumFrac neg (natOf (c :: takeDigits t)) (dropDigits t)
    else none

/-- Parse a JSON number token (Go grammar: optional minus, integer part
without leading zeros, optional fraction, optional exponent). -/
def parseNum : Str → Option ((Int × Nat) × Str)
  | '-' :: t => parseNumBody true t
  | s => parseNumBody false s

mutual
def parseVal : Nat → Str → Option (Json × Str)
  | 0, _ => none
  | f + 1, s =>
    match skipWs s with
    | [] => none
    | c :: r =>
      if c = '\x7b' then
        (parseObjF f r).map (fun p => (Json.obj (canonMembs p.1), p.2))
      else if c = '[' then
        (parseArrF f r).map (fun p => (Json.arr p.1, p.2))
      else if c = '"' then
        (parseStr r).map (fun p => (Json.str p.1, p.2))
      else if c = 't' then
        match r with
        | 'r' :: 'u' :: 'e' :: r2 => some (Json.bool true, r2)
        | _ => none
      else if c = 'f' then
        match r with
        | 'a' :: 'l' :: 's' :: 'e' :: r2 => some (Json.bool false, r2)
        | _ => none
      else if c = 'n' then
        match r with
        | 'u' :: 'l' :: 'l' :: r2 => some (Json.null, r2)
        | _ => none
      else
        (parseNum (c :: r)).map (fun p => (Json.num p.1.1 p.1.2, p.2))

def parseMemb : Nat → Str → Option ((Str × Json) × Str)
  | 0, _ => none
  | f + 1, s =>
    match skipWs s with
    | '"' :: r =>
      match parseStr r with
      | some (k, r1) =>
        match skipWs r1 with
        | ':' :: r2 => (parseVal f r2).map (fun p => ((k, p.1), p.2))
        | _ => none
      | none => none
    | _ => none

def parseObjF : Nat → Str → Option (List (Str × Json) × Str)
  | 0, _ => none
  | f + 1, s =>
    match skipWs s with
    | '\x7d' :: r => some ([], r)
    | _ =>
      match parseMemb f s with
      | some (m, r1) => (parseObjT f r1).map (fun p => (m :: p.1, p.2))
      | none => none

def parseObjT : Nat → Str → Option (List (Str × Json) × Str)
  | 0, _ => none
  | f + 1, s =>
    match skipWs s with
    | '\x7d' :: r => some ([], r)
    | ',' :: r =>
      match parseMemb f r with
      | some (m, r1) => (parseObjT f r1).map (fun p => (m :: p.1, p.2))
      | none => none
    | _ => none

def parseArrF : Nat → Str → Option (List Json × Str)
  | 0, _ => none
  | f + 1, s =>
    match skipWs s with
    | ']' :: r => some ([], r)
    | _ =>
      match parseVal f s with
      | some (v, r1) => (parseArrT f r1).map (fun p => (v :: p.1, p.2))
      | none => none

def parseArrT : Nat → Str → Option (List Json × Str)
  | 0, _ => none
  | f + 1, s =>
    match skipWs s with
    | ']' :: r => some ([], r)
    | ',' :: r =>
      match parseVal f r with
      | some (v, r1) => (parseArrT f r1).map (fun p => (v :: p.1, p.2))
      | none => none
    | _ => none
end

/-- Fuel that is always sufficient for `parseVal` on `s`: between two
recursive calls the parser consumes at least one character after at most
two calls. -/
def jsonFuel (s : Str) : Nat := 2 * s.length + 6

/-- Model of `json.Unmarshal(s, &v)` for `v : interface{}`: one JSON
value, then only trailing whitespace. -/
def parse (s : Str) : Option Json :=
  match parseVal (jsonFuel s) s with
  | some (v, r) => if skipWs r = [] then some v else none
  | none => none

/-! ### Serializers (model of `json.Marshal` / `json.MarshalIndent`) -/

/-- Escaping of one character in a marshalled string: `encoding/json`
with the default HTML escaping. -/
def jsonEscChar (c : Char) : Str :=
  if c = '"' then ['\\', '"']
  else if c = '\\' then ['\\', '\\']
  else if c = '\n' then ['\\', 'n']
  else if c = '\r' then ['\\', 'r']
  else if c = '\t' then ['\\', 't']
  else if c.toNat < 0x20 then '\\' :: 'u' :: hex4 c.toNat
  else if c = '<' ∨ c = '>' ∨ c = '&' then '\\' :: 'u' :: hex4 c.toNat
  else if c.toNat = 0x2028 ∨ c.toNat = 0x2029 then '\\' :: 'u' :: hex4 c.toNat
  else [c]

/-- Marshalled string body. -/
def jsonEsc (s : Str) : Str := (s.map jsonEscChar).flatten

/-- Marshalled string, quotes included. -/
def serStr (s : Str) : Str := '"' :: jsonEsc s ++ ['"']

/-- Plain decimal rendering of the canonical number `m / 10^e`. -/
def serNum (m : Int) (e : Nat) : Str :=
  let D := natStr m.natAbs
  let digits :=
    if e = 0 then D
    else if e < D.length then D.take (D.length - e) ++ '.' :: D.drop (D.length - e)
    else '0' :: '.' :: List.replicate (e - D.length) '0' ++ D
  if m < 0 then '-' :: digits else digits

mutual
def serVal : Json → Str
  | .null => ("null".data)
  | .bool true => ("true".data)
  | .bool false => ("false".data)
  | .num m e => serNum m e
  | .str s => serStr s
  | .arr vs => '[' :: serArr vs ++ [']']
  | .obj ms => '\x7b' :: serObj ms ++ ['\x7d']

def serArr : List Json → Str
  | [] => []
  | [v] => serVal v
  | v :: vs => serVal v ++ ',' :: serArr vs

def serObj : List (Str × Json) → Str
  | [] => []
  | [(k, v)] => serStr k ++ ':' :: serVal v
  | (k, v) :: ms => serStr k ++ ':' :: serVal v ++ ',' :: serObj ms
end

/-- Two-space indentation prefix at depth `d` (`MarshalIndent(v, "", "  ")`). -/
def indentAt (d : Nat) : Str := List.replicate (2 * d) ' '

mutual
def serIVal : Nat → Json → Str
  | _, .null => ("null".data)
  | _, .bool true => ("true".data)
  | _, .bool false => ("false".data)
  | _, .num m e => serNum m e
  | _, .str s => serStr s
  | d, .arr vs =>
    if vs.isEmpty then ['[', ']']
    else '[' :: '\n' :: serIArr (d + 1) vs ++ '\n' :: indentAt d ++ [']']
  | d, .obj ms =>
    if ms.isEmpty then ['\x7b', '\x7d']
    else '\x7b' :: '\n' :: serIObj (d + 1) ms ++ '\n' :: indentAt d ++ ['\x7d']

def serIArr : Nat → List Json → Str
  | _, [] => []
  | d, [v] => indentAt d ++ serIVal d v
  | d, v :: vs => indentAt d ++ serIVal d v ++ ',' :: '\n' :: serIArr d vs

def serIObj : Nat → List (Str × Json) → Str
  | _, [] => []
  | d, [(k, v)] => indentAt d ++ serStr k ++ ':' :: ' ' :: serIVal d v
  | d, (k, v) :: ms =>
    indentAt d ++ serStr k ++ ':' :: ' ' :: serIVal d v ++ ',' :: '\n' :: serIObj d ms
end

/-- Model of `compress` (src/es.go lines 11-25): `none` where Go panics. -/
def compress (s : Str) : Option Str := (parse s).map serVal

/-- Model of `Pretty` (src/es.go lines 36-50): `none` where Go panics. -/
def Pretty (s : Str) : Option Str := (parse s).map (serIVal 0)

/-- Query is the root of a query (src/es.go lines 52-58). -/
def Query (children : List Str) : Option Str := compress (queryRaw children)

/-! ### Refined model of `json.Unmarshal`

`parse` models the JSON grammar; `json.Unmarshal` additionally runs every
number token through `strconv.ParseFloat`, which fails with a range error
when the value rounds to infinity, and decodes `\uXXXX` surrogate escapes
the way `unquoteBytes` does: a high surrogate immediately followed by a
`\uXXXX` low surrogate combines into one code point, and any other
surrogate escape is replaced by `U+FFFD` (consuming only that escape).
The `R`-suffixed definitions below are the base definitions with exactly
those two refinements; they model the actual accept set of `Unmarshal`,
hence the actual panic boundary of `compress` and `Pretty`. -/

/-- Smallest magnitude at which `strconv.ParseFloat` overflows: decimal
values `v` with `|v| ≥ 2^1024 - 2^970` round (ties to even) to `2^1024`,
i.e. to infinity, and `ParseFloat` reports a range error that
`json.Unmarshal` turns into an `UnmarshalTypeError`. -/
def floatOverflowBound : Nat := 2 ^ 1024 - 2 ^ 970

/-- Does the exact decimal `m0 * 10^ex` stay below the `float64` overflow
threshold?  (`false` models `ParseFloat`'s range error.) -/
def numInRange (m0 ex : Int) : Bool :=
  if 0 ≤ ex then decide (m0.natAbs * 10 ^ ex.toNat < floatOverflowBound)
  else decide (m0.natAbs < floatOverflowBound * 10 ^ (-ex).toNat)

/-- `parseNumExp` with the `ParseFloat` range check on the finished
token's exact value. -/
def parseNumExpR (neg : Bool) (ip : Nat) (fs : Str) (s : Str) :
    Option ((Int × Nat) × Str) :=
  let M : Nat := ip * 10 ^ fs.length + natOf fs
  let m0 : Int := if neg then -(M : Int) else (M : Int)
  match s with
  | c :: t =>
    if c = 'e' ∨ c = 'E' then
      let p : Bool × Str := match t with
        | '+' :: u => (false, u)
        | '-' :: u => (true, u)
        | _ => (false, t)
      let es := takeDigits p.2
      if es = [] then none
      else
        let ex : Int := (if p.1 then -(natOf es : Int) else (natOf es : Int)) - fs.length
        if numInRange m0 ex then some (mkNum m0 ex, dropDigits p.2) else none
    else if numInRange m0 (-(fs.length : Int)) then
      some (mkNum m0 (-(fs.length : Int)), c :: t)
    else none
  | [] =>
    if numInRange m0 (-(fs.length : Int)) then
      some (mkNum m0 (-(fs.length : Int)), [])
    else none

/-- `parseNumFrac` with the range check. -/
def parseNumFracR (neg : Bool) (ip : Nat) (s : Str) : Option ((Int × Nat) × Str) :=
  match s with
  | '.' :: t =>
    let fs := takeDigits t
    if fs = [] then none else parseNumExpR neg ip fs (dropDigits t)
  | _ => parseNumExpR neg ip [] s

/-- `parseNumBody` with the range check. -/
def parseNumBodyR : Bool → Str → Option ((Int × Nat) × Str)
  | _, [] => none
  | neg, c :: t =>
    if c = '0' then parseNumFracR neg 0 t
    else if c.isDigit then
      parseNumFracR neg (natOf (c :: takeDigits t)) (dropDigits t)
    else none

/-- `parseNum` with the range check: the number tokens `json.Unmarshal`
actually accepts. -/
def parseNumR : Str → Option ((Int × Nat) × Str)
  | '-' :: t => parseNumBodyR true t
  | s => parseNumBodyR false s

/-- Fuelled worker for `parseStrR`; every step consumes at least one
input character, so fuel `length + 1` never runs out. -/
def parseStrRAux : Nat → Str → Option (Str × Str)
  | 0, _ => none
  | _ + 1, [] => none
  | f + 1, c :: r =>
    if c = '"' then some ([], r)
    else if c = '\\' then
      match r with
      | 'u' :: h1 :: h2 :: h3 :: h4 :: r3 =>
        match hexVal h1, hexVal h2, hexVal h3, hexVal h4 with
        | some a, some b, some c2, some d =>
          let n := ((a * 16 + b) * 16 + c2) * 16 + d
          if n < 0xd800 ∨ 0xe000 ≤ n then
            (parseStrRAux f r3).map (fun p => (Char.ofNat n :: p.1, p.2))
          else
            match r3 with
            | '\\' :: 'u' :: g1 :: g2 :: g3 :: g4 :: r4 =>
              match hexVal g1, hexVal g2, hexVal g3, hexVal g4 with
              | some a2, some b2, some c3, some d2 =>
                let n2 := ((a2 * 16 + b2) * 16 + c3) * 16 + d2
                if n < 0xdc00 ∧ 0xdc00 ≤ n2 ∧ n2 < 0xe000 then
                  (parseStrRAux f r4).map (fun p =>
                    (Char.ofNat (0x10000 + (n - 0xd800) * 0x400 + (n2 - 0xdc00)) :: p.1, p.2))
                else
                  (parseStrRAux f r3).map (fun p => (Char.ofNat 0xfffd :: p.1, p.2))
              | _, _, _, _ =>
                (parseStrRAux f r3).map (fun p => (Char.ofNat 0xfffd :: p.1, p.2))
            | _ => (parseStrRAux f r3).map (fun p => (Char.ofNat 0xfffd :: p.1, p.2))
        | _, _, _, _ => none
      | e :: r2 =>
        match unescape e with
        | some u => (parseStrRAux f r2).map (fun p => (u :: p.1, p.2))
        | none => none
      | [] => none
    else if c.toNat < 0x20 then none
    else (parseStrRAux f r).map (fun p => (c :: p.1, p.2))

/-- `parseStr` with `unquoteBytes`'s surrogate handling: a
high-surrogate escape followed by a low-surrogate escape combines, any
other surrogate escape becomes `U+FFFD` (consuming that escape only). -/
def parseStrR (s : Str) : Option (Str × Str) :=
  parseStrRAux (s.length + 1) s

mutual
def parseValR : Nat → Str → Option (Json × Str)
  | 0, _ => none
  | f + 1, s =>
    match skipWs s with
    | [] => none
    | c :: r =>
      if c = '\x7b' then
        (parseObjFR f r).map (fun p => (Json.obj (canonMembs p.1), p.2))
      else if c = '[' then
        (parseArrFR f r).map (fun p => (Json.arr p.1, p.2))
      else if c = '"' then
        (parseStrR r).map (fun p => (Json.str p.1, p.2))
      else if c = 't' then
        match r with
        | 'r' :: 'u' :: 'e' :: r2 => some (Json.bool true, r2)
        | _ => none
      else if c = 'f' then
        match r with
        | 'a' :: 'l' :: 's' :: 'e' :: r2 => some (Json.bool false, r2)
        | _ => none
      else if c = 'n' then
        match r with
        | 'u' :: 'l' :: 'l' :: r2 => some (Json.null, r2)
        | _ => none
      else
        (parseNumR (c :: r)).map (fun p => (Json.num p.1.1 p.1.2, p.2))

def parseMembR : Nat → Str → Option ((Str × Json) × Str)
  | 0, _ => none
  | f + 1, s =>
    match skipWs s with
    | '"' :: r =>
      match parseStrR r with
      | some (k, r1) =>
        match skipWs r1 with
        | ':' :: r2 => (parseValR f r2).map (fun p => ((k, p.1), p.2))
        | _ => none
      | none => none
    | _ => none

def parseObjFR : Nat → Str → Option (List (Str × Json) × Str)
  | 0, _ => none
  | f + 1, s =>
    match skipWs s with
    | '\x7d' :: r => some ([], r)
    | _ =>
      match parseMembR f s with
      | some (m, r1) => (parseObjTR f r1).map (fun p => (m :: p.1, p.2))
      | none => none

def parseObjTR : Nat → Str → Option (List (Str × Json) × Str)
  | 0, _ => none
  | f + 1, s =>
    match skipWs s with
    | '\x7d' :: r => some ([], r)
    | ',' :: r =>
      match parseMembR f r with
      | some (m, r1) => (parseObjTR f r1).map (fun p => (m :: p.1, p.2))
      | none => none
    | _ => none

def parseArrFR : Nat → Str → Option (List Json × Str)
  | 0, _ => none
  | f + 1, s =>
    match skipWs s with
    | ']' :: r => some ([], r)
    | _ =>
      match parseValR f s with
      | some (v, r1) => (parseArrTR f r1).map (fun p => (v :: p.1, p.2))
      | none => none

def parseArrTR : Nat → Str → Option (List Json × Str)
  | 0, _ => none
  | f + 1, s =>
    match skipWs s with
    | ']' :: r => some ([], r)
    | ',' :: r =>
      match parseValR f r with
      | some (v, r1) => (parseArrTR f r1).map (fun p => (v :: p.1, p.2))
      | none => none
    | _ => none
end

/-- Refined model of `json.Unmarshal(s, &v)`: the grammar plus the
`ParseFloat` range check and `unquoteBytes` surrogate substitution. -/
def parseR (s : Str) : Option Json :=
  match parseValR (jsonFuel s) s with
  | some (v, r) => if skipWs r = [] then some v else none
  | none => none

/-- `compress` over the refined `Unmarshal` model. -/
def compressR (s : Str) : Option Str := (parseR s).map serVal

/-- `Pretty` over the refined `Unmarshal` model. -/
def PrettyR (s : Str) : Option Str := (parseR s).map (serIVal 0)

/-! ### Canonical values

`canonB` holds for exactly the `Json` trees the parser can produce:
numbers have no trailing decimal zeros, object member lists are strictly
sorted by key (hence duplicate-free).  These are the trees on which the
serializer inverts the parser. -/

mutual
def canonB : Json → Bool
  | .null => true
  | .bool _ => true
  | .num m e => e == 0 || m % 10 != 0
  | .str _ => true
  | .arr vs => canonLB vs
  | .obj ms => canonMB ms

def canonLB : List Json → Bool
  | [] => true
  | v :: vs => canonB v && canonLB vs

def canonMB : List (Str × Json) → Bool
  | [] => true
  | [(_, v)] => canonB v
  | (k1, v1) :: (k2, v2) :: t => ltStr k1 k2 && canonB v1 && canonMB ((k2, v2) :: t)
end

/-! ### Typographic side conditions -/

/-- Every character is JSON whitespace. -/
def WsOnly (w : Str) : Prop := ∀ c ∈ w, isWsChar c = true

/-- Characters that could extend a preceding number token. -/
def numExt (c : Char) : Bool := c.isDigit || c = '.' || c = 'e' || c = 'E'

/-- The string is empty or starts with a character that cannot extend a
preceding number token. -/
def BreakHead (t : Str) : Prop := t = [] ∨ ∃ c t', t = c :: t' ∧ numExt c = false

/-- Characters whose `%q` quoting is also valid JSON: everything from
space upward except DEL, plus the control characters whose Go escape
coincides with a JSON escape. -/
def goqSafe (c : Char) : Bool :=
  (0x20 ≤ c.toNat && c.toNat ≠ 0x7f) || c.toNat = 8 || c.toNat = 9 || c.toNat = 10 ||
    c.toNat = 12 || c.toNat = 13

/-- All characters of the string quote to valid JSON under `%q`. -/
def QuoteSafe (s : Str) : Prop := ∀ c ∈ s, goqSafe c = true

instance (w : Str) : Decidable (WsOnly w) :=
  decidable_of_iff (∀ c ∈ w, isWsChar c = true) Iff.rfl

instance (s : Str) : Decidable (QuoteSafe s) :=
  decidable_of_iff (∀ c ∈ s, goqSafe c = true) Iff.rfl

/-! ### Derivation relations mirroring the parser

`GVal s v r` says: the recursive-descent parser, run on `s` with enough
fuel, accepts a value `v` and leaves exactly `r` (theorem `soundV`
below).  The rules follow the shape of `parseVal` and friends; they exist
so that parses of composite documents can be built and re-arranged
syntax-directedly.  String literals are covered by the relation `GStr`,
number tokens by `NumTok`; the latter covers the exponent-free decimal
tokens, which is all the library ever assembles. -/

/-- All characters are decimal digits. -/
def AllDigits (ds : Str) : Prop := ∀ c ∈ ds, c.isDigit = true

/-- Relational form of `parseStr`: `GStr s k r` holds when the string
body `s` (after an opening quote) denotes the content `k` and continues
with `r` after the closing quote. -/
inductive GStr : Str → Str → Str → Prop
  | close : ∀ {r : Str}, GStr ('"' :: r) [] r
  | esc1 : ∀ {e u : Char} {t k r : Str},
      unescape e = some u → GStr t k r → GStr ('\\' :: e :: t) (u :: k) r
  | uesc : ∀ {h1 h2 h3 h4 : Char} {a b c2 d n : Nat} {t k r : Str},
      hexVal h1 = some a → hexVal h2 = some b → hexVal h3 = some c2 → hexVal h4 = some d →
      n = ((a * 16 + b) * 16 + c2) * 16 + d → (n < 0xd800 ∨ 0xe000 ≤ n) →
      GStr t k r → GStr ('\\' :: 'u' :: h1 :: h2 :: h3 :: h4 :: t) (Char.ofNat n :: k) r
  | plain : ∀ {c : Char} {t k r : Str},
      c ≠ '"' → c ≠ '\\' → 0x20 ≤ c.toNat → GStr t k r → GStr (c :: t) (c :: k) r

/-- Relational form of the (exponent-free) number tokens: integer part
`D` with no leading zero, optional fraction `F`, followed by a
non-extending continuation. -/
def NumTok (s : Str) (p : Int × Nat) (r : Str) : Prop :=
  ∃ (neg : Bool) (D F : Str),
    D ≠ [] ∧ AllDigits D ∧ (D.head? = some '0' → D = ['0']) ∧ AllDigits F ∧
      BreakHead r ∧
      s = (if neg then ['-'] else []) ++ D ++ (if F = [] then [] else '.' :: F) ++ r ∧
      p = mkNum (if neg then -(natOf (D ++ F) : Int) else (natOf (D ++ F) : Int))
        (-(F.length : Int))

/-- The syntactic category (and parsed result) of a derivation: a value,
one object member, object members from the first position (`parseObjF`),
object members after a member (`parseObjT`), array elements from the
first position (`parseArrF`), array elements after an element
(`parseArrT`). -/
inductive GK where
  | val : Json → GK
  | memb : Str × Json → GK
  | membsF : List (Str × Json) → GK
  | membsT : List (Str × Json) → GK
  | arrF : List Json → GK
  | arrT : List Json → GK

/-- Derivations of all six categories, as a single indexed inductive (so
that structural recursion over derivations is available). -/
inductive G : Str → GK → Str → Prop
  | jnull : ∀ {w r : Str},
      WsOnly w → G (w ++ 'n' :: 'u' :: 'l' :: 'l' :: r) (GK.val Json.null) r
  | jtrue : ∀ {w r : Str},
      WsOnly w → G (w ++ 't' :: 'r' :: 'u' :: 'e' :: r) (GK.val (Json.bool true)) r
  | jfalse : ∀ {w r : Str},
      WsOnly w → G (w ++ 'f' :: 'a' :: 'l' :: 's' :: 'e' :: r) (GK.val (Json.bool false)) r
  | jstr : ∀ {w t k r : Str},
      WsOnly w → GStr t k r → G (w ++ '"' :: t) (GK.val (Json.str k)) r
  | jnum : ∀ {w s r : Str} {p : Int × Nat},
      WsOnly w → NumTok s p r → G (w ++ s) (GK.val (Json.num p.1 p.2)) r
  | jobj : ∀ {w t r : Str} {ms : List (Str × Json)},
      WsOnly w → G t (GK.membsF ms) r →
      G (w ++ '\x7b' :: t) (GK.val (Json.obj (canonMembs ms))) r
  | jarr : ∀ {w t r : Str} {vs : List Json},
      WsOnly w → G t (GK.arrF vs) r → G (w ++ '[' :: t) (GK.val (Json.arr vs)) r
  | memb : ∀ {w t k w1 r1 r2 r3 : Str} {v : Json},
      WsOnly w → GStr t k r1 → r1 = w1 ++ ':' :: r2 → WsOnly w1 →
      G r2 (GK.val v) r3 → G (w ++ '"' :: t) (GK.memb (k, v)) r3
  | fnil : ∀ {w r : Str}, WsOnly w → G (w ++ '\x7d' :: r) (GK.membsF []) r
  | fcons : ∀ {s r1 r : Str} {m : Str × Json} {ms : List (Str × Json)},
      G s (GK.memb m) r1 → G r1 (GK.membsT ms) r → G s (GK.membsF (m :: ms)) r
  | tnil : ∀ {w r : Str}, WsOnly w → G (w ++ '\x7d' :: r) (GK.membsT []) r
  | tcons : ∀ {w s r1 r : Str} {m : Str × Json} {ms : List (Str × Json)},
      WsOnly w → G s (GK.memb m) r1 → G r1 (GK.membsT ms) r →
      G (w ++ ',' :: s) (GK.membsT (m :: ms)) r
  | anil : ∀ {w r : Str}, WsOnly w → G (w ++ ']' :: r) (GK.arrF []) r
  | acons : ∀ {s r1 r : Str} {v : Json} {vs : List Json},
      G s (GK.val v) r1 → G r1 (GK.arrT vs) r → G s (GK.arrF (v :: vs)) r
  | atnil : ∀ {w r : Str}, WsOnly w → G (w ++ ']' :: r) (GK.arrT []) r
  | atcons : ∀ {w s r1 r : Str} {v : Json} {vs : List Json},
      WsOnly w → G s (GK.val v) r1 → G r1 (GK.arrT vs) r →
      G (w ++ ',' :: s) (GK.arrT (v :: vs)) r

/-- `GVal s v r`: the parser, run on `s` with enough fuel, accepts the
value `v` and leaves exactly `r` (theorem `soundV` below). -/
abbrev GVal (s : Str) (v : Json) (r : Str) : Prop := G s (GK.val v) r

/-- One object member (`"key": value`), as accepted by `parseMemb`. -/
abbrev GMemb (s : Str) (m : Str × Json) (r : Str) : Prop := G s (GK.memb m) r

/-- Object members from the first position, as accepted by `parseObjF`. -/
abbrev GMembsF (s : Str) (ms : List (Str × Json)) (r : Str) : Prop := G s (GK.membsF ms) r

/-- Object members after a member, as accepted by `parseObjT`. -/
abbrev GMembsT (s : Str) (ms : List (Str × Json)) (r : Str) : Prop := G s (GK.membsT ms) r

/-- Array elements from the first position, as accepted by `parseArrF`. -/
abbrev GArrF (s : Str) (vs : List Json) (r : Str) : Prop := G s (GK.arrF vs) r

/-- Array elements after an element, as accepted by `parseArrT`. -/
abbrev GArrT (s : Str) (vs : List Json) (r : Str) : Prop := G s (GK.arrT vs) r

/-- A member fragment: embedded before any continuation that cannot
extend a number token (in the documents the library assembles the
continuation always starts with `,`, `]`, `}` or whitespace), it parses
verbatim as the single object member `m`, leaving its own trailing
whitespace `w` plus the continuation. -/
def MFrag (s : Str) (m : Str × Json) : Prop :=
  ∃ w : Str, WsOnly w ∧ ∀ u : Str, BreakHead (w ++ u) → GMemb (s ++ u) m (w ++ u)

/-- A value fragment: embedded before any continuation that cannot
extend a number token, it parses verbatim as the value `v`, leaving its
own trailing whitespace `w` plus the continuation. -/
def VFrag (s : Str) (v : Json) : Prop :=
  ∃ w : Str, WsOnly w ∧ ∀ u : Str, BreakHead (w ++ u) → GVal (s ++ u) v (w ++ u)

/-- A member-sequence fragment (such as the output of `Filter`, or
several member fragments glued by `join`): wherever a valid members-tail
continues after the fragment's own trailing whitespace `w`, the fragment
prepends its members `ms` — both in first position after `{` and after a
comma (with whitespace on either side of the comma). -/
def MsFrag (s : Str) (ms : List (Str × Json)) : Prop :=
  ∃ w : Str, WsOnly w ∧ ∀ (t : Str) (ms2 : List (Str × Json)) (u : Str),
    GMembsT (w ++ t) ms2 u →
    GMembsF (s ++ t) (ms ++ ms2) u ∧
      ∀ w0 w1 : Str, WsOnly w0 → WsOnly w1 →
        GMembsT (w0 ++ ',' :: w1 ++ s ++ t) (ms ++ ms2) u

/-- An element-sequence fragment (the body of a JSON array): wherever a
valid elements-tail continues after the fragment's own trailing
whitespace `w`, the fragment prepends its elements `vs` — both in first
position after `[` and after a comma. -/
def VsFrag (s : Str) (vs : List Json) : Prop :=
  ∃ w : Str, WsOnly w ∧ ∀ (t : Str) (vs2 : List Json) (u : Str),
    GArrT (w ++ t) vs2 u →
    GArrF (s ++ t) (vs ++ vs2) u ∧
      ∀ w0 w1 : Str, WsOnly w0 → WsOnly w1 →
        GArrT (w0 ++ ',' :: w1 ++ s ++ t) (vs ++ vs2) u

/-! ### Line structure (for the join claims) -/

/-- Decomposition of a string into lines at `'\n'` (the separators are
dropped; a trailing newline yields a final empty line). -/
def linesOf : Str → List Str
  | [] => [[]]
  | c :: t =>
    if c = '\n' then [] :: linesOf t
    else
      match linesOf t with
      | [] => [[c]]
      | l :: ls => (c :: l) :: ls

/-! ## Lemmas about lines and `join` -/

theorem linesOf_ne_nil (s : Str) : linesOf s ≠ [] := by
  induction s with
  | nil => simp [linesOf]
  | cons c t ih =>
    simp only [linesOf]
    split
    · simp
    · cases h : linesOf t with
      | nil => simp
      | cons l ls => simp

theorem linesOf_cons_nl (t : Str) : linesOf ('\n' :: t) = [] :: linesOf t := by
  simp [linesOf]

theorem linesOf_cons_ne {c : Char} (hc : c ≠ '\n') (t : Str) :
    linesOf (c :: t) =
      match linesOf t with
      | [] => [[c]]
      | l :: ls => (c :: l) :: ls := by
  simp [linesOf, hc]

theorem linesOf_append_sep (a b : Str) :
    linesOf (a ++ ',' :: '\n' :: b) =
      (linesOf a).dropLast ++ ((linesOf a).getLastD [] ++ [',']) :: linesOf b := by
  induction a with
  | nil =>
    have h1 : linesOf (',' :: '\n' :: b) =
        match linesOf ('\n' :: b) with
        | [] => [[',']]
        | l :: ls => (',' :: l) :: ls := linesOf_cons_ne (by decide) _
    rw [List.nil_append, h1, linesOf_cons_nl]
    simp [linesOf]
  | cons c a' ih =>
    have hstep : (c :: a') ++ ',' :: '\n' :: b = c :: (a' ++ ',' :: '\n' :: b) := rfl
    by_cases hc : c = '\n'
    · subst hc
      rw [hstep, linesOf_cons_nl, linesOf_cons_nl, ih]
      have hne := linesOf_ne_nil a'
      cases h : linesOf a' with
      | nil => exact absurd h hne
      | cons l ls =>
        cases ls with
        | nil => simp [List.getLastD]
        | cons l2 ls2 => simp [List.getLastD]
    · rw [hstep, linesOf_cons_ne hc, linesOf_cons_ne hc, ih]
      have hne := linesOf_ne_nil a'
      cases h : linesOf a' with
      | nil => exact absurd h hne
      | cons l ls =>
        cases ls with
        | nil => simp [List.getLastD_eq_getLast?]
        | cons l2 ls2 => simp [List.getLastD_eq_getLast?]

theorem strJoin_ne_nil {l : List Str} (h : ∀ x ∈ l, x ≠ []) (hl : l ≠ []) :
    strJoin [',', '\n'] l ≠ [] := by
  cases l with
  | nil => exact absurd rfl hl
  | cons x l' =>
    cases l' with
    | nil => exact h x (by simp)
    | cons y l'' =>
      have hx := h x (by simp)
      simp only [strJoin]
      intro hcon
      exact hx (List.append_eq_nil.mp (List.append_eq_nil.mp hcon).1).1

theorem strJoin_lines {l : List Str} (h : ∀ x ∈ l, [] ∉ linesOf x) (hl : l ≠ []) :
    [] ∉ linesOf (strJoin [',', '\n'] l) := by
  induction l with
  | nil => exact absurd rfl hl
  | cons x l' ih =>
    cases l' with
    | nil => exact h x (by simp)
    | cons y l'' =>
      have hx := h x (by simp)
      simp only [strJoin]
      rw [List.append_assoc]
      show [] ∉ linesOf (x ++ ',' :: '\n' :: strJoin [',', '\n'] (y :: l''))
      rw [linesOf_append_sep]
      intro hmem
      rcases List.mem_append.mp hmem with hm | hm
      · exact hx (List.dropLast_subset _ hm)
      · rcases List.mem_cons.mp hm with hm1 | hm2
        · exact absurd hm1.symm (by simp)
        · exact ih (fun z hz => h z (List.mem_cons_of_mem x hz)) (by simp) hm2

theorem strJoin_head {l : List Str} (h : ∀ x ∈ l, x ≠ []) (hh : ∀ x ∈ l, x.head? ≠ some ',') :
    (strJoin [',', '\n'] l).head? ≠ some ',' := by
  cases l with
  | nil => simp [strJoin]
  | cons x l' =>
    have hx := h x (by simp)
    have hxh := hh x (by simp)
    cases l' with
    | nil => simpa [strJoin] using hxh
    | cons y l'' =>
      simp only [strJoin]
      cases x with
      | nil => exact absurd rfl hx
      | cons c t => simpa using hxh

theorem strJoin_last {l : List Str} (h : ∀ x ∈ l, x ≠ [])
    (hh : ∀ x ∈ l, x.getLast? ≠ some ',') :
    (strJoin [',', '\n'] l).getLast? ≠ some ',' := by
  induction l with
  | nil => simp [strJoin]
  | cons x l' ih =>
    cases l' with
    | nil => exact hh x (by simp)
    | cons y l'' =>
      simp only [strJoin]
      have hne : strJoin [',', '\n'] (y :: l'') ≠ [] :=
        strJoin_ne_nil (fun z hz => h z (List.mem_cons_of_mem x hz)) (by simp)
      have hih := ih (fun z hz => h z (List.mem_cons_of_mem x hz))
        (fun z hz => hh z (List.mem_cons_of_mem x hz))
      rw [List.getLast?_append, List.getLast?_append]
      cases hc : (strJoin [',', '\n'] (y :: l'')).getLast? with
      | none => exact absurd (by simpa using hc) hne
      | some z =>
        rw [hc] at hih
        simp only [Option.or]
        simpa using hih

theorem mem_clean {s : List Str} {x : Str} (hx : x ∈ clean s) : x ∈ s ∧ x ≠ [] := by
  have := List.mem_filter.mp hx
  exact ⟨this.1, by simpa using this.2⟩

/-- C3: the join operation discards exactly the empty fragments, joins
the rest with ",\n" in input order, yields the empty string on empty or
all-empty input, equals the join of only the non-empty fragments
character for character, and (for fragments that themselves have no
empty lines and no leading/trailing comma) produces no empty line and no
leading or trailing stray comma. -/
theorem C3_join_semantics :
    (∀ s : List Str, join s = strJoin [',', '\n'] (s.filter (fun v => v ≠ [])))
    ∧ (∀ s : List Str, join s = join (s.filter (fun v => v ≠ [])))
    ∧ (∀ s : List Str, (∀ x ∈ s, x = []) → join s = [])
    ∧ (∀ xs ys : List Str, join (xs ++ [] :: ys) = join (xs ++ ys))
    ∧ (∀ a b : Str, a ≠ [] → b ≠ [] → join [a, b] = a ++ ',' :: '\n' :: b)
    ∧ (∀ s : List Str, (∀ x ∈ s, x ≠ [] → [] ∉ linesOf x) →
        join s = [] ∨ [] ∉ linesOf (join s))
    ∧ (∀ s : List Str, (∀ x ∈ s, x.head? ≠ some ',') → (join s).head? ≠ some ',')
    ∧ (∀ s : List Str, (∀ x ∈ s, x.getLast? ≠ some ',') → (join s).getLast? ≠ some ',') := by
  refine ⟨fun s => rfl, ?_, ?_, ?_, ?_, ?_, ?_, ?_⟩
  · intro s
    simp [join, clean, List.filter_filter]
  · intro s h
    have : clean s = [] := List.filter_eq_nil_iff.mpr (by intro a ha; simpa using h a ha)
    simp [join, this, strJoin]
  · intro xs ys
    simp [join, clean, List.filter_append]
  · intro a b ha hb
    simp [join, clean, List.filter, ha, hb, strJoin]
  · intro s h
    by_cases hcl : clean s = []
    · left; simp [join, hcl, strJoin]
    · right
      refine strJoin_lines ?_ hcl
      intro x hx
      have := mem_clean hx
      exact h x this.1 this.2
  · intro s h
    refine strJoin_head ?_ ?_
    · intro x hx; exact (mem_clean hx).2
    · intro x hx; exact h x (mem_clean hx).1
  · intro s h
    refine strJoin_last ?_ ?_
    · intro x hx; exact (mem_clean hx).2
    · intro x hx; exact h x (mem_clean hx).1

/-- Witness for C3 at the concrete input `["a", "", "b"]`. -/
theorem C3_join_semantics_witness :
    join [("a".data), [], ("b".data)] = [] ∨ [] ∉ linesOf (join [("a".data), [], ("b".data)])
    ∧ (join [("a".data), [], ("b".data)]).head? ≠ some ','
    ∧ (join [("a".data), [], ("b".data)]).getLast? ≠ some ','
    ∧ join [("a".data), [], ("b".data)] = ("a".data) ++ ',' :: '\n' :: ("b".data) := by
  obtain ⟨h1, h2, h3, h4, h5, h6, h7, h8⟩ := C3_join_semantics
  right
  refine ⟨?_, h7 _ (by decide), h8 _ (by decide), ?_⟩
  · have := h6 [("a".data), [], ("b".data)] (by decide)
    exact this.resolve_left (by decide)
  · have hj := h4 [("a".data)] [("b".data)]
    have hj2 := h5 ("a".data) ("b".data) (by decide) (by decide)
    simpa using hj.trans hj2

/-! ## C4, C5, C9, C8 -/

/-- C4: the one-argument time-zone constructor never aborts on an
unresolvable region name (the model's `TimeZone` is total by its type);
it returns the fragment whose `time_zone` value is the literal input
string, quoted unchanged. -/
theorem C4_timezone_silent_fallback (env : TZEnv) (s : Str) (rest : List Str)
    (h : env.locOffset s = none) :
    TimeZone env (s :: rest) = ("\"time_zone\": ".data) ++ goQuote s := by
  simp [TimeZone, h]

/-- Witness for C4: the unrecognized name `"Not/AZone"` in an environment
that resolves no location. -/
theorem C4_timezone_silent_fallback_witness :
    TimeZone ⟨("+00:00".data), fun _ => none⟩ [("Not/AZone".data)] =
      ("\"time_zone\": \"Not/AZone\"".data) := by
  have h := C4_timezone_silent_fallback ⟨("+00:00".data), fun _ => none⟩
    ("Not/AZone".data) [] rfl
  rw [h]
  decide

/-- C5: `Interval` accepts exactly integers and strings, returning an
`interval` fragment, and aborts (returns `none`, modelling the Go panic)
on every other input type, in particular on a floating-point value. -/
theorem C5_interval_type_guard :
    (∀ n : Int, Interval (GoVal.goInt n) = some (("\"interval\": ".data) ++ intStr n))
    ∧ (∀ s : Str, Interval (GoVal.goStr s) = some (("\"interval\": ".data) ++ goQuote s))
    ∧ (∀ q : ℚ, Interval (GoVal.goFloat q) = none)
    ∧ (∀ v : GoVal, (Interval v).isSome = isIntOrStr v) := by
  refine ⟨fun n => rfl, fun s => rfl, fun q => rfl, fun v => ?_⟩
  cases v <;> rfl

/-- C9 counterexample: the one-argument time-zone constructor applied to
a resolvable region name is not a pure function of its argument — it
also depends on the environment (the current instant decides between
standard and daylight-saving offsets of the region). -/
theorem C9_timezone_region_not_deterministic :
    ¬ (∀ (env1 env2 : TZEnv) (s : Str) (rest : List Str),
        (env1.locOffset s).isSome = true → (env2.locOffset s).isSome = true →
        TimeZone env1 (s :: rest) = TimeZone env2 (s :: rest)) := by
  intro h
  have hc := h ⟨("+00:00".data), fun _ => some ("-08:00".data)⟩
    ⟨("+00:00".data), fun _ => some ("-07:00".data)⟩
    ("America/Los_Angeles".data) [] rfl rfl
  exact absurd hc (by decide)

/-- C9 amended: every constructor and combinator of the library is a pure
function of its explicit arguments except the time-zone constructor with
zero arguments and the time-zone constructor with one argument that
resolves as a region name.  In the model only `TimeZone` reads the
environment at all (every other constructor is a plain function of its
arguments); on an unresolvable first argument `TimeZone` is
environment-independent, and in general it depends on the environment
only through the resolution of its first argument. -/
theorem C9_pure_except_timezone_now :
    (∀ (env1 env2 : TZEnv) (s : Str) (rest1 rest2 : List Str),
      env1.locOffset s = none → env2.locOffset s = none →
      TimeZone env1 (s :: rest1) = TimeZone env2 (s :: rest2))
    ∧ (∀ (env1 env2 : TZEnv) (s : Str) (rest1 rest2 : List Str),
      env1.locOffset s = env2.locOffset s →
      TimeZone env1 (s :: rest1) = TimeZone env2 (s :: rest2)) := by
  constructor
  · intro env1 env2 s rest1 rest2 h1 h2
    simp [TimeZone, h1, h2]
  · intro env1 env2 s rest1 rest2 h
    simp only [TimeZone, h]

/-- Witness for C9 amended: two distinct environments, neither resolving
the argument, produce the same fragment. -/
theorem C9_pure_except_timezone_now_witness :
    TimeZone ⟨("+09:00".data), fun _ => none⟩ [("Not/AZone".data)] =
      TimeZone ⟨("-05:00".data), fun _ => none⟩ [("Not/AZone".data)] :=
  C9_pure_except_timezone_now.1 _ _ _ [] [] rfl rfl

theorem natStrAux_small {f n : Nat} (hn : n < 10) (hf : 1 ≤ f) :
    natStrAux f n = [digitChar n] := by
  cases f with
  | zero => omega
  | succ f' => simp [natStrAux, hn]

/-- C8: with a non-empty break-point list, `Percentiles` renders the
points via `joinFloats`: each formatted with exactly two decimal digits,
comma-separated, in caller order (no sorting, no de-duplication);
`[50, 95.5, 99]` renders as `"50.00, 95.50, 99.00"`. -/
theorem C8_percentiles_two_decimals :
    (∀ (field : Str) (ps : List ℚ), ps ≠ [] →
      Percentiles field ps =
        ("\n      \"stats\": \x7b\n        \"field\": ".data) ++ goQuote field ++
          (",\n        \"percents\": [".data) ++ joinFloats ps ++ ("]\n      \x7d\n    ".data))
    ∧ (∀ ps : List ℚ, joinFloats ps = strJoin [',', ' '] (ps.map fmtF2))
    ∧ (∀ q : ℚ, ∃ (pre : Str) (a b : Char),
        fmtF2 q = pre ++ '.' :: [a, b] ∧ a.isDigit = true ∧ b.isDigit = true)
    ∧ joinFloats [50, mkRat 191 2, 99] = ("50.00, 95.50, 99.00".data)
    ∧ joinFloats [99, 50, 50] = ("99.00, 50.00, 50.00".data) := by
  refine ⟨?_, fun ps => rfl, ?_, by decide, by decide⟩
  · intro field ps hps
    have : ps.length > 0 := List.length_pos.mpr hps
    simp [Percentiles, this]
  · intro q
    refine ⟨(if round2 q < 0 then ['-'] else []) ++ natStr ((round2 q).natAbs / 100), ?_⟩
    have hlt : (round2 q).natAbs % 100 < 100 := Nat.mod_lt _ (by omega)
    by_cases h10 : (round2 q).natAbs % 100 < 10
    · refine ⟨'0', digitChar ((round2 q).natAbs % 100), ?_, by decide, ?_⟩
      · simp [fmtF2, pad2, h10, natStr, natStrAux, List.append_assoc]
      · have : (round2 q).natAbs % 100 < 10 := h10
        interval_cases h : ((round2 q).natAbs % 100) <;> decide
    · refine ⟨digitChar ((round2 q).natAbs % 100 / 10), digitChar ((round2 q).natAbs % 100 % 10), ?_, ?_, ?_⟩
      · have hsh : natStr ((round2 q).natAbs % 100) =
            [digitChar ((round2 q).natAbs % 100 / 10), digitChar ((round2 q).natAbs % 100 % 10)] := by
          have hge : ¬ (round2 q).natAbs % 100 < 10 := h10
          have hd : (round2 q).natAbs % 100 / 10 < 10 := by omega
          rw [natStr]
          simp only [natStrAux, hge, if_false]
          rw [natStrAux_small hd (by omega)]
          rfl
        simp [fmtF2, pad2, h10, hsh, List.append_assoc]
      · have : (round2 q).natAbs % 100 / 10 < 10 := by omega
        interval_cases h : ((round2 q).natAbs % 100 / 10) <;> decide
      · have : (round2 q).natAbs % 100 % 10 < 10 := Nat.mod_lt _ (by omega)
        interval_cases h : ((round2 q).natAbs % 100 % 10) <;> decide

/-- Witness for C8 at field `"x"` and the break-points of the spec. -/
theorem C8_percentiles_two_decimals_witness :
    Percentiles ("x".data) [50, mkRat 191 2, 99] =
      ("\n      \"stats\": \x7b\n        \"field\": \"x\",\n        \"percents\": [50.00, 95.50, 99.00]\n      \x7d\n    ".data) := by
  obtain ⟨h1, h2, h3, h4, h5⟩ := C8_percentiles_two_decimals
  rw [h1 ("x".data) [50, mkRat 191 2, 99] (by decide), h4]
  decide

/-! ## Whitespace and digit toolbox -/

theorem wsOnly_nil : WsOnly [] := by
  intro c hc
  cases hc

theorem wsOnly_append {a b : Str} (ha : WsOnly a) (hb : WsOnly b) : WsOnly (a ++ b) := by
  intro c hc
  rcases List.mem_append.mp hc with h | h
  · exact ha c h
  · exact hb c h

theorem skipWs_ws_append {w : Str} (hw : WsOnly w) (s : Str) : skipWs (w ++ s) = skipWs s := by
  induction w with
  | nil => rfl
  | cons c t ih =>
    have hc := hw c (by simp)
    simp only [List.cons_append, skipWs, hc, if_pos]
    exact ih (fun d hd => hw d (List.mem_cons_of_mem c hd))

theorem skipWs_not_ws {c : Char} {s : Str} (h : isWsChar c = false) :
    skipWs (c :: s) = c :: s := by
  simp [skipWs, h]

theorem skipWs_le (s : Str) : (skipWs s).length ≤ s.length := by
  induction s with
  | nil => simp [skipWs]
  | cons c t ih =>
    simp only [skipWs]
    split
    · exact Nat.le_succ_of_le ih
    · simp

theorem skipWs_decomp (s : Str) : ∃ w, WsOnly w ∧ s = w ++ skipWs s := by
  induction s with
  | nil => exact ⟨[], wsOnly_nil, rfl⟩
  | cons c t ih =>
    by_cases hc : isWsChar c = true
    · obtain ⟨w, hw, he⟩ := ih
      refine ⟨c :: w, ?_, ?_⟩
      · intro d hd
        rcases List.mem_cons.mp hd with h | h
        · exact h ▸ hc
        · exact hw d h
      · simp only [skipWs, hc, if_pos, List.cons_append]
        exact congrArg (c :: ·) he
    · refine ⟨[], wsOnly_nil, ?_⟩
      simp [skipWs, hc]

theorem takeWhile_all_append {p : Char → Bool} {D : Str} (r : Str)
    (hD : ∀ c ∈ D, p c = true) : (D ++ r).takeWhile p = D ++ r.takeWhile p := by
  induction D with
  | nil => rfl
  | cons c t ih =>
    have hc := hD c (by simp)
    simp only [List.cons_append, List.takeWhile_cons, hc, if_pos]
    exact congrArg (c :: ·) (ih (fun d hd => hD d (List.mem_cons_of_mem c hd)))

theorem dropWhile_all_append {p : Char → Bool} {D : Str} (r : Str)
    (hD : ∀ c ∈ D, p c = true) : (D ++ r).dropWhile p = r.dropWhile p := by
  induction D with
  | nil => rfl
  | cons c t ih =>
    have hc := hD c (by simp)
    simp only [List.cons_append, List.dropWhile_cons, hc, if_pos]
    exact ih (fun d hd => hD d (List.mem_cons_of_mem c hd))

theorem takeWhile_head_neg {p : Char → Bool} {t : Str} (h : t = [] ∨ ∃ c t', t = c :: t' ∧ p c = false) :
    t.takeWhile p = [] := by
  rcases h with h | ⟨c, t', ht, hc⟩
  · simp [h]
  · simp [ht, List.takeWhile_cons, hc]

theorem dropWhile_head_neg {p : Char → Bool} {t : Str} (h : t = [] ∨ ∃ c t', t = c :: t' ∧ p c = false) :
    t.dropWhile p = t := by
  rcases h with h | ⟨c, t', ht, hc⟩
  · simp [h]
  · simp [ht, List.dropWhile_cons, hc]

theorem natOf_foldl (b : Str) (x : Nat) :
    b.foldl (fun a c => a * 10 + (c.toNat - 48)) x = x * 10 ^ b.length + natOf b := by
  induction b generalizing x with
  | nil => simp [natOf]
  | cons c t ih =>
    simp only [List.foldl_cons, natOf]
    rw [ih, ih (0 * 10 + (c.toNat - 48))]
    simp [List.length_cons, Nat.pow_succ]
    ring

theorem natOf_append (a b : Str) : natOf (a ++ b) = natOf a * 10 ^ b.length + natOf b := by
  simp only [natOf, List.foldl_append]
  rw [natOf_foldl]
  rfl

theorem natOf_cons (c : Char) (t : Str) :
    natOf (c :: t) = (c.toNat - 48) * 10 ^ t.length + natOf t := by
  have := natOf_append [c] t
  simpa [natOf] using this

theorem natOf_replicate_zero (k : Nat) : natOf (List.replicate k '0') = 0 := by
  induction k with
  | zero => rfl
  | succ n ih => simp [List.replicate_succ, natOf_cons, ih]

theorem digitChar_isDigit {d : Nat} (h : d < 10) : (digitChar d).isDigit = true := by
  interval_cases d <;> decide

theorem digitChar_toNat {d : Nat} (h : d < 10) : (digitChar d).toNat = 48 + d := by
  interval_cases d <;> decide

theorem digitChar_ne_zero {d : Nat} (h1 : 1 ≤ d) (h2 : d < 10) : digitChar d ≠ '0' := by
  interval_cases d <;> decide

theorem isDigit_toNat {c : Char} (h : c.isDigit = true) : 48 ≤ c.toNat ∧ c.toNat ≤ 57 := by
  simp [Char.isDigit, decide_eq_true_eq] at h
  exact ⟨h.1, h.2⟩

theorem isDigit_ws {c : Char} (h : c.isDigit = true) : isWsChar c = false := by
  have hb := isDigit_toNat h
  simp only [isWsChar, Bool.or_eq_false_iff]
  refine ⟨⟨⟨?_, ?_⟩, ?_⟩, ?_⟩ <;>
    · simp only [decide_eq_false_iff_not]
      intro hc
      subst hc
      simp at hb

theorem natStrAux_spec :
    ∀ f n, n < f →
      natOf (natStrAux f n) = n ∧ natStrAux f n ≠ [] ∧
        (∀ c ∈ natStrAux f n, c.isDigit = true) ∧
        (1 ≤ n → (natStrAux f n).head? ≠ some '0') := by
  intro f
  induction f with
  | zero => intro n hn; omega
  | succ f ih =>
    intro n hn
    by_cases h10 : n < 10
    · rw [natStrAux_small h10 (by omega)]
      refine ⟨?_, by simp, ?_, ?_⟩
      · simp [natOf_cons, natOf, digitChar_toNat h10]
      · intro c hc
        rcases List.mem_singleton.mp hc with rfl
        exact digitChar_isDigit h10
      · intro h1
        simp only [List.head?_cons, ne_eq, Option.some.injEq]
        exact digitChar_ne_zero h1 h10
    · have hrec : n / 10 < f := by omega
      obtain ⟨ihv, ihne, ihd, ihz⟩ := ih (n / 10) hrec
      have hunf : natStrAux (f + 1) n = natStrAux f (n / 10) ++ [digitChar (n % 10)] := by
        simp [natStrAux, h10]
      rw [hunf]
      refine ⟨?_, by simp, ?_, ?_⟩
      · rw [natOf_append, ihv]
        have hm : n % 10 < 10 := Nat.mod_lt _ (by omega)
        simp [natOf_cons, natOf, digitChar_toNat hm]
        omega
      · intro c hc
        rcases List.mem_append.mp hc with h | h
        · exact ihd c h
        · rcases List.mem_singleton.mp h with rfl
          exact digitChar_isDigit (Nat.mod_lt _ (by omega))
      · intro _
        cases hh : natStrAux f (n / 10) with
        | nil => exact absurd hh ihne
        | cons a t =>
          have := ihz (by omega)
          rw [hh] at this
          simpa using this

theorem natStr_natOf (n : Nat) : natOf (natStr n) = n :=
  (natStrAux_spec (n + 1) n (by omega)).1

theorem natStr_ne_nil (n : Nat) : natStr n ≠ [] :=
  (natStrAux_spec (n + 1) n (by omega)).2.1

theorem natStr_digits (n : Nat) : ∀ c ∈ natStr n, c.isDigit = true :=
  (natStrAux_spec (n + 1) n (by omega)).2.2.1

theorem natStr_no_leading_zero {n : Nat} (h : 1 ≤ n) : (natStr n).head? ≠ some '0' :=
  (natStrAux_spec (n + 1) n (by omega)).2.2.2 h

/-! ## String-literal relation: shape, soundness, swap, constructions -/

theorem unescape_ne_u {e u : Char} (h : unescape e = some u) : e ≠ 'u' := by
  intro he
  subst he
  simp [unescape] at h

theorem unescape_cases {e u : Char} (h : unescape e = some u) :
    (e = '"' ∧ u = '"') ∨ (e = '\\' ∧ u = '\\') ∨ (e = '/' ∧ u = '/') ∨
      (e = 'b' ∧ u = '\x08') ∨ (e = 'f' ∧ u = '\x0c') ∨ (e = 'n' ∧ u = '\n') ∨
      (e = 'r' ∧ u = '\r') ∨ (e = 't' ∧ u = '\t') := by
  unfold unescape at h
  split at h <;> simp_all <;> exact h.symm

theorem GStr_shape : ∀ {s k r : Str}, GStr s k r → ∃ y, s = y ++ r ∧ y ≠ []
  | _, _, _, @GStr.close r => ⟨['"'], rfl, by simp⟩
  | _, _, _, @GStr.esc1 e u t k r _ hg =>
    have ⟨y, hy, _⟩ := GStr_shape hg
    ⟨'\\' :: e :: y, by rw [hy]; rfl, by simp⟩
  | _, _, _, @GStr.uesc h1 h2 h3 h4 a b c2 d n t k r _ _ _ _ _ _ hg =>
    have ⟨y, hy, _⟩ := GStr_shape hg
    ⟨'\\' :: 'u' :: h1 :: h2 :: h3 :: h4 :: y, by rw [hy]; rfl, by simp⟩
  | _, _, _, @GStr.plain c t k r _ _ _ hg =>
    have ⟨y, hy, _⟩ := GStr_shape hg
    ⟨c :: y, by rw [hy]; rfl, by simp⟩

theorem GStr_sound : ∀ {s k r : Str}, GStr s k r → parseStr s = some (k, r)
  | _, _, _, @GStr.close r => by
    rw [parseStr.eq_def]
    simp
  | _, _, _, @GStr.esc1 e u t k r he hg => by
    have ih := GStr_sound hg
    rcases unescape_cases he with hca | hca | hca | hca | hca | hca | hca | hca <;>
      · obtain ⟨rfl, rfl⟩ := hca
        rw [parseStr.eq_def]
        simp [unescape, ih]
  | _, _, _, @GStr.uesc h1 h2 h3 h4 a b c2 d n t k r hv1 hv2 hv3 hv4 hn hval hg => by
    have ih := GStr_sound hg
    subst hn
    rw [parseStr.eq_def]
    simp [hv1, hv2, hv3, hv4, hval, ih]
  | _, _, _, @GStr.plain c t k r hq hb hge hg => by
    have ih := GStr_sound hg
    have hlt : ¬ c.toNat < 0x20 := by omega
    rw [parseStr.eq_def]
    simp [hq, hb, hlt, ih]

theorem cancel_suffix {a b r : Str} (h : a ++ r = b ++ r) : a = b := by
  have hlen : a.length = b.length := by
    have := congrArg List.length h
    simp at this
    omega
  exact (List.append_inj h hlen).1

theorem GStr_replay : ∀ {s k r : Str}, GStr s k r → ∀ {q : Str}, s = q ++ r →
      ∀ (r' : Str), GStr (q ++ r') k r'
  | _, _, _, @GStr.close r, q, heq, r' => by
    have hq : q = ['"'] := (cancel_suffix (show ['"'] ++ r = q ++ r from heq)).symm
    subst hq
    exact GStr.close
  | _, _, _, @GStr.esc1 e u t k r he hg, q, heq, r' => by
    obtain ⟨z, hz, _⟩ := GStr_shape hg
    have hx : ('\\' :: e :: z) ++ r = q ++ r := by
      rw [← heq, hz]
      rfl
    have hq : q = '\\' :: e :: z := (cancel_suffix hx).symm
    subst hq
    exact GStr.esc1 he (GStr_replay hg hz r')
  | _, _, _, @GStr.uesc h1 h2 h3 h4 a b c2 d n t k r hv1 hv2 hv3 hv4 hn hval hg, q, heq, r' => by
    obtain ⟨z, hz, _⟩ := GStr_shape hg
    have hx : ('\\' :: 'u' :: h1 :: h2 :: h3 :: h4 :: z) ++ r = q ++ r := by
      rw [← heq, hz]
      rfl
    have hq : q = '\\' :: 'u' :: h1 :: h2 :: h3 :: h4 :: z := (cancel_suffix hx).symm
    subst hq
    exact GStr.uesc hv1 hv2 hv3 hv4 hn hval (GStr_replay hg hz r')
  | _, _, _, @GStr.plain c t k r hq' hb hge hg, q, heq, r' => by
    obtain ⟨z, hz, _⟩ := GStr_shape hg
    have hx : (c :: z) ++ r = q ++ r := by
      rw [← heq, hz]
      rfl
    have hq : q = c :: z := (cancel_suffix hx).symm
    subst hq
    exact GStr.plain hq' hb hge (GStr_replay hg hz r')

theorem char_eq_of_toNat {c : Char} {n : Nat} (h : c.toNat = n) : c = Char.ofNat n := by
  rw [← Char.ofNat_toNat c, h]

theorem hexVal_hexChar {m : Nat} (h : m < 16) : hexVal (hexChar m) = some m := by
  interval_cases m <;> decide

theorem GStr_of_quoteSafe {s : Str} (hs : QuoteSafe s) (r : Str) :
    GStr ((s.map goQuoteChar).flatten ++ '"' :: r) s r := by
  induction s with
  | nil => exact GStr.close
  | cons c t ih =>
    have hc : goqSafe c = true := hs c (by simp)
    have iht : GStr ((t.map goQuoteChar).flatten ++ '"' :: r) t r :=
      ih (fun d hd => hs d (List.mem_cons_of_mem c hd))
    have hstep : ((c :: t).map goQuoteChar).flatten ++ '"' :: r =
        goQuoteChar c ++ ((t.map goQuoteChar).flatten ++ '"' :: r) := by
      simp [List.flatten_cons]
    rw [hstep]
    simp only [goqSafe, Bool.or_eq_true, Bool.and_eq_true, decide_eq_true_eq,
      bne_iff_ne, ne_eq] at hc
    by_cases hq : c = '"'
    · subst hq
      exact GStr.esc1 (by decide) iht
    · by_cases hb : c = '\\'
      · subst hb
        exact GStr.esc1 (by decide) iht
      · rcases hc with ((((⟨hge, hne⟩ | h8) | h9) | h10) | h12) | h13
        · have hquote : goQuoteChar c = [c] := by
            by_cases hascii : c.toNat ≤ 0x7e
            · simp [goQuoteChar, hq, hb, hge, hascii]
            · have : c.toNat ≥ 0x80 := by omega
              simp [goQuoteChar, hq, hb, hascii, this]
          rw [hquote]
          exact GStr.plain hq hb hge iht
        · rw [char_eq_of_toNat h8]
          exact GStr.esc1 (by decide) iht
        · rw [char_eq_of_toNat h9]
          exact GStr.esc1 (by decide) iht
        · rw [char_eq_of_toNat h10]
          exact GStr.esc1 (by decide) iht
        · rw [char_eq_of_toNat h12]
          exact GStr.esc1 (by decide) iht
        · rw [char_eq_of_toNat h13]
          exact GStr.esc1 (by decide) iht

theorem GStr_of_jsonEsc (s r : Str) : GStr (jsonEsc s ++ '"' :: r) s r := by
  induction s with
  | nil => exact GStr.close
  | cons c t ih =>
    have hstep : jsonEsc (c :: t) ++ '"' :: r =
        jsonEscChar c ++ (jsonEsc t ++ '"' :: r) := by
      simp [jsonEsc, List.flatten_cons]
    rw [hstep]
    have huesc : ∀ m : Nat, m = c.toNat → m < 0xd800 →
        GStr (('\\' :: 'u' :: hex4 m) ++ (jsonEsc t ++ '"' :: r)) (c :: t) r := by
      intro m hm hlt
      have h1 : hexVal (hexChar (m / 4096 % 16)) = some (m / 4096 % 16) :=
        hexVal_hexChar (Nat.mod_lt _ (by omega))
      have h2 : hexVal (hexChar (m / 256 % 16)) = some (m / 256 % 16) :=
        hexVal_hexChar (Nat.mod_lt _ (by omega))
      have h3 : hexVal (hexChar (m / 16 % 16)) = some (m / 16 % 16) :=
        hexVal_hexChar (Nat.mod_lt _ (by omega))
      have h4 : hexVal (hexChar (m % 16)) = some (m % 16) :=
        hexVal_hexChar (Nat.mod_lt _ (by omega))
      have hrec : ((m / 4096 % 16 * 16 + m / 256 % 16) * 16 + m / 16 % 16) * 16 + m % 16 = m := by
        omega
      have hcn : Char.ofNat (((m / 4096 % 16 * 16 + m / 256 % 16) * 16 + m / 16 % 16) * 16 + m % 16) = c := by
        rw [hrec, hm, Char.ofNat_toNat]
      have := GStr.uesc h1 h2 h3 h4 rfl (Or.inl (by omega)) ih
      rw [hrec, hm] at this
      rw [show Char.ofNat c.toNat = c from Char.ofNat_toNat c] at this
      rw [← hm] at this
      exact this
    by_cases hq : c = '"'
    · subst hq
      exact GStr.esc1 (by decide) ih
    · by_cases hb : c = '\\'
      · subst hb
        exact GStr.esc1 (by decide) ih
      · by_cases hn : c = '\n'
        · subst hn
          exact GStr.esc1 (by decide) ih
        · by_cases hr : c = '\r'
          · subst hr
            exact GStr.esc1 (by decide) ih
          · by_cases ht : c = '\t'
            · subst ht
              exact GStr.esc1 (by decide) ih
            · by_cases hctl : c.toNat < 0x20
              · have : jsonEscChar c = '\\' :: 'u' :: hex4 c.toNat := by
                  simp [jsonEscChar, hq, hb, hn, hr, ht, hctl]
                rw [this]
                exact huesc c.toNat rfl (by omega)
              · by_cases hhtml : c = '<' ∨ c = '>' ∨ c = '&'
                · have : jsonEscChar c = '\\' :: 'u' :: hex4 c.toNat := by
                    simp [jsonEscChar, hq, hb, hn, hr, ht, hctl, hhtml]
                  rw [this]
                  refine huesc c.toNat rfl ?_
                  rcases hhtml with rfl | rfl | rfl <;> decide
                · by_cases hls : c.toNat = 0x2028 ∨ c.toNat = 0x2029
                  · have : jsonEscChar c = '\\' :: 'u' :: hex4 c.toNat := by
                      simp [jsonEscChar, hq, hb, hn, hr, ht, hctl, hhtml, hls]
                    rw [this]
                    refine huesc c.toNat rfl (by omega)
                  · have : jsonEscChar c = [c] := by
                      simp [jsonEscChar, hq, hb, hn, hr, ht, hctl, hhtml, hls]
                    rw [this]
                    exact GStr.plain hq hb (by omega) ih

/-! ## Number-token relation: canonicity, shape, swap, soundness -/

theorem canonNum_canonical : ∀ (e : Nat) (m : Int), (canonNum m e).2 = 0 ∨ (canonNum m e).1 % 10 ≠ 0 := by
  intro e
  induction e with
  | zero => intro m; left; rfl
  | succ e ih =>
    intro m
    by_cases h : m % 10 = 0
    · simpa [canonNum, h] using ih (m / 10)
    · right
      simp [canonNum, h]

theorem canonNum_id {m : Int} {e : Nat} (h : e = 0 ∨ m % 10 ≠ 0) : canonNum m e = (m, e) := by
  cases e with
  | zero => rfl
  | succ e =>
    rcases h with h | h
    · exact absurd h (by omega)
    · simp [canonNum, h]

theorem mkNum_canonical (m0 ex : Int) : (mkNum m0 ex).2 = 0 ∨ (mkNum m0 ex).1 % 10 ≠ 0 := by
  unfold mkNum
  split
  · left; rfl
  · exact canonNum_canonical _ _

theorem NumTok_shape {s r : Str} {p : Int × Nat} (h : NumTok s p r) :
    ∃ y, s = y ++ r ∧ y ≠ [] := by
  obtain ⟨neg, D, F, hD, _, _, _, _, hs, _⟩ := h
  refine ⟨(if neg then ['-'] else []) ++ D ++ (if F = [] then [] else '.' :: F), ?_, ?_⟩
  · simp [hs, List.append_assoc]
  · intro hcon
    rcases List.append_eq_nil.mp hcon with ⟨h1, _⟩
    rcases List.append_eq_nil.mp h1 with ⟨_, h2⟩
    exact hD h2

theorem NumTok_head {s r : Str} {p : Int × Nat} (h : NumTok s p r) :
    ∃ c t, s = c :: t ∧ (c = '-' ∨ c.isDigit = true) := by
  obtain ⟨neg, D, F, hD, hDd, _, _, _, hs, _⟩ := h
  cases neg with
  | true =>
    refine ⟨'-', D ++ ((if F = [] then [] else '.' :: F) ++ r), ?_, Or.inl rfl⟩
    simp [hs, List.append_assoc]
  | false =>
    cases D with
    | nil => exact absurd rfl hD
    | cons d D' =>
      refine ⟨d, D' ++ ((if F = [] then [] else '.' :: F) ++ r), ?_, Or.inr (hDd d (by simp))⟩
      simp [hs, List.append_assoc]

theorem NumTok_swap {q r r' : Str} {p : Int × Nat} (h : NumTok (q ++ r) p r)
    (hbr : BreakHead r') : NumTok (q ++ r') p r' := by
  obtain ⟨neg, D, F, hD, hDd, hDz, hFd, _, hs, hp⟩ := h
  have hx : q ++ r = ((if neg then ['-'] else []) ++ D ++ (if F = [] then [] else '.' :: F)) ++ r := by
    simp [hs, List.append_assoc]
  have hq : q = (if neg then ['-'] else []) ++ D ++ (if F = [] then [] else '.' :: F) :=
    cancel_suffix hx
  refine ⟨neg, D, F, hD, hDd, hDz, hFd, hbr, ?_, hp⟩
  simp [hq, List.append_assoc]

theorem break_head_not_digit {r : Str} (h : BreakHead r) :
    r = [] ∨ ∃ c t, r = c :: t ∧ c.isDigit = false := by
  rcases h with h | ⟨c, t, ht, hc⟩
  · exact Or.inl h
  · refine Or.inr ⟨c, t, ht, ?_⟩
    simp [numExt, Bool.or_eq_false_iff] at hc
    exact hc.1.1.1

theorem takeDigits_exact {D r : Str} (hD : AllDigits D)
    (hbr : r = [] ∨ ∃ c t, r = c :: t ∧ c.isDigit = false) :
    takeDigits (D ++ r) = D ∧ dropDigits (D ++ r) = r := by
  have hr : r.takeWhile (fun c => c.isDigit) = [] := by
    refine takeWhile_head_neg ?_
    rcases hbr with h | ⟨c, t, ht, hc⟩
    · exact Or.inl h
    · exact Or.inr ⟨c, t, ht, hc⟩
  have hr2 : r.dropWhile (fun c => c.isDigit) = r := by
    refine dropWhile_head_neg ?_
    rcases hbr with h | ⟨c, t, ht, hc⟩
    · exact Or.inl h
    · exact Or.inr ⟨c, t, ht, hc⟩
  constructor
  · rw [takeDigits, takeWhile_all_append r hD, hr]
    simp
  · rw [dropDigits, dropWhile_all_append r hD, hr2]

theorem parseNumExp_break (neg : Bool) (ip : Nat) {F r : Str} (hbr : BreakHead r) :
    parseNumExp neg ip F r =
      some (mkNum (if neg then -(ip * 10 ^ F.length + natOf F : Nat) else (ip * 10 ^ F.length + natOf F : Nat))
        (-(F.length : Int)), r) := by
  rcases hbr with h | ⟨c, t, ht, hc⟩
  · subst h
    rfl
  · subst ht
    have hce : ¬ (c = 'e' ∨ c = 'E') := by
      simp [numExt, Bool.or_eq_false_iff, decide_eq_false_iff_not] at hc
      exact not_or.mpr ⟨hc.1.2, hc.2⟩
    show (if c = 'e' ∨ c = 'E' then _ else _) = _
    rw [if_neg hce]

theorem parseNumFrac_spec (neg : Bool) (ip : Nat) {F r : Str} (hFd : AllDigits F)
    (hbr : BreakHead r) :
    parseNumFrac neg ip ((if F = [] then [] else '.' :: F) ++ r) =
      some (mkNum (if neg then -(ip * 10 ^ F.length + natOf F : Nat) else (ip * 10 ^ F.length + natOf F : Nat))
        (-(F.length : Int)), r) := by
  by_cases hF : F = []
  · subst hF
    rw [show ((if ([] : Str) = [] then [] else '.' :: ([] : Str)) ++ r) = r by simp]
    have hstep : parseNumFrac neg ip r = parseNumExp neg ip [] r := by
      rcases hbr with h | ⟨c, t, ht, hc⟩
      · subst h; rfl
      · subst ht
        have hdot : c ≠ '.' := by
          simp [numExt, Bool.or_eq_false_iff, decide_eq_false_iff_not] at hc
          exact hc.1.1.2
        unfold parseNumFrac
        split
        · rename_i heq
          injection heq with h1 h2
          exact absurd h1 hdot
        · rfl
    rw [hstep]
    exact parseNumExp_break neg ip hbr
  · rw [if_neg hF]
    obtain ⟨hTake, hDrop⟩ := takeDigits_exact hFd (break_head_not_digit hbr)
    show parseNumFrac neg ip ('.' :: (F ++ r)) = _
    rw [parseNumFrac.eq_def]
    simp only [hTake, hDrop, if_neg hF]
    exact parseNumExp_break neg ip hbr

theorem digit_ne_minus {d : Char} (hd : d.isDigit = true) : d ≠ '-' := by
  intro hcon
  rw [hcon] at hd
  exact absurd hd (by decide)

theorem parseNum_not_minus {d : Char} (t : Str) (hdm : d ≠ '-') :
    parseNum (d :: t) = parseNumBody false (d :: t) := by
  rw [parseNum.eq_def]
  split
  · rename_i heq
    injection heq with h1 h2
    exact absurd h1 hdm
  · rfl

theorem parseNumBody_cons (neg : Bool) (c : Char) (t : Str) :
    parseNumBody neg (c :: t) =
      if c = '0' then parseNumFrac neg 0 t
      else if c.isDigit then parseNumFrac neg (natOf (c :: takeDigits t)) (dropDigits t)
      else none := by
  rw [parseNumBody.eq_def]

theorem parseNumBody_spec (neg : Bool) {D F r : Str} (hD : D ≠ []) (hDd : AllDigits D)
    (hDz : D.head? = some '0' → D = ['0']) (hFd : AllDigits F) (hbr : BreakHead r) :
    parseNumBody neg (D ++ (if F = [] then [] else '.' :: F) ++ r) =
      some (mkNum (if neg then -(natOf (D ++ F) : Nat) else (natOf (D ++ F) : Nat))
        (-(F.length : Int)), r) := by
  have hfr : (if F = [] then [] else '.' :: F) ++ r = [] ∨
      ∃ c t, (if F = [] then [] else '.' :: F) ++ r = c :: t ∧ c.isDigit = false := by
    by_cases hF : F = []
    · simp only [hF, if_pos rfl, List.nil_append]
      exact break_head_not_digit hbr
    · rw [if_neg hF]
      exact Or.inr ⟨'.', F ++ r, rfl, by decide⟩
  cases D with
  | nil => exact absurd rfl hD
  | cons d D' =>
    have hd : d.isDigit = true := hDd d (by simp)
    have hdig : AllDigits D' := fun c hc => hDd c (List.mem_cons_of_mem d hc)
    have hassoc : (d :: D') ++ (if F = [] then [] else '.' :: F) ++ r =
        d :: (D' ++ ((if F = [] then [] else '.' :: F) ++ r)) := by
      simp [List.append_assoc]
    rw [hassoc]
    by_cases hz : d = '0'
    · have hD0 : d :: D' = ['0'] := hDz (by rw [hz]; rfl)
      have hD' : D' = [] := by
        have hlen := congrArg List.length hD0
        simpa using hlen
      subst hz hD'
      show parseNumBody neg ('0' :: ([] ++ ((if F = [] then [] else '.' :: F) ++ r))) = _
      rw [List.nil_append, parseNumBody_cons, if_pos rfl]
      have hrw := parseNumFrac_spec neg 0 hFd hbr
      rw [hrw]
      have hv : natOf (['0'] ++ F) = 0 * 10 ^ F.length + natOf F := by
        rw [natOf_append]
        simp [natOf]
      rw [hv]
    · rw [parseNumBody_cons, if_neg hz, if_pos hd]
      obtain ⟨hTake, hDrop⟩ := takeDigits_exact hdig hfr
      rw [show takeDigits (D' ++ ((if F = [] then [] else '.' :: F) ++ r)) = D' from hTake]
      rw [show dropDigits (D' ++ ((if F = [] then [] else '.' :: F) ++ r)) =
        (if F = [] then [] else '.' :: F) ++ r from hDrop]
      have := parseNumFrac_spec neg (natOf (d :: D')) hFd hbr
      rw [this]
      have hv : natOf ((d :: D') ++ F) = natOf (d :: D') * 10 ^ F.length + natOf F :=
        natOf_append _ _
      rw [hv]

theorem shapeG {s : Str} {kd : GK} {r : Str} (h : G s kd r) : ∃ y, s = y ++ r := by
  induction h with
  | @jnull w r hw => exact ⟨w ++ ['n', 'u', 'l', 'l'], by simp⟩
  | @jtrue w r hw => exact ⟨w ++ ['t', 'r', 'u', 'e'], by simp⟩
  | @jfalse w r hw => exact ⟨w ++ ['f', 'a', 'l', 's', 'e'], by simp⟩
  | @jstr w t k r hw hg =>
    obtain ⟨y, hy, _⟩ := GStr_shape hg
    exact ⟨w ++ '"' :: y, by simp [hy]⟩
  | @jnum w s1 r p hw hn =>
    obtain ⟨y, hy, _⟩ := NumTok_shape hn
    exact ⟨w ++ y, by simp [hy]⟩
  | @jobj w t r ms hw hmf ih =>
    obtain ⟨y, hy⟩ := ih
    exact ⟨w ++ '\x7b' :: y, by simp [hy]⟩
  | @jarr w t r vs hw haf ih =>
    obtain ⟨y, hy⟩ := ih
    exact ⟨w ++ '[' :: y, by simp [hy]⟩
  | @memb w t k w1 r1 r2 r3 v hw hg hr1 hw1 hv ih =>
    obtain ⟨y1, hy1, _⟩ := GStr_shape hg
    obtain ⟨y3, hy3⟩ := ih
    refine ⟨w ++ '"' :: y1 ++ w1 ++ ':' :: y3, ?_⟩
    rw [hy1, hr1, hy3]
    simp [List.append_assoc]
  | @fnil w r hw => exact ⟨w ++ ['\x7d'], by simp⟩
  | @fcons s1 r1 r m ms hm hmt ih1 ih2 =>
    obtain ⟨y1, hy1⟩ := ih1
    obtain ⟨y2, hy2⟩ := ih2
    exact ⟨y1 ++ y2, by rw [hy1, hy2]; simp [List.append_assoc]⟩
  | @tnil w r hw => exact ⟨w ++ ['\x7d'], by simp⟩
  | @tcons w s1 r1 r m ms hw hm hmt ih1 ih2 =>
    obtain ⟨y1, hy1⟩ := ih1
    obtain ⟨y2, hy2⟩ := ih2
    exact ⟨w ++ ',' :: y1 ++ y2, by rw [hy1, hy2]; simp [List.append_assoc]⟩
  | @anil w r hw => exact ⟨w ++ [']'], by simp⟩
  | @acons s1 r1 r v vs hv hat ih1 ih2 =>
    obtain ⟨y1, hy1⟩ := ih1
    obtain ⟨y2, hy2⟩ := ih2
    exact ⟨y1 ++ y2, by rw [hy1, hy2]; simp [List.append_assoc]⟩
  | @atnil w r hw => exact ⟨w ++ [']'], by simp⟩
  | @atcons w s1 r1 r v vs hw hv hat ih1 ih2 =>
    obtain ⟨y1, hy1⟩ := ih1
    obtain ⟨y2, hy2⟩ := ih2
    exact ⟨w ++ ',' :: y1 ++ y2, by rw [hy1, hy2]; simp [List.append_assoc]⟩

theorem NumTok_sound {s r : Str} {p : Int × Nat} (h : NumTok s p r) :
    parseNum s = some (p, r) := by
  obtain ⟨neg, D, F, hD, hDd, hDz, hFd, hbr, hs, hp⟩ := h
  subst hp
  cases neg with
  | false =>
    have hdm : ∃ d D', D = d :: D' ∧ d ≠ '-' := by
      cases D with
      | nil => exact absurd rfl hD
      | cons d D' => exact ⟨d, D', rfl, digit_ne_minus (hDd d (by simp))⟩
    obtain ⟨d, D', hDe, hdm⟩ := hdm
    have hs2 : s = d :: (D' ++ ((if F = [] then [] else '.' :: F) ++ r)) := by
      rw [hs, hDe]
      simp [List.append_assoc]
    rw [hs2, parseNum_not_minus _ hdm]
    have := parseNumBody_spec false hD hDd hDz hFd hbr
    rw [hDe] at this
    have hassoc : (d :: D') ++ (if F = [] then [] else '.' :: F) ++ r =
        d :: (D' ++ ((if F = [] then [] else '.' :: F) ++ r)) := by
      simp [List.append_assoc]
    rw [hassoc] at this
    rw [this, hDe]
  | true =>
    have hs2 : s = '-' :: (D ++ (if F = [] then [] else '.' :: F) ++ r) := by
      rw [hs]
      rfl
    rw [hs2]
    have hstep : parseNum ('-' :: (D ++ (if F = [] then [] else '.' :: F) ++ r)) =
        parseNumBody true (D ++ (if F = [] then [] else '.' :: F) ++ r) := by
      rw [parseNum.eq_def]
      rfl
    rw [hstep]
    rw [parseNumBody_spec true hD hDd hDz hFd hbr]

/-! ## Soundness of the derivation relations against the parser -/

theorem isDigit_ne {c d : Char} (h : c.isDigit = true) (hd : d.isDigit = false) : c ≠ d := by
  intro he
  subst he
  simp [h] at hd

theorem ws_prepend {w : Str} (hw : WsOnly w) {s : Str} {kd : GK} {r : Str} (h : G s kd r) :
    G (w ++ s) kd r := by
  induction h with
  | @jnull w0 r hw0 =>
    rw [← List.append_assoc]
    exact G.jnull (wsOnly_append hw hw0)
  | @jtrue w0 r hw0 =>
    rw [← List.append_assoc]
    exact G.jtrue (wsOnly_append hw hw0)
  | @jfalse w0 r hw0 =>
    rw [← List.append_assoc]
    exact G.jfalse (wsOnly_append hw hw0)
  | @jstr w0 t k r hw0 hg =>
    rw [← List.append_assoc]
    exact G.jstr (wsOnly_append hw hw0) hg
  | @jnum w0 s1 r p hw0 hn =>
    rw [← List.append_assoc]
    exact G.jnum (wsOnly_append hw hw0) hn
  | @jobj w0 t r ms hw0 hmf _ =>
    rw [← List.append_assoc]
    exact G.jobj (wsOnly_append hw hw0) hmf
  | @jarr w0 t r vs hw0 haf _ =>
    rw [← List.append_assoc]
    exact G.jarr (wsOnly_append hw hw0) haf
  | @memb w0 t k w1 r1 r2 r3 v hw0 hg hr1 hw1 hv _ =>
    rw [← List.append_assoc]
    exact G.memb (wsOnly_append hw hw0) hg hr1 hw1 hv
  | @fnil w0 r hw0 =>
    rw [← List.append_assoc]
    exact G.fnil (wsOnly_append hw hw0)
  | @fcons s1 r1 r m ms hm hmt ih1 _ =>
    exact G.fcons ih1 hmt
  | @tnil w0 r hw0 =>
    rw [← List.append_assoc]
    exact G.tnil (wsOnly_append hw hw0)
  | @tcons w0 s1 r1 r m ms hw0 hm hmt _ _ =>
    rw [← List.append_assoc]
    exact G.tcons (wsOnly_append hw hw0) hm hmt
  | @anil w0 r hw0 =>
    rw [← List.append_assoc]
    exact G.anil (wsOnly_append hw hw0)
  | @acons s1 r1 r v vs hv hat ih1 _ =>
    exact G.acons ih1 hat
  | @atnil w0 r hw0 =>
    rw [← List.append_assoc]
    exact G.atnil (wsOnly_append hw hw0)
  | @atcons w0 s1 r1 r v vs hw0 hv hat _ _ =>
    rw [← List.append_assoc]
    exact G.atcons (wsOnly_append hw hw0) hv hat

/-- A value derivation starts, after leading whitespace, with a
character that is not whitespace and is none of the structural
characters that end or separate members and elements. -/
theorem headVal {s r : Str} {v : Json} (h : GVal s v r) :
    ∃ w c t, s = w ++ c :: t ∧ WsOnly w ∧ isWsChar c = false ∧
      c ≠ '\x7d' ∧ c ≠ ']' ∧ c ≠ ',' := by
  cases h with
  | @jnull w r hw =>
    exact ⟨w, 'n', 'u' :: 'l' :: 'l' :: r, rfl, hw, by decide, by decide, by decide, by decide⟩
  | @jtrue w r hw =>
    exact ⟨w, 't', 'r' :: 'u' :: 'e' :: r, rfl, hw, by decide, by decide, by decide, by decide⟩
  | @jfalse w r hw =>
    exact ⟨w, 'f', 'a' :: 'l' :: 's' :: 'e' :: r, rfl, hw, by decide, by decide, by decide,
      by decide⟩
  | @jstr w t k r hw hg =>
    exact ⟨w, '"', t, rfl, hw, by decide, by decide, by decide, by decide⟩
  | @jnum w s1 r p hw hn =>
    obtain ⟨c, t1, hs1, hcd⟩ := NumTok_head hn
    refine ⟨w, c, t1, by rw [hs1], hw, ?_, ?_, ?_, ?_⟩ <;>
      rcases hcd with rfl | hd
    · decide
    · exact isDigit_ws hd
    · decide
    · exact isDigit_ne hd (by decide)
    · decide
    · exact isDigit_ne hd (by decide)
    · decide
    · exact isDigit_ne hd (by decide)
  | @jobj w t r ms hw hmf =>
    exact ⟨w, '\x7b', t, rfl, hw, by decide, by decide, by decide, by decide⟩
  | @jarr w t r vs hw haf =>
    exact ⟨w, '[', t, rfl, hw, by decide, by decide, by decide, by decide⟩

/-- A member derivation starts, after leading whitespace, with the
opening quote of its key. -/
theorem headMemb {s r : Str} {m : Str × Json} (h : GMemb s m r) :
    ∃ w t, s = w ++ '"' :: t ∧ WsOnly w := by
  cases h with
  | @memb w t k w1 r1 r2 r3 v hw hg hr1 hw1 hv => exact ⟨w, t, rfl, hw⟩

/-- Fuel needed by the parser of each category beyond twice the input
length. -/
def gkNeed : GK → Nat
  | GK.membsF _ => 2
  | GK.arrF _ => 2
  | _ => 1

/-- Success of the category's parser with the given fuel. -/
def gkParse (f : Nat) (s : Str) : GK → Str → Prop
  | GK.val v, r => parseVal f s = some (v, r)
  | GK.memb m, r => parseMemb f s = some (m, r)
  | GK.membsF ms, r => parseObjF f s = some (ms, r)
  | GK.membsT ms, r => parseObjT f s = some (ms, r)
  | GK.arrF vs, r => parseArrF f s = some (vs, r)
  | GK.arrT vs, r => parseArrT f s = some (vs, r)

theorem fuel_succ {n k f : Nat} (h1 : 1 ≤ k) (h : n + k ≤ f) : ∃ f', f = f' + 1 := by
  cases f with
  | zero => omega
  | succ f' => exact ⟨f', rfl⟩

/-- Soundness: every derivation is accepted by the corresponding parser,
given fuel at least twice the input length plus the category's need. -/
theorem soundG {s : Str} {kd : GK} {r : Str} (h : G s kd r) :
    ∀ f, 2 * s.length + gkNeed kd ≤ f → gkParse f s kd r := by
  induction h with
  | @jnull w r hw =>
    intro f hf
    obtain ⟨f', rfl⟩ := fuel_succ (Nat.le_refl 1) hf
    show parseVal (f' + 1) (w ++ 'n' :: 'u' :: 'l' :: 'l' :: r) = some (Json.null, r)
    simp only [parseVal]
    rw [skipWs_ws_append hw, skipWs_not_ws (by decide)]
    simp
  | @jtrue w r hw =>
    intro f hf
    obtain ⟨f', rfl⟩ := fuel_succ (Nat.le_refl 1) hf
    show parseVal (f' + 1) (w ++ 't' :: 'r' :: 'u' :: 'e' :: r) = some (Json.bool true, r)
    simp only [parseVal]
    rw [skipWs_ws_append hw, skipWs_not_ws (by decide)]
    simp
  | @jfalse w r hw =>
    intro f hf
    obtain ⟨f', rfl⟩ := fuel_succ (Nat.le_refl 1) hf
    show parseVal (f' + 1) (w ++ 'f' :: 'a' :: 'l' :: 's' :: 'e' :: r) = some (Json.bool false, r)
    simp only [parseVal]
    rw [skipWs_ws_append hw, skipWs_not_ws (by decide)]
    simp
  | @jstr w t k r hw hg =>
    intro f hf
    obtain ⟨f', rfl⟩ := fuel_succ (Nat.le_refl 1) hf
    show parseVal (f' + 1) (w ++ '"' :: t) = some (Json.str k, r)
    simp only [parseVal]
    rw [skipWs_ws_append hw, skipWs_not_ws (by decide)]
    simp [GStr_sound hg]
  | @jnum w s1 r p hw hn =>
    intro f hf
    obtain ⟨f', rfl⟩ := fuel_succ (Nat.le_refl 1) hf
    obtain ⟨c, t1, hs1, hcd⟩ := NumTok_head hn
    have hws : isWsChar c = false := by
      rcases hcd with rfl | hd
      · decide
      · exact isDigit_ws hd
    have hb1 : ¬ c = '\x7b' := by
      rcases hcd with rfl | hd
      · decide
      · exact isDigit_ne hd (by decide)
    have hb2 : ¬ c = '[' := by
      rcases hcd with rfl | hd
      · decide
      · exact isDigit_ne hd (by decide)
    have hb3 : ¬ c = '"' := by
      rcases hcd with rfl | hd
      · decide
      · exact isDigit_ne hd (by decide)
    have hb4 : ¬ c = 't' := by
      rcases hcd with rfl | hd
      · decide
      · exact isDigit_ne hd (by decide)
    have hb5 : ¬ c = 'f' := by
      rcases hcd with rfl | hd
      · decide
      · exact isDigit_ne hd (by decide)
    have hb6 : ¬ c = 'n' := by
      rcases hcd with rfl | hd
      · decide
      · exact isDigit_ne hd (by decide)
    show parseVal (f' + 1) (w ++ s1) = some (Json.num p.1 p.2, r)
    rw [hs1]
    simp only [parseVal]
    rw [skipWs_ws_append hw, skipWs_not_ws hws]
    have hnum : parseNum (c :: t1) = some (p, r) := hs1 ▸ NumTok_sound hn
    simp [hb1, hb2, hb3, hb4, hb5, hb6, hnum]
  | @jobj w t r ms hw hmf ih =>
    intro f hf
    obtain ⟨f', rfl⟩ := fuel_succ (Nat.le_refl 1) hf
    have hkn1 : gkNeed (GK.val (Json.obj (canonMembs ms))) = 1 := rfl
    have hkn2 : gkNeed (GK.membsF ms) = 2 := rfl
    have hlen : (w ++ '\x7b' :: t : Str).length = w.length + (t.length + 1) := by simp
    have hof : parseObjF f' t = some (ms, r) := ih f' (by omega)
    show parseVal (f' + 1) (w ++ '\x7b' :: t) = some (Json.obj (canonMembs ms), r)
    simp only [parseVal]
    rw [skipWs_ws_append hw, skipWs_not_ws (by decide)]
    simp [hof]
  | @jarr w t r vs hw haf ih =>
    intro f hf
    obtain ⟨f', rfl⟩ := fuel_succ (Nat.le_refl 1) hf
    have hkn1 : gkNeed (GK.val (Json.arr vs)) = 1 := rfl
    have hkn2 : gkNeed (GK.arrF vs) = 2 := rfl
    have hlen : (w ++ '[' :: t : Str).length = w.length + (t.length + 1) := by simp
    have hof : parseArrF f' t = some (vs, r) := ih f' (by omega)
    show parseVal (f' + 1) (w ++ '[' :: t) = some (Json.arr vs, r)
    simp only [parseVal]
    rw [skipWs_ws_append hw, skipWs_not_ws (by decide)]
    simp [hof]
  | @memb w t k w1 r1 r2 r3 v hw hg hr1 hw1 hv ih =>
    intro f hf
    obtain ⟨f', rfl⟩ := fuel_succ (Nat.le_refl 1) hf
    have hkn1 : gkNeed (GK.memb (k, v)) = 1 := rfl
    have hkn2 : gkNeed (GK.val v) = 1 := rfl
    obtain ⟨y1, hy1, _⟩ := GStr_shape hg
    have hlen : (w ++ '"' :: t : Str).length = w.length + (t.length + 1) := by simp
    have hlen2 : t.length = y1.length + r1.length := by
      rw [hy1]
      simp
    have hlen3 : r1.length = w1.length + (r2.length + 1) := by
      rw [hr1]
      simp
    have hv' : parseVal f' r2 = some (v, r3) := ih f' (by omega)
    show parseMemb (f' + 1) (w ++ '"' :: t) = some ((k, v), r3)
    simp only [parseMemb]
    rw [skipWs_ws_append hw, skipWs_not_ws (by decide)]
    simp [GStr_sound hg, hr1, skipWs_ws_append hw1,
      skipWs_not_ws (show isWsChar ':' = false by decide), hv']
  | @fnil w r hw =>
    intro f hf
    obtain ⟨f', rfl⟩ := fuel_succ one_le_two hf
    show parseObjF (f' + 1) (w ++ '\x7d' :: r) = some ([], r)
    simp only [parseObjF]
    rw [skipWs_ws_append hw, skipWs_not_ws (by decide)]
    simp
  | @fcons s1 r1 r m ms hm hmt ih1 ih2 =>
    intro f hf
    obtain ⟨f', rfl⟩ := fuel_succ one_le_two hf
    have hkn1 : gkNeed (GK.membsF (m :: ms)) = 2 := rfl
    have hkn2 : gkNeed (GK.memb m) = 1 := rfl
    have hkn3 : gkNeed (GK.membsT ms) = 1 := rfl
    obtain ⟨y, hy⟩ := shapeG hm
    have hlen : s1.length = y.length + r1.length := by
      rw [hy]
      simp
    have h1 : parseMemb f' s1 = some (m, r1) := ih1 f' (by omega)
    have h2 : parseObjT f' r1 = some (ms, r) := ih2 f' (by omega)
    obtain ⟨wm, tm, hsm, hwm⟩ := headMemb hm
    show parseObjF (f' + 1) s1 = some (m :: ms, r)
    simp only [parseObjF]
    rw [hsm, skipWs_ws_append hwm, skipWs_not_ws (by decide), ← hsm]
    simp [h1, h2]
  | @tnil w r hw =>
    intro f hf
    obtain ⟨f', rfl⟩ := fuel_succ (Nat.le_refl 1) hf
    show parseObjT (f' + 1) (w ++ '\x7d' :: r) = some ([], r)
    simp only [parseObjT]
    rw [skipWs_ws_append hw, skipWs_not_ws (by decide)]
    simp
  | @tcons w s1 r1 r m ms hw hm hmt ih1 ih2 =>
    intro f hf
    obtain ⟨f', rfl⟩ := fuel_succ (Nat.le_refl 1) hf
    have hkn1 : gkNeed (GK.membsT (m :: ms)) = 1 := rfl
    have hkn2 : gkNeed (GK.memb m) = 1 := rfl
    have hkn3 : gkNeed (GK.membsT ms) = 1 := rfl
    obtain ⟨y, hy⟩ := shapeG hm
    have hlen : (w ++ ',' :: s1 : Str).length = w.length + (s1.length + 1) := by simp
    have hlen2 : s1.length = y.length + r1.length := by
      rw [hy]
      simp
    have h1 : parseMemb f' s1 = some (m, r1) := ih1 f' (by omega)
    have h2 : parseObjT f' r1 = some (ms, r) := ih2 f' (by omega)
    show parseObjT (f' + 1) (w ++ ',' :: s1) = some (m :: ms, r)
    simp only [parseObjT]
    rw [skipWs_ws_append hw, skipWs_not_ws (by decide)]
    simp [h1, h2]
  | @anil w r hw =>
    intro f hf
    obtain ⟨f', rfl⟩ := fuel_succ one_le_two hf
    show parseArrF (f' + 1) (w ++ ']' :: r) = some ([], r)
    simp only [parseArrF]
    rw [skipWs_ws_append hw, skipWs_not_ws (by decide)]
    simp
  | @acons s1 r1 r v vs hv hat ih1 ih2 =>
    intro f hf
    obtain ⟨f', rfl⟩ := fuel_succ one_le_two hf
    have hkn1 : gkNeed (GK.arrF (v :: vs)) = 2 := rfl
    have hkn2 : gkNeed (GK.val v) = 1 := rfl
    have hkn3 : gkNeed (GK.arrT vs) = 1 := rfl
    obtain ⟨y, hy⟩ := shapeG hv
    have hlen : s1.length = y.length + r1.length := by
      rw [hy]
      simp
    have h1 : parseVal f' s1 = some (v, r1) := ih1 f' (by omega)
    have h2 : parseArrT f' r1 = some (vs, r) := ih2 f' (by omega)
    obtain ⟨wv, cv, tv, hsv, hwv, hcw, hc1, hc2, hc3⟩ := headVal hv
    show parseArrF (f' + 1) s1 = some (v :: vs, r)
    simp only [parseArrF]
    rw [hsv, skipWs_ws_append hwv, skipWs_not_ws hcw, ← hsv]
    simp [hc2, h1, h2]
  | @atnil w r hw =>
    intro f hf
    obtain ⟨f', rfl⟩ := fuel_succ (Nat.le_refl 1) hf
    show parseArrT (f' + 1) (w ++ ']' :: r) = some ([], r)
    simp only [parseArrT]
    rw [skipWs_ws_append hw, skipWs_not_ws (by decide)]
    simp
  | @atcons w s1 r1 r v vs hw hv hat ih1 ih2 =>
    intro f hf
    obtain ⟨f', rfl⟩ := fuel_succ (Nat.le_refl 1) hf
    have hkn1 : gkNeed (GK.arrT (v :: vs)) = 1 := rfl
    have hkn2 : gkNeed (GK.val v) = 1 := rfl
    have hkn3 : gkNeed (GK.arrT vs) = 1 := rfl
    obtain ⟨y, hy⟩ := shapeG hv
    have hlen : (w ++ ',' :: s1 : Str).length = w.length + (s1.length + 1) := by simp
    have hlen2 : s1.length = y.length + r1.length := by
      rw [hy]
      simp
    have h1 : parseVal f' s1 = some (v, r1) := ih1 f' (by omega)
    have h2 : parseArrT f' r1 = some (vs, r) := ih2 f' (by omega)
    show parseArrT (f' + 1) (w ++ ',' :: s1) = some (v :: vs, r)
    simp only [parseArrT]
    rw [skipWs_ws_append hw, skipWs_not_ws (by decide)]
    simp [h1, h2]

/-- Soundness for values: `parseVal` accepts every value derivation. -/
theorem soundV {s r : Str} {v : Json} (h : GVal s v r) {f : Nat}
    (hf : 2 * s.length + 1 ≤ f) : parseVal f s = some (v, r) :=
  soundG h f hf

theorem skipWs_ws_nil {r : Str} (hr : WsOnly r) : skipWs r = [] := by
  have := skipWs_ws_append hr []
  simpa using this

/-- A full-document value derivation with whitespace-only remainder is
accepted by `parse`. -/
theorem parse_of_GVal {s : Str} {v : Json} {r : Str} (h : GVal s v r) (hr : WsOnly r) :
    parse s = some v := by
  unfold parse jsonFuel
  rw [soundV h (by omega)]
  simp [skipWs_ws_nil hr]

/-! ## Fragment combinators

Fragments compose: a member fragment is a singleton member-sequence
fragment, member-sequence fragments glue with `","` plus whitespace (the
`join` separator), whitespace may be appended, and a member-sequence
fragment wrapped in braces is an object value fragment.  The same holds
for array element fragments. -/

theorem ws_numExt {c : Char} (h : isWsChar c = true) : numExt c = false := by
  simp only [isWsChar, Bool.or_eq_true, decide_eq_true_eq] at h
  rcases h with ((rfl | rfl) | rfl) | rfl <;> decide

theorem breakHead_ws_cons {w : Str} {c : Char} (hw : WsOnly w) (hc : numExt c = false)
    (x : Str) : BreakHead (w ++ c :: x) := by
  cases w with
  | nil => exact Or.inr ⟨c, x, rfl, hc⟩
  | cons d w' => exact Or.inr ⟨d, w' ++ c :: x, rfl, ws_numExt (hw d (by simp))⟩

/-- A members-tail derivation starts with a character that cannot extend
a number token. -/
theorem headT {s : Str} {ms : List (Str × Json)} {u : Str} (h : GMembsT s ms u) :
    BreakHead s := by
  cases h with
  | tnil hw => exact breakHead_ws_cons hw (by decide) _
  | tcons hw hm hmt => exact breakHead_ws_cons hw (by decide) _

/-- An elements-tail derivation starts with a character that cannot
extend a number token. -/
theorem headAT {s : Str} {vs : List Json} {u : Str} (h : GArrT s vs u) :
    BreakHead s := by
  cases h with
  | atnil hw => exact breakHead_ws_cons hw (by decide) _
  | atcons hw hv hat => exact breakHead_ws_cons hw (by decide) _

theorem MsFrag_of_MFrag {s : Str} {m : Str × Json} (h : MFrag s m) : MsFrag s [m] := by
  obtain ⟨w, hw, hall⟩ := h
  refine ⟨w, hw, ?_⟩
  intro t ms2 u ht
  have hg : GMemb (s ++ t) m (w ++ t) := hall t (headT ht)
  refine ⟨G.fcons hg ht, ?_⟩
  intro w0 w1 h0 h1
  have hm1 : GMemb (w1 ++ (s ++ t)) m (w ++ t) := ws_prepend h1 hg
  have h2 := G.tcons h0 hm1 ht
  simpa [List.append_assoc] using h2

theorem VsFrag_of_VFrag {s : Str} {v : Json} (h : VFrag s v) : VsFrag s [v] := by
  obtain ⟨w, hw, hall⟩ := h
  refine ⟨w, hw, ?_⟩
  intro t vs2 u ht
  have hg : GVal (s ++ t) v (w ++ t) := hall t (headAT ht)
  refine ⟨G.acons hg ht, ?_⟩
  intro w0 w1 h0 h1
  have hv1 : GVal (w1 ++ (s ++ t)) v (w ++ t) := ws_prepend h1 hg
  have h2 := G.atcons h0 hv1 ht
  simpa [List.append_assoc] using h2

theorem MsFrag_glue {wsep : Str} (hsep : WsOnly wsep) {s1 s2 : Str}
    {ms1 ms2 : List (Str × Json)} (h1 : MsFrag s1 ms1) (h2 : MsFrag s2 ms2) :
    MsFrag (s1 ++ ',' :: wsep ++ s2) (ms1 ++ ms2) := by
  obtain ⟨w1, hw1, p1⟩ := h1
  obtain ⟨w2, hw2, p2⟩ := h2
  refine ⟨w2, hw2, ?_⟩
  intro t ms3 u ht
  have H2 := p2 t ms3 u ht
  have hT2 : GMembsT (w1 ++ (',' :: (wsep ++ (s2 ++ t)))) (ms2 ++ ms3) u := by
    have h3 := H2.2 w1 wsep hw1 hsep
    simpa [List.append_assoc] using h3
  have H1 := p1 (',' :: (wsep ++ (s2 ++ t))) (ms2 ++ ms3) u hT2
  constructor
  · have h4 := H1.1
    simpa [List.append_assoc] using h4
  · intro w0 w1' h0 h1'
    have h5 := H1.2 w0 w1' h0 h1'
    simpa [List.append_assoc] using h5

theorem VsFrag_glue {wsep : Str} (hsep : WsOnly wsep) {s1 s2 : Str}
    {vs1 vs2 : List Json} (h1 : VsFrag s1 vs1) (h2 : VsFrag s2 vs2) :
    VsFrag (s1 ++ ',' :: wsep ++ s2) (vs1 ++ vs2) := by
  obtain ⟨w1, hw1, p1⟩ := h1
  obtain ⟨w2, hw2, p2⟩ := h2
  refine ⟨w2, hw2, ?_⟩
  intro t vs3 u ht
  have H2 := p2 t vs3 u ht
  have hT2 : GArrT (w1 ++ (',' :: (wsep ++ (s2 ++ t)))) (vs2 ++ vs3) u := by
    have h3 := H2.2 w1 wsep hw1 hsep
    simpa [List.append_assoc] using h3
  have H1 := p1 (',' :: (wsep ++ (s2 ++ t))) (vs2 ++ vs3) u hT2
  constructor
  · have h4 := H1.1
    simpa [List.append_assoc] using h4
  · intro w0 w1' h0 h1'
    have h5 := H1.2 w0 w1' h0 h1'
    simpa [List.append_assoc] using h5

theorem MsFrag_ws_append {s : Str} {ms : List (Str × Json)} (h : MsFrag s ms)
    {w' : Str} (hw' : WsOnly w') : MsFrag (s ++ w') ms := by
  obtain ⟨w, hw, hp⟩ := h
  refine ⟨w ++ w', wsOnly_append hw hw', ?_⟩
  intro t ms2 u ht
  have ht2 : GMembsT (w ++ (w' ++ t)) ms2 u := by
    simpa [List.append_assoc] using ht
  have H := hp (w' ++ t) ms2 u ht2
  constructor
  · have h4 := H.1
    simpa [List.append_assoc] using h4
  · intro w0 w1 h0 h1
    have h5 := H.2 w0 w1 h0 h1
    simpa [List.append_assoc] using h5

theorem VsFrag_ws_append {s : Str} {vs : List Json} (h : VsFrag s vs)
    {w' : Str} (hw' : WsOnly w') : VsFrag (s ++ w') vs := by
  obtain ⟨w, hw, hp⟩ := h
  refine ⟨w ++ w', wsOnly_append hw hw', ?_⟩
  intro t vs2 u ht
  have ht2 : GArrT (w ++ (w' ++ t)) vs2 u := by
    simpa [List.append_assoc] using ht
  have H := hp (w' ++ t) vs2 u ht2
  constructor
  · have h4 := H.1
    simpa [List.append_assoc] using h4
  · intro w0 w1 h0 h1
    have h5 := H.2 w0 w1 h0 h1
    simpa [List.append_assoc] using h5

/-- `strJoin` of member fragments with the `","` + whitespace separator
is a member-sequence fragment of the concatenated members. -/
theorem MsFrag_strJoin {wsep : Str} (hsep : WsOnly wsep) :
    ∀ l : List (Str × (Str × Json)), l ≠ [] → (∀ p ∈ l, MFrag p.1 p.2) →
      MsFrag (strJoin (',' :: wsep) (l.map Prod.fst)) (l.map Prod.snd)
  | [], hne, _ => absurd rfl hne
  | [p], _, hall => by
    simpa [strJoin] using MsFrag_of_MFrag (hall p (by simp))
  | p :: q :: l, _, hall => by
    have htail := MsFrag_strJoin hsep (q :: l) (by simp)
      (fun x hx => hall x (List.mem_cons_of_mem p hx))
    have hhead := MsFrag_of_MFrag (hall p (by simp))
    have h2 := MsFrag_glue hsep hhead htail
    simpa [strJoin] using h2

/-- `strJoin` of value fragments with the `","` + whitespace separator
is an element-sequence fragment of the concatenated elements. -/
theorem VsFrag_strJoin {wsep : Str} (hsep : WsOnly wsep) :
    ∀ l : List (Str × Json), l ≠ [] → (∀ p ∈ l, VFrag p.1 p.2) →
      VsFrag (strJoin (',' :: wsep) (l.map Prod.fst)) (l.map Prod.snd)
  | [], hne, _ => absurd rfl hne
  | [p], _, hall => by
    simpa [strJoin] using VsFrag_of_VFrag (hall p (by simp))
  | p :: q :: l, _, hall => by
    have htail := VsFrag_strJoin hsep (q :: l) (by simp)
      (fun x hx => hall x (List.mem_cons_of_mem p hx))
    have hhead := VsFrag_of_VFrag (hall p (by simp))
    have h2 := VsFrag_glue hsep hhead htail
    simpa [strJoin] using h2

/-! ## Value and member fragment constructions -/

/-- Characters that `strconv.Quote` passes through unchanged. -/
def SelfQ (s : Str) : Prop := ∀ c ∈ s, goQuoteChar c = [c]

instance (s : Str) : Decidable (SelfQ s) :=
  decidable_of_iff (∀ c ∈ s, goQuoteChar c = [c]) Iff.rfl

theorem flatten_selfQ {s : Str} (h : SelfQ s) : (s.map goQuoteChar).flatten = s := by
  induction s with
  | nil => rfl
  | cons c t ih =>
    have hc := h c (by simp)
    simp [hc, ih (fun d hd => h d (List.mem_cons_of_mem c hd))]

/-- A literal key made of self-quoting safe characters parses as itself. -/
theorem GStr_self {s : Str} (h1 : QuoteSafe s) (h2 : SelfQ s) (r : Str) :
    GStr (s ++ '"' :: r) s r := by
  have h := GStr_of_quoteSafe h1 r
  rwa [flatten_selfQ h2] at h

/-- The number token `0`. -/
theorem NumTok_zero {r : Str} (hbr : BreakHead r) : NumTok ('0' :: r) (0, 0) r := by
  refine ⟨false, ['0'], [], by simp, ?_, fun _ => rfl, ?_, hbr, by simp, by decide⟩
  · intro c hc
    simp at hc
    subst hc
    decide
  · intro c hc
    simp at hc

/-- The `%d` rendering of an integer is a number token for that value. -/
theorem NumTok_intStr {n : Int} {r : Str} (hbr : BreakHead r) :
    NumTok (intStr n ++ r) (n, 0) r := by
  have hdig := natStr_digits n.natAbs
  have hne := natStr_ne_nil n.natAbs
  have hval := natStr_natOf n.natAbs
  have hzero : (natStr n.natAbs).head? = some '0' → natStr n.natAbs = ['0'] := by
    intro hh
    by_cases h0 : n.natAbs = 0
    · rw [h0]
      rfl
    · exact absurd hh (natStr_no_leading_zero (by omega))
  by_cases hn : n < 0
  · refine ⟨true, natStr n.natAbs, [], hne, hdig, hzero, ?_, hbr, ?_, ?_⟩
    · intro c hc
      simp at hc
    · simp [intStr, hn]
    · simp only [List.append_nil, List.length_nil, hval]
      have : -((n.natAbs : Int)) = n := by omega
      rw [show (-(0 : Nat) : Int) = 0 from rfl, this]
      simp [mkNum]
  · refine ⟨false, natStr n.natAbs, [], hne, hdig, hzero, ?_, hbr, ?_, ?_⟩
    · intro c hc
      simp at hc
    · simp [intStr, hn]
    · simp only [List.append_nil, List.length_nil, hval]
      have : ((n.natAbs : Int)) = n := by omega
      rw [show (-(0 : Nat) : Int) = 0 from rfl, this]
      simp [mkNum]

/-- `%d` output is a value fragment denoting the integer. -/
theorem VFrag_int (n : Int) : VFrag (intStr n) (Json.num n 0) := by
  refine ⟨[], wsOnly_nil, ?_⟩
  intro u hbr
  have hb : BreakHead u := hbr
  have h : GVal ([] ++ (intStr n ++ u)) (Json.num n 0) u :=
    G.jnum wsOnly_nil (NumTok_intStr hb)
  simpa using h

/-- `%q` output on a quote-safe string is a value fragment denoting the
string. -/
theorem VFrag_str {s : Str} (hs : QuoteSafe s) : VFrag (goQuote s) (Json.str s) := by
  refine ⟨[], wsOnly_nil, ?_⟩
  intro u _
  have hg := GStr_of_quoteSafe hs u
  have h := G.jstr wsOnly_nil hg
  simpa [goQuote, List.append_assoc] using h

/-- Wrapping a member-sequence fragment in braces (with whitespace
padding) yields an object value fragment. -/
theorem VFrag_obj {s : Str} {ms : List (Str × Json)} (h : MsFrag s ms)
    {wa wb : Str} (ha : WsOnly wa) (hb : WsOnly wb) :
    VFrag ('\x7b' :: wa ++ s ++ wb ++ ['\x7d']) (Json.obj (canonMembs ms)) := by
  obtain ⟨w, hw, hp⟩ := h
  refine ⟨[], wsOnly_nil, ?_⟩
  intro u _
  have h0 : GMembsT ((w ++ wb) ++ '\x7d' :: u) [] u := G.tnil (wsOnly_append hw hb)
  have htail : GMembsT (w ++ (wb ++ '\x7d' :: u)) [] u := by
    simpa [List.append_assoc] using h0
  have hF := (hp (wb ++ '\x7d' :: u) [] u htail).1
  have hF2 : GMembsF (wa ++ (s ++ (wb ++ '\x7d' :: u))) (ms ++ []) u := ws_prepend ha hF
  have h1 := G.jobj wsOnly_nil hF2
  simpa [List.append_assoc] using h1

/-- The empty object (no members, just padding) is a value fragment. -/
theorem VFrag_obj_empty {w : Str} (hw : WsOnly w) :
    VFrag ('\x7b' :: w ++ ['\x7d']) (Json.obj []) := by
  refine ⟨[], wsOnly_nil, ?_⟩
  intro u _
  have h0 : GMembsF (w ++ '\x7d' :: u) [] u := G.fnil hw
  have h1 := G.jobj wsOnly_nil h0
  have h2 : canonMembs ([] : List (Str × Json)) = [] := rfl
  rw [h2] at h1
  simpa [List.append_assoc] using h1

/-- Wrapping an element-sequence fragment in brackets yields an array
value fragment. -/
theorem VFrag_arr {s : Str} {vs : List Json} (h : VsFrag s vs)
    {wa wb : Str} (ha : WsOnly wa) (hb : WsOnly wb) :
    VFrag ('[' :: wa ++ s ++ wb ++ [']']) (Json.arr vs) := by
  obtain ⟨w, hw, hp⟩ := h
  refine ⟨[], wsOnly_nil, ?_⟩
  intro u _
  have h0 : GArrT ((w ++ wb) ++ ']' :: u) [] u := G.atnil (wsOnly_append hw hb)
  have htail : GArrT (w ++ (wb ++ ']' :: u)) [] u := by
    simpa [List.append_assoc] using h0
  have hF := (hp (wb ++ ']' :: u) [] u htail).1
  have hF2 : GArrF (wa ++ (s ++ (wb ++ ']' :: u))) (vs ++ []) u := ws_prepend ha hF
  have h1 := G.jarr wsOnly_nil hF2
  simpa [List.append_assoc] using h1

/-- The empty array (just padding) is a value fragment. -/
theorem VFrag_arr_empty {w : Str} (hw : WsOnly w) :
    VFrag ('[' :: w ++ [']']) (Json.arr []) := by
  refine ⟨[], wsOnly_nil, ?_⟩
  intro u _
  have h0 : GArrF (w ++ ']' :: u) [] u := G.anil hw
  have h1 := G.jarr wsOnly_nil h0
  simpa [List.append_assoc] using h1

/-- A quoted safe literal key, a colon, and a value fragment form a
member fragment (the shape of every `"key": value` template piece). -/
theorem MFrag_key_val {key : Str} (h1 : QuoteSafe key) (h2 : SelfQ key)
    {vt : Str} {v : Json} (hv : VFrag vt v) {wpre wmid : Str}
    (hp : WsOnly wpre) (hm : WsOnly wmid) :
    MFrag (wpre ++ '"' :: key ++ '"' :: ':' :: wmid ++ vt) (key, v) := by
  obtain ⟨wv, hwv, hval⟩ := hv
  refine ⟨wv, hwv, ?_⟩
  intro u hbr
  have hgv2 : GVal (wmid ++ (vt ++ u)) v (wv ++ u) := ws_prepend hm (hval u hbr)
  have hg := GStr_self h1 h2 (':' :: (wmid ++ (vt ++ u)))
  have hmem := G.memb hp hg rfl wsOnly_nil hgv2
  simpa [List.append_assoc] using hmem

theorem MFrag_congr {s s' : Str} {m : Str × Json} (h : MFrag s m) (he : s' = s) :
    MFrag s' m := he ▸ h

theorem VFrag_congr {s s' : Str} {v : Json} (h : VFrag s v) (he : s' = s) :
    VFrag s' v := he ▸ h

theorem MsFrag_congr {s s' : Str} {ms : List (Str × Json)} (h : MsFrag s ms) (he : s' = s) :
    MsFrag s' ms := he ▸ h

theorem VsFrag_congr {s s' : Str} {vs : List Json} (h : VsFrag s vs) (he : s' = s) :
    VsFrag s' vs := he ▸ h

theorem MFrag_ws_append {s : Str} {m : Str × Json} (h : MFrag s m) {w' : Str}
    (hw' : WsOnly w') : MFrag (s ++ w') m := by
  obtain ⟨w, hw, hp⟩ := h
  refine ⟨w ++ w', wsOnly_append hw hw', ?_⟩
  intro u hbr
  have hbr2 : BreakHead (w ++ (w' ++ u)) := by
    simpa [List.append_assoc] using hbr
  have hg := hp (w' ++ u) hbr2
  simpa [List.append_assoc] using hg

/-- An arbitrary `%q`-quoted key, a colon, and a value fragment form a
member fragment. -/
theorem MFrag_key_val_q {key : Str} (hk : QuoteSafe key) {vt : Str} {v : Json}
    (hv : VFrag vt v) {wpre wmid : Str} (hp : WsOnly wpre) (hm : WsOnly wmid) :
    MFrag (wpre ++ goQuote key ++ ':' :: wmid ++ vt) (key, v) := by
  obtain ⟨wv, hwv, hval⟩ := hv
  refine ⟨wv, hwv, ?_⟩
  intro u hbr
  have hgv2 : GVal (wmid ++ (vt ++ u)) v (wv ++ u) := ws_prepend hm (hval u hbr)
  have hg := GStr_of_quoteSafe hk (':' :: (wmid ++ (vt ++ u)))
  have hmem := G.memb hp hg rfl wsOnly_nil hgv2
  simpa [goQuote, List.append_assoc] using hmem

/-! ## The fragments produced by each constructor -/

/-- Common shape of `Sum`, `Avg`, `Min`, `Max`, `Stats` (and the
zero-break-point branch of `Percentiles`): a single-member aggregation
object under the aggregation-type key. -/
theorem frag_statsLike (key : Str) (hk1 : QuoteSafe key) (hk2 : SelfQ key)
    {field : Str} (hf : QuoteSafe field) :
    MFrag (("\n    \"".data) ++ key ++ ("\": \x7b\n      \"field\": ".data)
        ++ goQuote field ++ ("\n    \x7d\n  ".data))
      (key, Json.obj [("field".data, Json.str field)]) := by
  have hin : MFrag (("\n      ".data) ++ '"' :: ("field".data) ++ '"' :: ':' :: [' ']
      ++ goQuote field) ("field".data, Json.str field) :=
    MFrag_key_val (by decide) (by decide) (VFrag_str hf) (by decide) (by decide)
  have hobj := VFrag_obj (MsFrag_of_MFrag hin) wsOnly_nil
    (show WsOnly ("\n    ".data) by decide)
  rw [show canonMembs [("field".data, Json.str field)] = [("field".data, Json.str field)]
    from rfl] at hobj
  have hmem := MFrag_key_val hk1 hk2 hobj (show WsOnly ("\n    ".data) by decide)
    (show WsOnly [' '] by decide)
  have hfin := MFrag_ws_append hmem (show WsOnly ("\n  ".data) by decide)
  refine MFrag_congr hfin ?_
  simp only [List.append_assoc, List.cons_append, List.nil_append]

/-- `Sum` emits the member `"sum": {"field": <field>}`. -/
theorem frag_Sum {field : Str} (hf : QuoteSafe field) :
    MFrag (Sum field) ("sum".data, Json.obj [("field".data, Json.str field)]) := by
  refine MFrag_congr (frag_statsLike ("sum".data) (by decide) (by decide) hf) ?_
  simp only [Sum, List.append_assoc, List.cons_append, List.nil_append]

/-- `Avg` emits the member `"avg": {"field": <field>}`. -/
theorem frag_Avg {field : Str} (hf : QuoteSafe field) :
    MFrag (Avg field) ("avg".data, Json.obj [("field".data, Json.str field)]) := by
  refine MFrag_congr (frag_statsLike ("avg".data) (by decide) (by decide) hf) ?_
  simp only [Avg, List.append_assoc, List.cons_append, List.nil_append]

/-- `Min` emits the member `"min": {"field": <field>}`. -/
theorem frag_Min {field : Str} (hf : QuoteSafe field) :
    MFrag (Min field) ("min".data, Json.obj [("field".data, Json.str field)]) := by
  refine MFrag_congr (frag_statsLike ("min".data) (by decide) (by decide) hf) ?_
  simp only [Min, List.append_assoc, List.cons_append, List.nil_append]

/-- `Max` emits the member `"max": {"field": <field>}`. -/
theorem frag_Max {field : Str} (hf : QuoteSafe field) :
    MFrag (Max field) ("max".data, Json.obj [("field".data, Json.str field)]) := by
  refine MFrag_congr (frag_statsLike ("max".data) (by decide) (by decide) hf) ?_
  simp only [Max, List.append_assoc, List.cons_append, List.nil_append]

/-- `Stats` emits the member `"stats": {"field": <field>}`. -/
theorem frag_Stats {field : Str} (hf : QuoteSafe field) :
    MFrag (Stats field) ("stats".data, Json.obj [("field".data, Json.str field)]) := by
  refine MFrag_congr (frag_statsLike ("stats".data) (by decide) (by decide) hf) ?_
  simp only [Stats, List.append_assoc, List.cons_append, List.nil_append]

/-- `Terms` emits the member `"terms": {"field": <field>, "size": <n>}`. -/
theorem frag_Terms {field : Str} (hf : QuoteSafe field) (size : Int) :
    MFrag (Terms field size)
      ("terms".data,
        Json.obj [("field".data, Json.str field), ("size".data, Json.num size 0)]) := by
  have hin1 : MFrag (("\n      ".data) ++ '"' :: ("field".data) ++ '"' :: ':' :: [' ']
      ++ goQuote field) ("field".data, Json.str field) :=
    MFrag_key_val (by decide) (by decide) (VFrag_str hf) (by decide) (by decide)
  have hin2 : MFrag (([] : Str) ++ '"' :: ("size".data) ++ '"' :: ':' :: [' ']
      ++ intStr size) ("size".data, Json.num size 0) :=
    MFrag_key_val (by decide) (by decide) (VFrag_int size) wsOnly_nil (by decide)
  have hglue := MsFrag_glue (show WsOnly ("\n      ".data) by decide)
    (MsFrag_of_MFrag hin1) (MsFrag_of_MFrag hin2)
  have hobj := VFrag_obj hglue wsOnly_nil (show WsOnly ("\n    ".data) by decide)
  rw [show canonMembs ([("field".data, Json.str field)] ++ [("size".data, Json.num size 0)])
      = [("field".data, Json.str field), ("size".data, Json.num size 0)] from rfl] at hobj
  have hmem := MFrag_key_val (show QuoteSafe ("terms".data) by decide)
    (show SelfQ ("terms".data) by decide) hobj
    (show WsOnly ("\n    ".data) by decide) (show WsOnly [' '] by decide)
  have hfin := MFrag_ws_append hmem (show WsOnly ("\n  ".data) by decide)
  refine MFrag_congr hfin ?_
  simp only [Terms, List.append_assoc, List.cons_append, List.nil_append]

/-- `MinDocCount` emits the member `"min_doc_count": <n>`. -/
theorem frag_MinDocCount (n : Int) :
    MFrag (MinDocCount n) ("min_doc_count".data, Json.num n 0) := by
  have hmem : MFrag (([] : Str) ++ '"' :: ("min_doc_count".data) ++ '"' :: ':' :: [' ']
      ++ intStr n) ("min_doc_count".data, Json.num n 0) :=
    MFrag_key_val (by decide) (by decide) (VFrag_int n) wsOnly_nil (by decide)
  refine MFrag_congr hmem ?_
  simp only [MinDocCount, List.append_assoc, List.cons_append, List.nil_append]

/-- `Missing` emits the member `"missing": <n>`. -/
theorem frag_Missing (n : Int) :
    MFrag (Missing n) ("missing".data, Json.num n 0) := by
  have hmem : MFrag (([] : Str) ++ '"' :: ("missing".data) ++ '"' :: ':' :: [' ']
      ++ intStr n) ("missing".data, Json.num n 0) :=
    MFrag_key_val (by decide) (by decide) (VFrag_int n) wsOnly_nil (by decide)
  refine MFrag_congr hmem ?_
  simp only [Missing, List.append_assoc, List.cons_append, List.nil_append]

/-- `ExtendedBounds` emits `"extended_bounds": {"min": <a>, "max": <b>}`
(whose keys the normalizer re-sorts to `max`, `min`). -/
theorem frag_ExtendedBounds (a b : Int) :
    MFrag (ExtendedBounds a b)
      ("extended_bounds".data,
        Json.obj [("max".data, Json.num b 0), ("min".data, Json.num a 0)]) := by
  have hin1 : MFrag (("\n    ".data) ++ '"' :: ("min".data) ++ '"' :: ':' :: [' ']
      ++ intStr a) ("min".data, Json.num a 0) :=
    MFrag_key_val (by decide) (by decide) (VFrag_int a) (by decide) (by decide)
  have hin2 : MFrag (([] : Str) ++ '"' :: ("max".data) ++ '"' :: ':' :: [' ']
      ++ intStr b) ("max".data, Json.num b 0) :=
    MFrag_key_val (by decide) (by decide) (VFrag_int b) wsOnly_nil (by decide)
  have hglue := MsFrag_glue (show WsOnly ("\n    ".data) by decide)
    (MsFrag_of_MFrag hin1) (MsFrag_of_MFrag hin2)
  have hobj := VFrag_obj hglue wsOnly_nil (show WsOnly ("\n  ".data) by decide)
  rw [show canonMembs ([("min".data, Json.num a 0)] ++ [("max".data, Json.num b 0)])
      = [("max".data, Json.num b 0), ("min".data, Json.num a 0)] from rfl] at hobj
  have hmem := MFrag_key_val (show QuoteSafe ("extended_bounds".data) by decide)
    (show SelfQ ("extended_bounds".data) by decide) hobj wsOnly_nil
    (show WsOnly [' '] by decide)
  refine MFrag_congr hmem ?_
  simp only [ExtendedBounds, List.append_assoc, List.cons_append, List.nil_append]

/-- `Order` emits the member `"order": {<field>: <direction>}`. -/
theorem frag_Order {field dir : Str} (hf : QuoteSafe field) (hd : QuoteSafe dir) :
    MFrag (Order field dir) ("order".data, Json.obj [(field, Json.str dir)]) := by
  have hin : MFrag (("\n    ".data) ++ goQuote field ++ ':' :: [' '] ++ goQuote dir)
      (field, Json.str dir) :=
    MFrag_key_val_q hf (VFrag_str hd) (by decide) (by decide)
  have hobj := VFrag_obj (MsFrag_of_MFrag hin) wsOnly_nil
    (show WsOnly ("\n  ".data) by decide)
  rw [show canonMembs [(field, Json.str dir)] = [(field, Json.str dir)]
    from rfl] at hobj
  have hmem := MFrag_key_val (show QuoteSafe ("order".data) by decide)
    (show SelfQ ("order".data) by decide) hobj wsOnly_nil
    (show WsOnly [' '] by decide)
  refine MFrag_congr hmem ?_
  simp only [Order, List.append_assoc, List.cons_append, List.nil_append]

/-- `TimeZone` always emits `"time_zone": <quoted string>`; on a
quote-safe offset string it is the member `"time_zone": <string>`. -/
theorem frag_TimeZone (env : TZEnv) (args : List Str) :
    ∃ x, TimeZone env args = ("\"time_zone\": ".data) ++ goQuote x ∧
      (QuoteSafe x → MFrag (TimeZone env args) ("time_zone".data, Json.str x)) := by
  have key : ∀ x : Str, QuoteSafe x →
      MFrag (("\"time_zone\": ".data) ++ goQuote x) ("time_zone".data, Json.str x) := by
    intro x hx
    have hmem : MFrag (([] : Str) ++ '"' :: ("time_zone".data) ++ '"' :: ':' :: [' ']
        ++ goQuote x) ("time_zone".data, Json.str x) :=
      MFrag_key_val (by decide) (by decide) (VFrag_str hx) wsOnly_nil (by decide)
    refine MFrag_congr hmem ?_
    simp only [List.append_assoc, List.cons_append, List.nil_append]
  cases args with
  | nil => exact ⟨env.nowOffset, rfl, fun hx => key env.nowOffset hx⟩
  | cons s rest =>
    cases hlo : env.locOffset s with
    | some off =>
      refine ⟨off, by simp [TimeZone, hlo], fun hx => ?_⟩
      have h := key off hx
      rw [show TimeZone env (s :: rest) = ("\"time_zone\": ".data) ++ goQuote off
        by simp [TimeZone, hlo]]
      exact h
    | none =>
      refine ⟨s, by simp [TimeZone, hlo], fun hx => ?_⟩
      have h := key s hx
      rw [show TimeZone env (s :: rest) = ("\"time_zone\": ".data) ++ goQuote s
        by simp [TimeZone, hlo]]
      exact h

/-- `Interval` on a string or integer emits the member
`"interval": <value>` (and no other case returns). -/
theorem frag_Interval :
    (∀ s : Str, QuoteSafe s → ∃ t, Interval (GoVal.goStr s) = some t ∧
        MFrag t ("interval".data, Json.str s)) ∧
    (∀ n : Int, ∃ t, Interval (GoVal.goInt n) = some t ∧
        MFrag t ("interval".data, Json.num n 0)) := by
  constructor
  · intro s hs
    refine ⟨_, rfl, ?_⟩
    have hmem : MFrag (([] : Str) ++ '"' :: ("interval".data) ++ '"' :: ':' :: [' ']
        ++ goQuote s) ("interval".data, Json.str s) :=
      MFrag_key_val (by decide) (by decide) (VFrag_str hs) wsOnly_nil (by decide)
    refine MFrag_congr hmem ?_
    simp only [List.append_assoc, List.cons_append, List.nil_append]
  · intro n
    refine ⟨_, rfl, ?_⟩
    have hmem : MFrag (([] : Str) ++ '"' :: ("interval".data) ++ '"' :: ':' :: [' ']
        ++ intStr n) ("interval".data, Json.num n 0) :=
      MFrag_key_val (by decide) (by decide) (VFrag_int n) wsOnly_nil (by decide)
    refine MFrag_congr hmem ?_
    simp only [List.append_assoc, List.cons_append, List.nil_append]

/-- `Range` is a whole-object fragment
`{"range": {"timestamp": {"gte": <gte>, "lte": <lte>}}}`. -/
theorem frag_Range {gte lte : Str} (hg : QuoteSafe gte) (hl : QuoteSafe lte) :
    VFrag (Range gte lte)
      (Json.obj [("range".data, Json.obj [("timestamp".data,
        Json.obj [("gte".data, Json.str gte), ("lte".data, Json.str lte)])])]) := by
  have hin1 : MFrag (("\n\t\t\t\t".data) ++ '"' :: ("gte".data) ++ '"' :: ':' :: [' ']
      ++ goQuote gte) ("gte".data, Json.str gte) :=
    MFrag_key_val (by decide) (by decide) (VFrag_str hg) (by decide) (by decide)
  have hin2 : MFrag (([] : Str) ++ '"' :: ("lte".data) ++ '"' :: ':' :: [' ']
      ++ goQuote lte) ("lte".data, Json.str lte) :=
    MFrag_key_val (by decide) (by decide) (VFrag_str hl) wsOnly_nil (by decide)
  have hglue := MsFrag_glue (show WsOnly ("\n\t\t\t\t".data) by decide)
    (MsFrag_of_MFrag hin1) (MsFrag_of_MFrag hin2)
  have hobj1 := VFrag_obj hglue wsOnly_nil (show WsOnly ("\n\t\t\t".data) by decide)
  rw [show canonMembs ([("gte".data, Json.str gte)] ++ [("lte".data, Json.str lte)])
      = [("gte".data, Json.str gte), ("lte".data, Json.str lte)] from rfl] at hobj1
  have hts := MFrag_key_val (show QuoteSafe ("timestamp".data) by decide)
    (show SelfQ ("timestamp".data) by decide) hobj1
    (show WsOnly ("\n\t\t\t".data) by decide) (show WsOnly [' '] by decide)
  have hobj2 := VFrag_obj (MsFrag_of_MFrag hts) wsOnly_nil
    (show WsOnly ("\n\t\t".data) by decide)
  rw [show canonMembs [("timestamp".data,
      Json.obj [("gte".data, Json.str gte), ("lte".data, Json.str lte)])]
      = [("timestamp".data,
        Json.obj [("gte".data, Json.str gte), ("lte".data, Json.str lte)])] from rfl] at hobj2
  have hrg := MFrag_key_val (show QuoteSafe ("range".data) by decide)
    (show SelfQ ("range".data) by decide) hobj2
    (show WsOnly ("\n\t\t".data) by decide) (show WsOnly [' '] by decide)
  have hobj3 := VFrag_obj (MsFrag_of_MFrag hrg) wsOnly_nil
    (show WsOnly ("\n\t".data) by decide)
  rw [show canonMembs [("range".data, Json.obj [("timestamp".data,
      Json.obj [("gte".data, Json.str gte), ("lte".data, Json.str lte)])])]
      = [("range".data, Json.obj [("timestamp".data,
        Json.obj [("gte".data, Json.str gte), ("lte".data, Json.str lte)])])]
    from rfl] at hobj3
  refine VFrag_congr hobj3 ?_
  simp only [Range, List.append_assoc, List.cons_append, List.nil_append]

/-- `Term` is a whole-object fragment `{"term": {<field>: <value>}}`. -/
theorem frag_Term {field value : Str} (hf : QuoteSafe field) (hv : QuoteSafe value) :
    VFrag (Term field value)
      (Json.obj [("term".data, Json.obj [(field, Json.str value)])]) := by
  have hin : MFrag (("\n\t\t\t".data) ++ goQuote field ++ ':' :: [' '] ++ goQuote value)
      (field, Json.str value) :=
    MFrag_key_val_q hf (VFrag_str hv) (by decide) (by decide)
  have hobj1 := VFrag_obj (MsFrag_of_MFrag hin) wsOnly_nil
    (show WsOnly ("\n\t\t".data) by decide)
  rw [show canonMembs [(field, Json.str value)] = [(field, Json.str value)]
    from rfl] at hobj1
  have htm := MFrag_key_val (show QuoteSafe ("term".data) by decide)
    (show SelfQ ("term".data) by decide) hobj1
    (show WsOnly ("\n\t\t".data) by decide) (show WsOnly [' '] by decide)
  have hobj2 := VFrag_obj (MsFrag_of_MFrag htm) wsOnly_nil
    (show WsOnly ("\n\t".data) by decide)
  rw [show canonMembs [("term".data, Json.obj [(field, Json.str value)])]
      = [("term".data, Json.obj [(field, Json.str value)])] from rfl] at hobj2
  refine VFrag_congr hobj2 ?_
  simp only [Term, List.append_assoc, List.cons_append, List.nil_append]

/-- `Aggs` wraps a member-sequence of child aggregations under the
member `"aggs": {...}`. -/
theorem frag_Aggs {children : List Str} {ms : List (Str × Json)}
    (h : MsFrag (join children) ms) :
    MFrag (Aggs children) ("aggs".data, Json.obj (canonMembs ms)) := by
  have hobj := VFrag_obj h (show WsOnly ("\n    ".data) by decide)
    (show WsOnly ("\n  ".data) by decide)
  have hmem := MFrag_key_val (show QuoteSafe ("aggs".data) by decide)
    (show SelfQ ("aggs".data) by decide) hobj
    (show WsOnly ("\n  ".data) by decide) (show WsOnly [' '] by decide)
  refine MFrag_congr hmem ?_
  simp only [Aggs, List.append_assoc, List.cons_append, List.nil_append]

/-- `Agg` wraps a member-sequence of child aggregations under the
caller-named member `<name>: {...}`. -/
theorem frag_Agg {name : Str} (hn : QuoteSafe name) {children : List Str}
    {ms : List (Str × Json)} (h : MsFrag (join children) ms) :
    MFrag (Agg name children) (name, Json.obj (canonMembs ms)) := by
  have hobj := VFrag_obj h (show WsOnly ("\n    ".data) by decide)
    (show WsOnly ("\n  ".data) by decide)
  have hmem := MFrag_key_val_q hn hobj (show WsOnly ("\n  ".data) by decide)
    (show WsOnly [' '] by decide)
  refine MFrag_congr hmem ?_
  simp only [Agg, List.append_assoc, List.cons_append, List.nil_append]

/-- `DateHistogram` emits the member `"date_histogram": {"field": <f>,
<options>}`. -/
theorem frag_DateHistogram {field : Str} (hf : QuoteSafe field)
    {options : List Str} {oms : List (Str × Json)} (h : MsFrag (join options) oms) :
    MFrag (DateHistogram field options)
      ("date_histogram".data,
        Json.obj (canonMembs (("field".data, Json.str field) :: oms))) := by
  have hin1 : MFrag (("\n\t\t\t".data) ++ '"' :: ("field".data) ++ '"' :: ':' :: [' ']
      ++ goQuote field) ("field".data, Json.str field) :=
    MFrag_key_val (by decide) (by decide) (VFrag_str hf) (by decide) (by decide)
  have hglue := MsFrag_glue (show WsOnly ("\n\t\t\t".data) by decide)
    (MsFrag_of_MFrag hin1) h
  have hobj := VFrag_obj hglue wsOnly_nil (show WsOnly ("\n\t\t".data) by decide)
  rw [List.singleton_append] at hobj
  have hmem := MFrag_key_val (show QuoteSafe ("date_histogram".data) by decide)
    (show SelfQ ("date_histogram".data) by decide) hobj
    (show WsOnly ("\n\t\t".data) by decide) (show WsOnly [' '] by decide)
  have hfin := MFrag_ws_append hmem (show WsOnly ("\n\t".data) by decide)
  refine MFrag_congr hfin ?_
  simp only [DateHistogram, List.append_assoc, List.cons_append, List.nil_append]

/-- `Histogram` emits the member `"histogram": {"field": <f>,
<options>}`. -/
theorem frag_Histogram {field : Str} (hf : QuoteSafe field)
    {options : List Str} {oms : List (Str × Json)} (h : MsFrag (join options) oms) :
    MFrag (Histogram field options)
      ("histogram".data,
        Json.obj (canonMembs (("field".data, Json.str field) :: oms))) := by
  have hin1 : MFrag (("\n      ".data) ++ '"' :: ("field".data) ++ '"' :: ':' :: [' ']
      ++ goQuote field) ("field".data, Json.str field) :=
    MFrag_key_val (by decide) (by decide) (VFrag_str hf) (by decide) (by decide)
  have hglue := MsFrag_glue (show WsOnly ("\n      ".data) by decide)
    (MsFrag_of_MFrag hin1) h
  have hobj := VFrag_obj hglue wsOnly_nil (show WsOnly ("\n    ".data) by decide)
  rw [List.singleton_append] at hobj
  have hmem := MFrag_key_val (show QuoteSafe ("histogram".data) by decide)
    (show SelfQ ("histogram".data) by decide) hobj
    (show WsOnly ("\n    ".data) by decide) (show WsOnly [' '] by decide)
  have hfin := MFrag_ws_append hmem (show WsOnly ("\n  ".data) by decide)
  refine MFrag_congr hfin ?_
  simp only [Histogram, List.append_assoc, List.cons_append, List.nil_append]

/-! ## `%0.2f` output as a number token -/

theorem pad2_len {m : Nat} (hm : m < 100) : (pad2 m).length = 2 := by
  by_cases h : m < 10
  · simp [pad2, h, natStr, natStrAux_small h (show 1 ≤ m + 1 by omega)]
  · have h1 : ¬ m < 10 := h
    simp only [pad2, h1, if_neg, natStr]
    rw [show natStrAux (m + 1) m = natStrAux m (m / 10) ++ [digitChar (m % 10)] by
      simp [natStrAux, h1]]
    rw [natStrAux_small (by omega) (by omega)]
    rfl

theorem pad2_natOf {m : Nat} (_hm : m < 100) : natOf (pad2 m) = m := by
  have hv := natStr_natOf m
  by_cases h : m < 10
  · simp [pad2, h, natOf_cons, hv]
  · simp [pad2, h, hv]

theorem pad2_digits (m : Nat) : ∀ c ∈ pad2 m, c.isDigit = true := by
  intro c hc
  by_cases h : m < 10
  · simp only [pad2, h, if_pos] at hc
    rcases List.mem_cons.mp hc with rfl | hc2
    · decide
    · exact natStr_digits m c hc2
  · simp only [pad2, h, if_neg] at hc
    exact natStr_digits m c hc

theorem pad2_ne_nil (m : Nat) : pad2 m ≠ [] := by
  by_cases h : m < 10
  · simp [pad2, h]
  · simp [pad2, h, natStr_ne_nil]

/-- The `%0.2f` rendering of a value is a number token for the rounded
value scaled by `10^-2` (then normalized). -/
theorem NumTok_fmtF2 {q : ℚ} {r : Str} (hbr : BreakHead r) :
    NumTok (fmtF2 q ++ r) (mkNum (round2 q) (-2)) r := by
  have h100 : (round2 q).natAbs % 100 < 100 := Nat.mod_lt _ (by omega)
  have hFne : pad2 ((round2 q).natAbs % 100) ≠ [] := pad2_ne_nil _
  have hFlen : (pad2 ((round2 q).natAbs % 100)).length = 2 := pad2_len h100
  have hDv := natStr_natOf ((round2 q).natAbs / 100)
  have hFv := pad2_natOf h100
  have hDzero : (natStr ((round2 q).natAbs / 100)).head? = some '0' →
      natStr ((round2 q).natAbs / 100) = ['0'] := by
    intro hh
    by_cases h0 : (round2 q).natAbs / 100 = 0
    · rw [h0]
      rfl
    · exact absurd hh (natStr_no_leading_zero (by omega))
  have hnatOf : natOf (natStr ((round2 q).natAbs / 100) ++ pad2 ((round2 q).natAbs % 100))
      = (round2 q).natAbs := by
    rw [natOf_append, hFlen, hDv, hFv]
    have := Nat.div_add_mod (round2 q).natAbs 100
    omega
  by_cases hneg : round2 q < 0
  · refine ⟨true, natStr ((round2 q).natAbs / 100), pad2 ((round2 q).natAbs % 100),
      natStr_ne_nil _, natStr_digits _, hDzero, pad2_digits _, hbr, ?_, ?_⟩
    · simp [fmtF2, hneg, if_neg hFne, List.append_assoc]
    · have hsg : -(((round2 q).natAbs : Int)) = round2 q := by omega
      rw [hFlen, hnatOf, if_pos (show true = true from rfl), hsg]
      norm_num
  · refine ⟨false, natStr ((round2 q).natAbs / 100), pad2 ((round2 q).natAbs % 100),
      natStr_ne_nil _, natStr_digits _, hDzero, pad2_digits _, hbr, ?_, ?_⟩
    · simp [fmtF2, hneg, if_neg hFne, List.append_assoc]
    · have hsg : (((round2 q).natAbs : Int)) = round2 q := by omega
      rw [hFlen, hnatOf, if_neg (show ¬ false = true by decide), hsg]
      norm_num

/-- `%0.2f` output is a value fragment denoting the rounded value. -/
theorem VFrag_fmtF2 (q : ℚ) :
    VFrag (fmtF2 q)
      (Json.num (mkNum (round2 q) (-2)).1 (mkNum (round2 q) (-2)).2) := by
  refine ⟨[], wsOnly_nil, ?_⟩
  intro u hbr
  have hb : BreakHead u := hbr
  have h : GVal ([] ++ (fmtF2 q ++ u))
      (Json.num (mkNum (round2 q) (-2)).1 (mkNum (round2 q) (-2)).2) u :=
    G.jnum wsOnly_nil (NumTok_fmtF2 hb)
  simpa using h

/-- `Percentiles` with a non-empty break-point list emits the member
`"stats": {"field": <f>, "percents": [<two-decimal values>]}` — the
aggregation-type key is `stats`, not `percentiles`. -/
theorem frag_Percentiles {field : Str} (hf : QuoteSafe field) (q : ℚ) (qs : List ℚ) :
    MFrag (Percentiles field (q :: qs))
      ("stats".data, Json.obj [("field".data, Json.str field),
        ("percents".data, Json.arr ((q :: qs).map
          (fun p => Json.num (mkNum (round2 p) (-2)).1 (mkNum (round2 p) (-2)).2)))]) := by
  have hall : ∀ p ∈ (q :: qs).map (fun x => (fmtF2 x,
      Json.num (mkNum (round2 x) (-2)).1 (mkNum (round2 x) (-2)).2)), VFrag p.1 p.2 := by
    intro p hp
    obtain ⟨x, _, rfl⟩ := List.mem_map.mp hp
    exact VFrag_fmtF2 x
  have hvs := VsFrag_strJoin (show WsOnly [' '] by decide) _ (by simp) hall
  rw [List.map_map, List.map_map] at hvs
  have hfst : ((fun p : Str × Json => p.1) ∘ fun x : ℚ => (fmtF2 x,
      Json.num (mkNum (round2 x) (-2)).1 (mkNum (round2 x) (-2)).2)) = fmtF2 := rfl
  have hsnd : ((fun p : Str × Json => p.2) ∘ fun x : ℚ => (fmtF2 x,
      Json.num (mkNum (round2 x) (-2)).1 (mkNum (round2 x) (-2)).2)) =
      fun p : ℚ => Json.num (mkNum (round2 p) (-2)).1 (mkNum (round2 p) (-2)).2 := rfl
  rw [hfst, hsnd] at hvs
  have harr := VFrag_arr hvs wsOnly_nil wsOnly_nil
  have hpm := MFrag_key_val (show QuoteSafe ("percents".data) by decide)
    (show SelfQ ("percents".data) by decide) harr wsOnly_nil (show WsOnly [' '] by decide)
  have hfm : MFrag (("\n        ".data) ++ '"' :: ("field".data) ++ '"' :: ':' :: [' ']
      ++ goQuote field) ("field".data, Json.str field) :=
    MFrag_key_val (by decide) (by decide) (VFrag_str hf) (by decide) (by decide)
  have hglue := MsFrag_glue (show WsOnly ("\n        ".data) by decide)
    (MsFrag_of_MFrag hfm) (MsFrag_of_MFrag hpm)
  have hobj := VFrag_obj hglue wsOnly_nil (show WsOnly ("\n      ".data) by decide)
  rw [show ∀ v1 v2 : Json, canonMembs ([("field".data, v1)] ++ [("percents".data, v2)])
      = [("field".data, v1), ("percents".data, v2)] from fun v1 v2 => rfl] at hobj
  have hmem := MFrag_key_val (show QuoteSafe ("stats".data) by decide)
    (show SelfQ ("stats".data) by decide) hobj
    (show WsOnly ("\n      ".data) by decide) (show WsOnly [' '] by decide)
  have hfin := MFrag_ws_append hmem (show WsOnly ("\n    ".data) by decide)
  refine MFrag_congr hfin ?_
  simp only [Percentiles, joinFloats, List.length_cons, List.append_assoc,
    List.cons_append, List.nil_append, gt_iff_lt, Nat.succ_pos, if_pos]

/-- `Filter`, given filters forming an element sequence and children
forming a non-empty member sequence, emits the member
`"filter": {"bool": {"filter": [<filters>]}}` followed by the children
members — a member-sequence fragment. -/
theorem frag_Filter {filters children : List Str} {fvs : List Json}
    {cms : List (Str × Json)} (hfs : VsFrag (join filters) fvs)
    (hcs : MsFrag (join children) cms) :
    MsFrag (Filter filters children)
      (("filter".data, Json.obj [("bool".data,
        Json.obj [("filter".data, Json.arr fvs)])]) :: cms) := by
  have harr := VFrag_arr hfs (show WsOnly ("\n\t\t\t\t\t\t".data) by decide)
    (show WsOnly ("\n\t\t\t\t\t".data) by decide)
  have hm2 := MFrag_key_val (show QuoteSafe ("filter".data) by decide)
    (show SelfQ ("filter".data) by decide) harr
    (show WsOnly ("\n\t\t\t\t\t".data) by decide) (show WsOnly [' '] by decide)
  have hobj2 := VFrag_obj (MsFrag_of_MFrag hm2) wsOnly_nil
    (show WsOnly ("\n\t\t\t\t".data) by decide)
  rw [show canonMembs [("filter".data, Json.arr fvs)] = [("filter".data, Json.arr fvs)]
    from rfl] at hobj2
  have hm1 := MFrag_key_val (show QuoteSafe ("bool".data) by decide)
    (show SelfQ ("bool".data) by decide) hobj2
    (show WsOnly ("\n\t\t\t\t".data) by decide) (show WsOnly [' '] by decide)
  have hobj1 := VFrag_obj (MsFrag_of_MFrag hm1) wsOnly_nil
    (show WsOnly ("\n\t\t\t".data) by decide)
  rw [show canonMembs [("bool".data, Json.obj [("filter".data, Json.arr fvs)])]
      = [("bool".data, Json.obj [("filter".data, Json.arr fvs)])] from rfl] at hobj1
  have hm0 := MFrag_key_val (show QuoteSafe ("filter".data) by decide)
    (show SelfQ ("filter".data) by decide) hobj1
    (show WsOnly ("\n\t\t\t".data) by decide) (show WsOnly [' '] by decide)
  have hglue := MsFrag_glue (show WsOnly ("\n\t\t\t".data) by decide)
    (MsFrag_of_MFrag hm0) hcs
  have hfin := MsFrag_ws_append hglue (show WsOnly ("\n\t\t".data) by decide)
  refine MsFrag_congr hfin ?_
  simp only [Filter, List.append_assoc, List.cons_append, List.nil_append]

/-- `Filter` with an empty filter list emits the member
`"filter": {"bool": {"filter": []}}` followed by the children members. -/
theorem frag_Filter_empty {children : List Str} {cms : List (Str × Json)}
    (hcs : MsFrag (join children) cms) :
    MsFrag (Filter [] children)
      (("filter".data, Json.obj [("bool".data,
        Json.obj [("filter".data, Json.arr [])])]) :: cms) := by
  have harr : VFrag ('[' :: ("\n\t\t\t\t\t\t\n\t\t\t\t\t".data) ++ [']']) (Json.arr []) :=
    VFrag_arr_empty (by decide)
  have hm2 := MFrag_key_val (show QuoteSafe ("filter".data) by decide)
    (show SelfQ ("filter".data) by decide) harr
    (show WsOnly ("\n\t\t\t\t\t".data) by decide) (show WsOnly [' '] by decide)
  have hobj2 := VFrag_obj (MsFrag_of_MFrag hm2) wsOnly_nil
    (show WsOnly ("\n\t\t\t\t".data) by decide)
  rw [show canonMembs [("filter".data, Json.arr ([] : List Json))]
      = [("filter".data, Json.arr [])] from rfl] at hobj2
  have hm1 := MFrag_key_val (show QuoteSafe ("bool".data) by decide)
    (show SelfQ ("bool".data) by decide) hobj2
    (show WsOnly ("\n\t\t\t\t".data) by decide) (show WsOnly [' '] by decide)
  have hobj1 := VFrag_obj (MsFrag_of_MFrag hm1) wsOnly_nil
    (show WsOnly ("\n\t\t\t".data) by decide)
  rw [show canonMembs [("bool".data, Json.obj [("filter".data, Json.arr ([] : List Json))])]
      = [("bool".data, Json.obj [("filter".data, Json.arr [])])] from rfl] at hobj1
  have hm0 := MFrag_key_val (show QuoteSafe ("filter".data) by decide)
    (show SelfQ ("filter".data) by decide) hobj1
    (show WsOnly ("\n\t\t\t".data) by decide) (show WsOnly [' '] by decide)
  have hglue := MsFrag_glue (show WsOnly ("\n\t\t\t".data) by decide)
    (MsFrag_of_MFrag hm0) hcs
  have hfin := MsFrag_ws_append hglue (show WsOnly ("\n\t\t".data) by decide)
  refine MsFrag_congr hfin ?_
  simp only [Filter, join, clean, strJoin, List.filter_nil, List.append_assoc,
    List.cons_append, List.nil_append]

/-- Assembly of the full `Query` document: whenever the joined children
form a member-sequence fragment, `Query` parses (the normalizer does not
panic) and returns the compact serialization of the object holding the
`"size": 0` marker plus the children members. -/
theorem Query_of_MsFrag {children : List Str} {ms : List (Str × Json)}
    (h : MsFrag (join children) ms) :
    Query children = some (serVal (Json.obj
      (canonMembs (("size".data, Json.num 0 0) :: ms)))) := by
  obtain ⟨w, hw, hp⟩ := h
  have h0 : GMembsT ((w ++ ("\n  ".data)) ++ '\x7d' :: ([] : Str)) [] [] :=
    G.tnil (wsOnly_append hw (by decide))
  have htail : GMembsT (w ++ (("\n  ".data) ++ ['\x7d'])) [] [] := by
    simpa [List.append_assoc] using h0
  have hT0 := (hp (("\n  ".data) ++ ['\x7d']) [] [] htail).2 [] ("\n    ".data)
    wsOnly_nil (by decide)
  have hT : GMembsT (',' :: (("\n    ".data) ++ (join children ++ (("\n  ".data) ++ ['\x7d']))))
      ms [] := by
    simpa [List.append_assoc] using hT0
  have hbr : BreakHead (',' :: (("\n    ".data) ++ (join children ++ (("\n  ".data) ++ ['\x7d'])))) :=
    Or.inr ⟨_, _, rfl, by decide⟩
  have hnum : GVal ([' '] ++ ('0' :: (',' :: (("\n    ".data)
      ++ (join children ++ (("\n  ".data) ++ ['\x7d'])))))) (Json.num 0 0)
      (',' :: (("\n    ".data) ++ (join children ++ (("\n  ".data) ++ ['\x7d'])))) :=
    G.jnum (by decide) (NumTok_zero hbr)
  have hmemb : GMemb (("\n    ".data) ++ '"' :: (("size".data) ++ '"' :: (':' :: ([' ']
      ++ ('0' :: (',' :: (("\n    ".data) ++ (join children ++ (("\n  ".data) ++ ['\x7d'])))))))))
      ("size".data, Json.num 0 0)
      (',' :: (("\n    ".data) ++ (join children ++ (("\n  ".data) ++ ['\x7d'])))) :=
    G.memb (by decide) (GStr_self (by decide) (by decide) _) rfl wsOnly_nil hnum
  have hF := G.fcons hmemb hT
  have hdoc : GVal (([] : Str) ++ '\x7b' :: (("\n    ".data) ++ '"' :: (("size".data)
      ++ '"' :: (':' :: ([' '] ++ ('0' :: (',' :: (("\n    ".data)
      ++ (join children ++ (("\n  ".data) ++ ['\x7d']))))))))))
      (Json.obj (canonMembs (("size".data, Json.num 0 0) :: ms))) [] :=
    G.jobj wsOnly_nil hF
  have hqr : queryRaw children = ([] : Str) ++ '\x7b' :: (("\n    ".data) ++ '"' :: (("size".data)
      ++ '"' :: (':' :: ([' '] ++ ('0' :: (',' :: (("\n    ".data)
      ++ (join children ++ (("\n  ".data) ++ ['\x7d']))))))))) := by
    simp only [queryRaw, List.append_assoc, List.cons_append, List.nil_append]
  have hparse : parse (queryRaw children)
      = some (Json.obj (canonMembs (("size".data, Json.num 0 0) :: ms))) := by
    rw [hqr]
    exact parse_of_GVal hdoc wsOnly_nil
  show compress (queryRaw children) = _
  rw [compress, hparse]
  rfl

/-! ## Claims about the document constructors and normalizers -/

/-- C1 (counterexample): with an empty child list the assembled text
reads `{ "size": 0, }` — a trailing comma — so the normalizer rejects it
and `Query` panics instead of returning a well-formed object. -/
theorem C1_query_empty_children_panics : Query [] = none := by decide

/-- C1 (amended): `Query` always equals the compacting normalizer
applied to the assembled text; and whenever the joined children form a
member-sequence fragment, `Query` returns the compact serialization of
the object holding the `"size": 0` marker followed by the children
members. -/
theorem C1_query_wraps_children_and_compresses :
    ∀ children : List Str,
      Query children = compress (queryRaw children) ∧
      ∀ ms : List (Str × Json), MsFrag (join children) ms →
        Query children = some (serVal (Json.obj
          (canonMembs (("size".data, Json.num 0 0) :: ms)))) :=
  fun _ => ⟨rfl, fun _ h => Query_of_MsFrag h⟩

/-- Witness for C1 at one `Sum` child. -/
theorem C1_query_wraps_children_and_compresses_witness :
    Query [Sum ("price".data)] = some (serVal (Json.obj
      (canonMembs (("size".data, Json.num 0 0) ::
        [("sum".data, Json.obj [("field".data, Json.str ("price".data))])])))) := by
  refine (C1_query_wraps_children_and_compresses [Sum ("price".data)]).2 _ ?_
  refine MsFrag_congr (MsFrag_of_MFrag (frag_Sum (by decide))) ?_
  decide

/-- C2 (counterexample): the fragment returned by `Filter` with no
further children is non-empty but carries a trailing comma, so embedded
at its intended position in `Query` the text is invalid and the
normalizer panics. -/
theorem C2_filter_breaks_invariant :
    Filter [] [] ≠ [] ∧ Query [Filter [] []] = none := by
  constructor
  · decide
  · decide

/-- C2 (amended): every non-`Filter` constructor fragment is a valid
member (or whole-value) fragment at its intended nesting position, for
quote-safe arguments and (where children are taken) children that
themselves form member sequences; a member-sequence fragment embedded at
the root is accepted by the normalizer; and `Filter` is valid exactly
when its further children contribute at least one member (its filters
may be empty). -/
theorem C2_fragment_invariant :
    (∀ gte lte : Str, QuoteSafe gte → QuoteSafe lte →
      VFrag (Range gte lte) (Json.obj [("range".data, Json.obj [("timestamp".data,
        Json.obj [("gte".data, Json.str gte), ("lte".data, Json.str lte)])])])) ∧
    (∀ field value : Str, QuoteSafe field → QuoteSafe value →
      VFrag (Term field value)
        (Json.obj [("term".data, Json.obj [(field, Json.str value)])])) ∧
    (∀ field : Str, QuoteSafe field →
      MFrag (Sum field) ("sum".data, Json.obj [("field".data, Json.str field)]) ∧
      MFrag (Avg field) ("avg".data, Json.obj [("field".data, Json.str field)]) ∧
      MFrag (Min field) ("min".data, Json.obj [("field".data, Json.str field)]) ∧
      MFrag (Max field) ("max".data, Json.obj [("field".data, Json.str field)]) ∧
      MFrag (Stats field) ("stats".data, Json.obj [("field".data, Json.str field)])) ∧
    (∀ (field : Str) (size : Int), QuoteSafe field →
      MFrag (Terms field size) ("terms".data,
        Json.obj [("field".data, Json.str field), ("size".data, Json.num size 0)])) ∧
    (∀ (field : Str) (q : ℚ) (qs : List ℚ), QuoteSafe field →
      MFrag (Percentiles field (q :: qs))
        ("stats".data, Json.obj [("field".data, Json.str field),
          ("percents".data, Json.arr ((q :: qs).map (fun p =>
            Json.num (mkNum (round2 p) (-2)).1 (mkNum (round2 p) (-2)).2)))])) ∧
    (∀ (children : List Str) (ms : List (Str × Json)), MsFrag (join children) ms →
      MFrag (Aggs children) ("aggs".data, Json.obj (canonMembs ms))) ∧
    (∀ (name : Str) (children : List Str) (ms : List (Str × Json)), QuoteSafe name →
      MsFrag (join children) ms →
      MFrag (Agg name children) (name, Json.obj (canonMembs ms))) ∧
    (∀ (field : Str) (options : List Str) (oms : List (Str × Json)), QuoteSafe field →
      MsFrag (join options) oms →
      MFrag (DateHistogram field options) ("date_histogram".data,
        Json.obj (canonMembs (("field".data, Json.str field) :: oms))) ∧
      MFrag (Histogram field options) ("histogram".data,
        Json.obj (canonMembs (("field".data, Json.str field) :: oms)))) ∧
    (∀ (env : TZEnv) (args : List Str), ∃ x,
      TimeZone env args = ("\"time_zone\": ".data) ++ goQuote x ∧
      (QuoteSafe x → MFrag (TimeZone env args) ("time_zone".data, Json.str x))) ∧
    (∀ s : Str, QuoteSafe s → ∃ t, Interval (GoVal.goStr s) = some t ∧
      MFrag t ("interval".data, Json.str s)) ∧
    (∀ n : Int, ∃ t, Interval (GoVal.goInt n) = some t ∧
      MFrag t ("interval".data, Json.num n 0)) ∧
    (∀ n : Int, MFrag (MinDocCount n) ("min_doc_count".data, Json.num n 0) ∧
      MFrag (Missing n) ("missing".data, Json.num n 0)) ∧
    (∀ a b : Int, MFrag (ExtendedBounds a b) ("extended_bounds".data,
      Json.obj [("max".data, Json.num b 0), ("min".data, Json.num a 0)])) ∧
    (∀ field dir : Str, QuoteSafe field → QuoteSafe dir →
      MFrag (Order field dir) ("order".data, Json.obj [(field, Json.str dir)])) ∧
    (∀ (filters children : List Str) (fvs : List Json) (cms : List (Str × Json)),
      VsFrag (join filters) fvs → MsFrag (join children) cms →
      MsFrag (Filter filters children)
        (("filter".data, Json.obj [("bool".data,
          Json.obj [("filter".data, Json.arr fvs)])]) :: cms)) ∧
    (∀ (children : List Str) (cms : List (Str × Json)), MsFrag (join children) cms →
      MsFrag (Filter [] children)
        (("filter".data, Json.obj [("bool".data,
          Json.obj [("filter".data, Json.arr [])])]) :: cms)) ∧
    (∀ (children : List Str) (ms : List (Str × Json)), MsFrag (join children) ms →
      (Query children).isSome = true) :=
  ⟨fun _ _ hg hl => frag_Range hg hl,
   fun _ _ hf hv => frag_Term hf hv,
   fun _ hf => ⟨frag_Sum hf, frag_Avg hf, frag_Min hf, frag_Max hf, frag_Stats hf⟩,
   fun _ size hf => frag_Terms hf size,
   fun _ q qs hf => frag_Percentiles hf q qs,
   fun _ _ h => frag_Aggs h,
   fun _ _ _ hn h => frag_Agg hn h,
   fun _ _ _ hf h => ⟨frag_DateHistogram hf h, frag_Histogram hf h⟩,
   fun env args => frag_TimeZone env args,
   fun s hs => frag_Interval.1 s hs,
   fun n => frag_Interval.2 n,
   fun n => ⟨frag_MinDocCount n, frag_Missing n⟩,
   fun a b => frag_ExtendedBounds a b,
   fun _ _ hf hd => frag_Order hf hd,
   fun _ _ _ _ hfs hcs => frag_Filter hfs hcs,
   fun _ _ hcs => frag_Filter_empty hcs,
   fun _ _ h => by rw [Query_of_MsFrag h]; rfl⟩

/-- Witness for C2: the `Filter`-with-children conjunct at one `Range`
filter and one `Sum` child, and normalizer acceptance at one `Sum`
child. -/
theorem C2_fragment_invariant_witness :
    MsFrag (Filter [Range ("a".data) ("b".data)] [Sum ("price".data)])
      (("filter".data, Json.obj [("bool".data, Json.obj [("filter".data,
        Json.arr [Json.obj [("range".data, Json.obj [("timestamp".data,
          Json.obj [("gte".data, Json.str ("a".data)),
            ("lte".data, Json.str ("b".data))])])]])])]) ::
        [("sum".data, Json.obj [("field".data, Json.str ("price".data))])]) ∧
    (Query [Sum ("price".data)]).isSome = true := by
  constructor
  · refine C2_fragment_invariant.2.2.2.2.2.2.2.2.2.2.2.2.2.2.1
      [Range ("a".data) ("b".data)] [Sum ("price".data)]
      [Json.obj [("range".data, Json.obj [("timestamp".data,
        Json.obj [("gte".data, Json.str ("a".data)),
          ("lte".data, Json.str ("b".data))])])]]
      [("sum".data, Json.obj [("field".data, Json.str ("price".data))])] ?_ ?_
    · refine VsFrag_congr (VsFrag_of_VFrag (frag_Range (by decide) (by decide))) ?_
      decide
    · refine MsFrag_congr (MsFrag_of_MFrag (frag_Sum (by decide))) ?_
      decide
  · refine C2_fragment_invariant.2.2.2.2.2.2.2.2.2.2.2.2.2.2.2.2
      [Sum ("price".data)]
      [("sum".data, Json.obj [("field".data, Json.str ("price".data))])] ?_
    refine MsFrag_congr (MsFrag_of_MFrag (frag_Sum (by decide))) ?_
    decide

set_option maxRecDepth 40000 in
/-- C6 (counterexample): `1e309` is well-formed JSON text — the grammar
(`parse`, which has no range check) accepts it — yet under the refined
`Unmarshal` model, whose number tokens go through `ParseFloat` and hit
the `float64` range error, both normalizer entry points panic on it.  So
panics are not confined to non-well-formed input. -/
theorem C6_overflow_is_wellformed_but_panics :
    (parse ("1e309".data)).isSome = true ∧
      compressR ("1e309".data) = none ∧ PrettyR ("1e309".data) = none := by
  refine ⟨by decide, by decide, by decide⟩

set_option maxRecDepth 40000 in
/-- C6 (amended): under the refined `Unmarshal` model both entry points
panic exactly on the inputs `parseR` rejects — the texts that break JSON
syntax together with the well-formed texts containing a number at or
beyond the `float64` overflow threshold — and return normally on
everything else.  The boundary sits strictly inside the well-formed
texts: `1e308` is accepted while `1e309` panics; a lone surrogate escape
is accepted as `U+FFFD` and a well-formed pair combines, while truncated
text still panics. -/
theorem C6_normalizers_panic_iff_unmarshal_rejects :
    (∀ s : Str, (compressR s).isSome = (parseR s).isSome ∧
      (PrettyR s).isSome = (parseR s).isSome) ∧
    compressR ("1e308".data) ≠ none ∧
    compressR ("1e309".data) = none ∧
    compressR ("\"\\ud800\"".data) = some ('"' :: Char.ofNat 0xfffd :: ['"']) ∧
    compressR ("\"\\ud834\\udd1e\"".data) = some ('"' :: Char.ofNat 0x1d11e :: ['"']) ∧
    compressR ("[1,".data) = none := by
  refine ⟨fun s => ⟨?_, ?_⟩, by decide, by decide, by decide, by decide, by decide⟩
  · cases hp : parseR s <;> simp [compressR, hp]
  · cases hp : parseR s <;> simp [PrettyR, hp]

/-- C10: with no break-points `Percentiles` is character-for-character
`Stats`; with break-points it emits the `"stats"` aggregation-type key
(not `"percentiles"`) with the points under `"percents"`. -/
theorem C10_percentiles_renders_as_stats :
    ∀ field : Str, Percentiles field [] = Stats field ∧
      ∀ (q : ℚ) (qs : List ℚ), QuoteSafe field →
        MFrag (Percentiles field (q :: qs))
          ("stats".data, Json.obj [("field".data, Json.str field),
            ("percents".data, Json.arr ((q :: qs).map (fun p =>
              Json.num (mkNum (round2 p) (-2)).1 (mkNum (round2 p) (-2)).2)))]) :=
  fun _ => ⟨rfl, fun q qs hf => frag_Percentiles hf q qs⟩

/-- Witness for C10 at field `"x"` and break-point `50`. -/
theorem C10_percentiles_renders_as_stats_witness :
    Percentiles ("x".data) [] = Stats ("x".data) ∧
      MFrag (Percentiles ("x".data) [mkRat 50 1])
        ("stats".data, Json.obj [("field".data, Json.str ("x".data)),
          ("percents".data, Json.arr ([mkRat 50 1].map (fun p =>
            Json.num (mkNum (round2 p) (-2)).1 (mkNum (round2 p) (-2)).2)))]) :=
  ⟨(C10_percentiles_renders_as_stats ("x".data)).1,
   (C10_percentiles_renders_as_stats ("x".data)).2 (mkRat 50 1) [] (by decide)⟩

/-! ## Canonicity of parser output

Every number the parser produces is normalized by `mkNum`, and every
object member list it produces is sorted and duplicate-free by
`canonMembs`; `canonB` therefore holds of every parsed tree. -/

theorem parseNumExp_canon {neg : Bool} {ip : Nat} {fs s : Str} {p : Int × Nat} {r : Str}
    (h : parseNumExp neg ip fs s = some (p, r)) : p.2 = 0 ∨ p.1 % 10 ≠ 0 := by
  rw [parseNumExp.eq_def] at h
  simp only [] at h
  repeat split at h
  all_goals
    first
      | exact Option.noConfusion h
      | (obtain ⟨rfl, rfl⟩ := Prod.mk.inj (Option.some.inj h)
         exact mkNum_canonical _ _)

theorem parseNumFrac_canon {neg : Bool} {ip : Nat} {s : Str} {p : Int × Nat} {r : Str}
    (h : parseNumFrac neg ip s = some (p, r)) : p.2 = 0 ∨ p.1 % 10 ≠ 0 := by
  rw [parseNumFrac.eq_def] at h
  simp only [] at h
  split at h
  · split at h
    · exact Option.noConfusion h
    · exact parseNumExp_canon h
  · exact parseNumExp_canon h

theorem parseNumBody_canon {neg : Bool} {s : Str} {p : Int × Nat} {r : Str}
    (h : parseNumBody neg s = some (p, r)) : p.2 = 0 ∨ p.1 % 10 ≠ 0 := by
  rw [parseNumBody.eq_def] at h
  split at h
  · exact Option.noConfusion h
  · split at h
    · exact parseNumFrac_canon h
    · split at h
      · exact parseNumFrac_canon h
      · exact Option.noConfusion h

theorem parseNum_canon {s : Str} {p : Int × Nat} {r : Str}
    (h : parseNum s = some (p, r)) : p.2 = 0 ∨ p.1 % 10 ≠ 0 := by
  rw [parseNum.eq_def] at h
  split at h
  · exact parseNumBody_canon h
  · exact parseNumBody_canon h

/-! ### The key order -/

theorem ltStr_irrefl : ∀ a : Str, ltStr a a = false := by
  intro a
  induction a with
  | nil => rfl
  | cons c t ih => simp [ltStr, lt_irrefl, ih]

theorem ltStr_asymm : ∀ a b : Str, ltStr a b = true → ltStr b a = false := by
  intro a
  induction a with
  | nil =>
    intro b h
    cases b with
    | nil => exact rfl
    | cons d t => rfl
  | cons c t ih =>
    intro b h
    cases b with
    | nil => simp [ltStr] at h
    | cons d u =>
      simp only [ltStr] at h ⊢
      by_cases hcd : c < d
      · have hdc : ¬ d < c := lt_asymm hcd
        simp [hdc, hcd]
      · by_cases hdc : d < c
        · simp [hcd, hdc] at h
        · simp only [hcd, hdc, if_neg, if_false] at h ⊢
          exact ih u h

theorem ltStr_conn : ∀ a b : Str, ltStr a b = false → a ≠ b → ltStr b a = true := by
  intro a
  induction a with
  | nil =>
    intro b h hne
    cases b with
    | nil => exact absurd rfl hne
    | cons d t => simp [ltStr] at h
  | cons c t ih =>
    intro b h hne
    cases b with
    | nil => rfl
    | cons d u =>
      simp only [ltStr] at h ⊢
      by_cases hcd : c < d
      · simp [hcd] at h
      · by_cases hdc : d < c
        · simp [hdc]
        · have hce : c = d := le_antisymm (not_lt.mp hdc) (not_lt.mp hcd)
          subst hce
          simp only [lt_irrefl, if_neg, if_false] at h ⊢
          refine ih u h ?_
          intro hteq
          exact hne (by rw [hteq])

theorem ltStr_trans : ∀ a b c : Str, ltStr a b = true → ltStr b c = true →
    ltStr a c = true := by
  intro a
  induction a with
  | nil =>
    intro b c h1 h2
    cases c with
    | nil =>
      cases b with
      | nil => exact h1
      | cons d u => simp [ltStr] at h2
    | cons e w => rfl
  | cons x t ih =>
    intro b c h1 h2
    cases b with
    | nil => simp [ltStr] at h1
    | cons y u =>
      cases c with
      | nil => simp [ltStr] at h2
      | cons z w =>
        simp only [ltStr] at h1 h2 ⊢
        by_cases hxy : x < y
        · by_cases hyz : y < z
          · simp [lt_trans hxy hyz]
          · by_cases hzy : z < y
            · simp [hyz, hzy] at h2
            · have : y = z := le_antisymm (not_lt.mp hzy) (not_lt.mp hyz)
              subst this
              simp [hxy]
        · by_cases hyx : y < x
          · simp [hxy, hyx] at h1
          · have hxe : x = y := le_antisymm (not_lt.mp hyx) (not_lt.mp hxy)
            subst hxe
            simp only [lt_irrefl, if_neg, if_false] at h1
            by_cases hxz : x < z
            · simp [hxz]
            · by_cases hzx : z < x
              · simp [hxz, hzx] at h2
              · have : x = z := le_antisymm (not_lt.mp hzx) (not_lt.mp hxz)
                subst this
                simp only [lt_irrefl, if_neg, if_false] at h2 ⊢
                exact ih u w h1 h2

/-! ### `canonMB` facts -/

theorem canonMB_tail {m : Str × Json} {t : List (Str × Json)}
    (h : canonMB (m :: t) = true) : canonMB t = true := by
  obtain ⟨k, v⟩ := m
  cases t with
  | nil => rfl
  | cons m2 t2 =>
    obtain ⟨k2, v2⟩ := m2
    simp only [canonMB, Bool.and_eq_true] at h
    exact h.2

theorem canonMB_head_canon {m : Str × Json} {t : List (Str × Json)}
    (h : canonMB (m :: t) = true) : canonB m.2 = true := by
  obtain ⟨k, v⟩ := m
  cases t with
  | nil => exact h
  | cons m2 t2 =>
    obtain ⟨k2, v2⟩ := m2
    simp only [canonMB, Bool.and_eq_true] at h
    exact h.1.2

theorem canonMB_values {ms : List (Str × Json)} (h : canonMB ms = true) :
    ∀ m ∈ ms, canonB m.2 = true := by
  induction ms with
  | nil => intro m hm; cases hm
  | cons m0 t ih =>
    intro m hm
    rcases List.mem_cons.mp hm with rfl | hm2
    · exact canonMB_head_canon h
    · exact ih (canonMB_tail h) m hm2

theorem canonMB_head_lt {k : Str} {v : Json} {t : List (Str × Json)}
    (h : canonMB ((k, v) :: t) = true) : ∀ p ∈ t, ltStr k p.1 = true := by
  induction t generalizing k v with
  | nil => intro p hp; cases hp
  | cons m2 t2 ih =>
    obtain ⟨k2, v2⟩ := m2
    have hlt : ltStr k k2 = true := by
      simp only [canonMB, Bool.and_eq_true] at h
      exact h.1.1
    intro p hp
    rcases List.mem_cons.mp hp with rfl | hp2
    · exact hlt
    · exact ltStr_trans _ _ _ hlt (ih (canonMB_tail h) p hp2)

theorem canonMB_append_lt {xs ys : List (Str × Json)} (h : canonMB (xs ++ ys) = true) :
    ∀ p ∈ xs, ∀ q ∈ ys, ltStr p.1 q.1 = true := by
  induction xs with
  | nil => intro p hp; cases hp
  | cons x t ih =>
    intro p hp q hq
    rcases List.mem_cons.mp hp with rfl | hp2
    · obtain ⟨k, v⟩ := p
      exact canonMB_head_lt h q (by simp [hq])
    · exact ih (canonMB_tail h) p hp2 q hq

theorem canonMB_cons {k : Str} {v : Json} {k2 : Str} {v2 : Json} {t : List (Str × Json)}
    (hlt : ltStr k k2 = true) (hv : canonB v = true)
    (h : canonMB ((k2, v2) :: t) = true) : canonMB ((k, v) :: (k2, v2) :: t) = true := by
  simp only [canonMB, Bool.and_eq_true]
  exact ⟨⟨hlt, hv⟩, h⟩

theorem canonMB_insert {k : Str} {v : Json} (hv : canonB v = true) :
    ∀ acc : List (Str × Json), canonMB acc = true → canonMB (insertMem k v acc) = true := by
  intro acc
  induction acc with
  | nil => intro _; exact hv
  | cons m t ih =>
    obtain ⟨k1, v1⟩ := m
    intro h
    simp only [insertMem]
    by_cases h1 : ltStr k k1 = true
    · rw [if_pos h1]
      exact canonMB_cons h1 hv h
    · rw [if_neg h1]
      by_cases h2 : k = k1
      · rw [if_pos h2]
        subst h2
        cases t with
        | nil => exact hv
        | cons m2 t2 =>
          obtain ⟨k2, v2⟩ := m2
          simp only [canonMB, Bool.and_eq_true] at h ⊢
          exact ⟨⟨h.1.1, hv⟩, h.2⟩
      · rw [if_neg h2]
        have hlt1 : ltStr k1 k = true :=
          ltStr_conn _ _ (by simpa using h1) h2
        have hrec := ih (canonMB_tail h)
        cases t with
        | nil =>
          have hv1 : canonB v1 = true := h
          simp [insertMem, canonMB, hlt1, hv, hv1]
        | cons m2 t2 =>
          obtain ⟨k2, v2⟩ := m2
          have h12 : ltStr k1 k2 = true := by
            simp only [canonMB, Bool.and_eq_true] at h
            exact h.1.1
          have hv1 : canonB v1 = true := by
            simp only [canonMB, Bool.and_eq_true] at h
            exact h.1.2
          simp only [insertMem] at hrec ⊢
          by_cases h3 : ltStr k k2 = true
          · rw [if_pos h3] at hrec ⊢
            exact canonMB_cons hlt1 hv1 hrec
          · rw [if_neg h3] at hrec ⊢
            by_cases h4 : k = k2
            · rw [if_pos h4] at hrec ⊢
              exact canonMB_cons hlt1 hv1 hrec
            · rw [if_neg h4] at hrec ⊢
              exact canonMB_cons h12 hv1 hrec

theorem canonMB_canonMembs {ms : List (Str × Json)}
    (h : ∀ m ∈ ms, canonB m.2 = true) : canonMB (canonMembs ms) = true := by
  have gen : ∀ (l : List (Str × Json)) (acc : List (Str × Json)),
      (∀ m ∈ l, canonB m.2 = true) → canonMB acc = true →
      canonMB (l.foldl (fun a m => insertMem m.1 m.2 a) acc) = true := by
    intro l
    induction l with
    | nil => intro acc _ ha; exact ha
    | cons m t ih =>
      intro acc hl ha
      exact ih _ (fun x hx => hl x (List.mem_cons_of_mem m hx))
        (canonMB_insert (hl m (by simp)) acc ha)
  exact gen ms [] h rfl

theorem canonLB_of_all {vs : List Json} (h : ∀ v ∈ vs, canonB v = true) :
    canonLB vs = true := by
  induction vs with
  | nil => rfl
  | cons v t ih =>
    simp only [canonLB, Bool.and_eq_true]
    exact ⟨h v (by simp), ih (fun x hx => h x (List.mem_cons_of_mem v hx))⟩

theorem canonLB_values {vs : List Json} (h : canonLB vs = true) :
    ∀ v ∈ vs, canonB v = true := by
  induction vs with
  | nil => intro v hv; cases hv
  | cons x t ih =>
    simp only [canonLB, Bool.and_eq_true] at h
    intro v hv
    rcases List.mem_cons.mp hv with rfl | hv2
    · exact h.1
    · exact ih h.2 v hv2

/-! ### `canonMembs` is the identity on canonical member lists -/

theorem insertMem_append {k : Str} {v : Json} :
    ∀ acc : List (Str × Json), (∀ p ∈ acc, ltStr p.1 k = true) →
      insertMem k v acc = acc ++ [(k, v)] := by
  intro acc
  induction acc with
  | nil => intro _; rfl
  | cons m t ih =>
    obtain ⟨k1, v1⟩ := m
    intro h
    have h1 : ltStr k1 k = true := h (k1, v1) (by simp)
    have h2 : ltStr k k1 = false := ltStr_asymm _ _ h1
    have h3 : k ≠ k1 := by
      intro he
      subst he
      rw [ltStr_irrefl] at h1
      cases h1
    simp only [insertMem, h2, if_neg, if_false, Bool.false_eq_true]
    rw [if_neg h3, ih (fun p hp => h p (List.mem_cons_of_mem _ hp))]
    rfl

theorem canonMembs_id {ms : List (Str × Json)} (h : canonMB ms = true) :
    canonMembs ms = ms := by
  have gen : ∀ (l acc : List (Str × Json)), canonMB (acc ++ l) = true →
      l.foldl (fun a m => insertMem m.1 m.2 a) acc = acc ++ l := by
    intro l
    induction l with
    | nil => intro acc _; simp
    | cons m t ih =>
      intro acc hca
      have hstep : insertMem m.1 m.2 acc = acc ++ [m] := by
        refine insertMem_append acc ?_
        intro p hp
        exact canonMB_append_lt hca p hp m (by simp)
      have hca2 : canonMB ((acc ++ [m]) ++ t) = true := by
        have : (acc ++ [m]) ++ t = acc ++ m :: t := by simp
        rw [this]
        exact hca
      calc (m :: t).foldl (fun a x => insertMem x.1 x.2 a) acc
          = t.foldl (fun a x => insertMem x.1 x.2 a) (insertMem m.1 m.2 acc) := rfl
        _ = t.foldl (fun a x => insertMem x.1 x.2 a) (acc ++ [m]) := by rw [hstep]
        _ = (acc ++ [m]) ++ t := ih _ hca2
        _ = acc ++ m :: t := by simp
  have := gen ms [] (by simpa using h)
  simpa [canonMembs] using this

/-- Canonicity of everything the parser returns: numbers are
`mkNum`-normalized and object member lists are sorted and
duplicate-free. -/
theorem parse_canon : ∀ f : Nat,
    (∀ s v r, parseVal f s = some (v, r) → canonB v = true) ∧
    (∀ s m r, parseMemb f s = some (m, r) → canonB m.2 = true) ∧
    (∀ s ms r, parseObjF f s = some (ms, r) → ∀ m ∈ ms, canonB m.2 = true) ∧
    (∀ s ms r, parseObjT f s = some (ms, r) → ∀ m ∈ ms, canonB m.2 = true) ∧
    (∀ s vs r, parseArrF f s = some (vs, r) → ∀ v ∈ vs, canonB v = true) ∧
    (∀ s vs r, parseArrT f s = some (vs, r) → ∀ v ∈ vs, canonB v = true) := by
  intro f
  induction f with
  | zero =>
    refine ⟨?_, ?_, ?_, ?_, ?_, ?_⟩ <;>
      · intro s a r h
        exact Option.noConfusion h
  | succ f ih =>
    obtain ⟨ihV, ihM, ihOF, ihOT, ihAF, ihAT⟩ := ih
    refine ⟨?_, ?_, ?_, ?_, ?_, ?_⟩
    · intro s v r h
      simp only [parseVal] at h
      split at h
      · exact Option.noConfusion h
      · split at h
        · rw [Option.map_eq_some'] at h
          obtain ⟨⟨ms, r1⟩, hp, he⟩ := h
          obtain ⟨rfl, rfl⟩ := Prod.mk.inj he
          exact canonMB_canonMembs (ihOF _ _ _ hp)
        · split at h
          · rw [Option.map_eq_some'] at h
            obtain ⟨⟨vs, r1⟩, hp, he⟩ := h
            obtain ⟨rfl, rfl⟩ := Prod.mk.inj he
            exact canonLB_of_all (ihAF _ _ _ hp)
          · split at h
            · rw [Option.map_eq_some'] at h
              obtain ⟨⟨k, r1⟩, hp, he⟩ := h
              obtain ⟨rfl, rfl⟩ := Prod.mk.inj he
              rfl
            · split at h
              · split at h
                · obtain ⟨rfl, rfl⟩ := Prod.mk.inj (Option.some.inj h)
                  rfl
                · exact Option.noConfusion h
              · split at h
                · split at h
                  · obtain ⟨rfl, rfl⟩ := Prod.mk.inj (Option.some.inj h)
                    rfl
                  · exact Option.noConfusion h
                · split at h
                  · split at h
                    · obtain ⟨rfl, rfl⟩ := Prod.mk.inj (Option.some.inj h)
                      rfl
                    · exact Option.noConfusion h
                  · rw [Option.map_eq_some'] at h
                    obtain ⟨⟨p, r1⟩, hp, he⟩ := h
                    obtain ⟨rfl, rfl⟩ := Prod.mk.inj he
                    have hc := parseNum_canon hp
                    show (p.2 == 0 || p.1 % 10 != 0) = true
                    rcases hc with hc | hc
                    · simp [hc]
                    · simp [hc]
    · intro s m r h
      simp only [parseMemb] at h
      split at h
      · split at h
        · split at h
          · rw [Option.map_eq_some'] at h
            obtain ⟨⟨v1, r2x⟩, hp, he⟩ := h
            obtain ⟨rfl, rfl⟩ := Prod.mk.inj he
            exact ihV _ _ _ hp
          · exact Option.noConfusion h
        · exact Option.noConfusion h
      · exact Option.noConfusion h
    · intro s ms r h
      simp only [parseObjF] at h
      split at h
      · obtain ⟨rfl, rfl⟩ := Prod.mk.inj (Option.some.inj h)
        intro m hm
        cases hm
      · split at h
        · rename_i m1 r1 hmb
          rw [Option.map_eq_some'] at h
          obtain ⟨⟨ms2, r2⟩, hp, he⟩ := h
          obtain ⟨rfl, rfl⟩ := Prod.mk.inj he
          intro x hx
          rcases List.mem_cons.mp hx with rfl | hx2
          · exact ihM _ _ _ hmb
          · exact ihOT _ _ _ hp x hx2
        · exact Option.noConfusion h
    · intro s ms r h
      simp only [parseObjT] at h
      split at h
      · obtain ⟨rfl, rfl⟩ := Prod.mk.inj (Option.some.inj h)
        intro m hm
        cases hm
      · split at h
        · rename_i m1 r1 hmb
          rw [Option.map_eq_some'] at h
          obtain ⟨⟨ms2, r2⟩, hp, he⟩ := h
          obtain ⟨rfl, rfl⟩ := Prod.mk.inj he
          intro x hx
          rcases List.mem_cons.mp hx with rfl | hx2
          · exact ihM _ _ _ hmb
          · exact ihOT _ _ _ hp x hx2
        · exact Option.noConfusion h
      · exact Option.noConfusion h
    · intro s vs r h
      simp only [parseArrF] at h
      split at h
      · obtain ⟨rfl, rfl⟩ := Prod.mk.inj (Option.some.inj h)
        intro v hv
        cases hv
      · split at h
        · rename_i v1 r1 hvl
          rw [Option.map_eq_some'] at h
          obtain ⟨⟨vs2, r2⟩, hp, he⟩ := h
          obtain ⟨rfl, rfl⟩ := Prod.mk.inj he
          intro x hx
          rcases List.mem_cons.mp hx with rfl | hx2
          · exact ihV _ _ _ hvl
          · exact ihAT _ _ _ hp x hx2
        · exact Option.noConfusion h
    · intro s vs r h
      simp only [parseArrT] at h
      split at h
      · obtain ⟨rfl, rfl⟩ := Prod.mk.inj (Option.some.inj h)
        intro v hv
        cases hv
      · split at h
        · rename_i v1 r1 hvl
          rw [Option.map_eq_some'] at h
          obtain ⟨⟨vs2, r2⟩, hp, he⟩ := h
          obtain ⟨rfl, rfl⟩ := Prod.mk.inj he
          intro x hx
          rcases List.mem_cons.mp hx with rfl | hx2
          · exact ihV _ _ _ hvl
          · exact ihAT _ _ _ hp x hx2
        · exact Option.noConfusion h
      · exact Option.noConfusion h

/-- Canonicity at the `parse` entry point. -/
theorem parse_canonB {s : Str} {v : Json} (h : parse s = some v) : canonB v = true := by
  rw [parse] at h
  split at h
  · rename_i v1 r1 hp
    split at h
    · have hv := Option.some.inj h
      subst hv
      exact (parse_canon (jsonFuel s)).1 _ _ _ hp
    · exact Option.noConfusion h
  · exact Option.noConfusion h

/-! ## The serializer's output parses back: number rendering -/

theorem serNum_zero (m : Int) : serNum m 0 = intStr m := by
  simp [serNum, intStr]

theorem mkNum_negExp (m0 : Int) (k : Nat) (hk : 1 ≤ k) :
    mkNum m0 (-(k : Int)) = canonNum m0 k := by
  rw [mkNum, if_neg (by omega)]
  congr 1
  omega

/-- The plain decimal rendering of a canonical `(m, e)` is a number
token denoting exactly `(m, e)`. -/
theorem NumTok_serNum {m : Int} {e : Nat} (hc : e = 0 ∨ m % 10 ≠ 0) {r : Str}
    (hbr : BreakHead r) : NumTok (serNum m e ++ r) (m, e) r := by
  cases e with
  | zero =>
    rw [serNum_zero]
    exact NumTok_intStr hbr
  | succ e' =>
    have hm : m % 10 ≠ 0 := by
      rcases hc with hc | hc
      · omega
      · exact hc
    have hm0 : m ≠ 0 := fun h0 => hm (by rw [h0]; rfl)
    have hna : 1 ≤ m.natAbs := by omega
    cases hD : natStr m.natAbs with
    | nil => exact absurd hD (natStr_ne_nil _)
    | cons d tD =>
      have hdd : d ≠ '0' := by
        intro h0
        exact natStr_no_leading_zero hna (by rw [hD, h0]; rfl)
      have hDval : natOf (d :: tD) = m.natAbs := by
        rw [← hD]
        exact natStr_natOf _
      have hDdig : ∀ c ∈ d :: tD, c.isDigit = true := by
        rw [← hD]
        exact natStr_digits _
      by_cases hlen : e' + 1 < (d :: tD).length
      · -- the decimal point falls inside the digits
        have hn1 : 1 ≤ (d :: tD).length - (e' + 1) := by omega
        obtain ⟨n2, hn2⟩ : ∃ n2, (d :: tD).length - (e' + 1) = n2 + 1 :=
          ⟨_, (Nat.succ_pred_eq_of_pos hn1).symm⟩
        have htake : (d :: tD).take ((d :: tD).length - (e' + 1)) = d :: tD.take n2 := by
          rw [hn2, List.take_succ_cons]
        have hFlen : ((d :: tD).drop ((d :: tD).length - (e' + 1))).length = e' + 1 := by
          rw [List.length_drop]
          omega
        have hFne : (d :: tD).drop ((d :: tD).length - (e' + 1)) ≠ [] := by
          intro hn
          rw [hn] at hFlen
          exact absurd hFlen.symm (by simp)
        refine ⟨decide (m < 0), (d :: tD).take ((d :: tD).length - (e' + 1)),
          (d :: tD).drop ((d :: tD).length - (e' + 1)), ?_, ?_, ?_, ?_, hbr, ?_, ?_⟩
        · rw [htake]
          simp
        · intro c hcm
          exact hDdig c (List.take_subset _ _ hcm)
        · intro hh
          rw [htake] at hh
          exact absurd (Option.some.inj hh) hdd
        · intro c hcm
          exact hDdig c (List.drop_subset _ _ hcm)
        · rw [if_neg hFne]
          have hlen2 : e' < tD.length := by
            have h3 := hlen
            simp only [List.length_cons] at h3
            omega
          by_cases hneg : m < 0
          · simp [serNum, hD, hlen, hlen2, hneg, List.append_assoc]
          · simp [serNum, hD, hlen, hlen2, hneg, List.append_assoc]
        · rw [List.take_append_drop, hDval, hFlen]
          have hmk : mkNum (if decide (m < 0) = true then -(m.natAbs : Int) else (m.natAbs : Int))
              (-((e' + 1 : Nat) : Int)) = (m, e' + 1) := by
            have hsg : (if decide (m < 0) = true then -(m.natAbs : Int) else (m.natAbs : Int))
                = m := by
              by_cases hneg : m < 0
              · rw [if_pos (by simp [hneg])]
                omega
              · rw [if_neg (by simp [hneg])]
                omega
            rw [hsg, mkNum_negExp m (e' + 1) (by omega)]
            exact canonNum_id (Or.inr hm)
          rw [hmk]
      · -- the value is below one in magnitude: 0.00…digits
        have hlen3 : ¬ e' < tD.length := by
          have h3 := hlen
          simp only [List.length_cons] at h3
          omega
        have hFlen : (List.replicate (e' + 1 - (d :: tD).length) '0' ++ d :: tD).length
            = e' + 1 := by
          simp [List.length_replicate, List.length_cons]
          omega
        have hFne : List.replicate (e' + 1 - (d :: tD).length) '0' ++ d :: tD ≠ [] := by
          simp
        refine ⟨decide (m < 0), ['0'],
          List.replicate (e' + 1 - (d :: tD).length) '0' ++ d :: tD,
          by simp, ?_, fun _ => rfl, ?_, hbr, ?_, ?_⟩
        · intro c hcm
          simp at hcm
          rw [hcm]
          decide
        · intro c hcm
          rcases List.mem_append.mp hcm with hcm | hcm
          · rw [List.eq_of_mem_replicate hcm]
            decide
          · exact hDdig c hcm
        · rw [if_neg hFne]
          by_cases hneg : m < 0
          · simp [serNum, hD, hlen3, hneg, List.append_assoc]
          · simp [serNum, hD, hlen3, hneg, List.append_assoc]
        · have hnat : natOf (['0'] ++ (List.replicate (e' + 1 - (d :: tD).length) '0'
              ++ d :: tD)) = m.natAbs := by
            rw [natOf_append, show natOf ['0'] = 0 from rfl, natOf_append,
              natOf_replicate_zero, hDval]
            simp
          rw [hnat, hFlen]
          have hsg : (if decide (m < 0) = true then -(m.natAbs : Int) else (m.natAbs : Int))
              = m := by
            by_cases hneg : m < 0
            · rw [if_pos (by simp [hneg])]
              omega
            · rw [if_neg (by simp [hneg])]
              omega
          rw [hsg, mkNum_negExp m (e' + 1) (by omega), canonNum_id (Or.inr hm)]

/-! ## The serializer's output parses back: full trees -/

mutual

theorem serG_val : ∀ v : Json, canonB v = true → ∀ r : Str, BreakHead r →
    GVal (serVal v ++ r) v r
  | .null, _, r, _ => G.jnull wsOnly_nil
  | .bool true, _, r, _ => G.jtrue wsOnly_nil
  | .bool false, _, r, _ => G.jfalse wsOnly_nil
  | .num m e, hc, r, hbr => by
    have hd : e = 0 ∨ m % 10 ≠ 0 := by
      simp only [canonB, Bool.or_eq_true, beq_iff_eq, bne_iff_ne, ne_eq] at hc
      rcases hc with hc | hc
      · exact Or.inl hc
      · exact Or.inr hc
    exact G.jnum wsOnly_nil (NumTok_serNum hd hbr)
  | .str s, _, r, _ => by
    have h := G.jstr wsOnly_nil (GStr_of_jsonEsc s r)
    simpa [serVal, serStr, List.append_assoc] using h
  | .arr [], _, r, _ => by
    have h : GVal (([] : Str) ++ '[' :: ([] ++ ']' :: r)) (Json.arr []) r :=
      G.jarr wsOnly_nil (G.anil wsOnly_nil)
    simpa using h
  | .arr (v :: t), hc, r, _ => by
    have hl : canonLB (v :: t) = true := hc
    have hF := serG_arrF (v :: t) hl (by simp) r
    have h := G.jarr wsOnly_nil hF
    simpa [serVal, List.append_assoc] using h
  | .obj [], _, r, _ => by
    have h : GVal (([] : Str) ++ '\x7b' :: ([] ++ '\x7d' :: r))
        (Json.obj (canonMembs [])) r :=
      G.jobj wsOnly_nil (G.fnil wsOnly_nil)
    simpa using h
  | .obj (m :: t), hc, r, _ => by
    have hmb : canonMB (m :: t) = true := hc
    have hF := serG_objF (m :: t) (canonMB_values hmb) (by simp) r
    have h := G.jobj wsOnly_nil hF
    rw [canonMembs_id hmb] at h
    simpa [serVal, List.append_assoc] using h

theorem serG_arrF : ∀ vs : List Json, canonLB vs = true → vs ≠ [] → ∀ r : Str,
    GArrF (serArr vs ++ ']' :: r) vs r
  | [], _, hne, _ => absurd rfl hne
  | [v], hc, _, r => by
    have hcv : canonB v = true := by
      simp only [canonLB, Bool.and_eq_true] at hc
      exact hc.1
    have hv := serG_val v hcv (']' :: r) (Or.inr ⟨']', r, rfl, by decide⟩)
    exact G.acons hv (G.atnil wsOnly_nil)
  | v :: v2 :: t, hc, _, r => by
    have hcv : canonB v = true := by
      simp only [canonLB, Bool.and_eq_true] at hc
      exact hc.1
    have hct : canonLB (v2 :: t) = true := by
      simp only [canonLB, Bool.and_eq_true] at hc ⊢
      exact hc.2
    have hv := serG_val v hcv (',' :: (serArr (v2 :: t) ++ ']' :: r))
      (Or.inr ⟨',', _, rfl, by decide⟩)
    have ht := serG_arrT (v2 :: t) hct (by simp) r
    have h := G.acons hv ht
    have he : serArr (v :: v2 :: t) ++ ']' :: r
        = serVal v ++ (',' :: (serArr (v2 :: t) ++ ']' :: r)) := by
      simp [serArr, List.append_assoc]
    rw [he]
    exact h

theorem serG_arrT : ∀ vs : List Json, canonLB vs = true → vs ≠ [] → ∀ r : Str,
    GArrT (',' :: (serArr vs ++ ']' :: r)) vs r
  | [], _, hne, _ => absurd rfl hne
  | [v], hc, _, r => by
    have hcv : canonB v = true := by
      simp only [canonLB, Bool.and_eq_true] at hc
      exact hc.1
    have hv := serG_val v hcv (']' :: r) (Or.inr ⟨']', r, rfl, by decide⟩)
    have h := G.atcons wsOnly_nil hv (G.atnil wsOnly_nil)
    simpa using h
  | v :: v2 :: t, hc, _, r => by
    have hcv : canonB v = true := by
      simp only [canonLB, Bool.and_eq_true] at hc
      exact hc.1
    have hct : canonLB (v2 :: t) = true := by
      simp only [canonLB, Bool.and_eq_true] at hc ⊢
      exact hc.2
    have hv := serG_val v hcv (',' :: (serArr (v2 :: t) ++ ']' :: r))
      (Or.inr ⟨',', _, rfl, by decide⟩)
    have ht := serG_arrT (v2 :: t) hct (by simp) r
    have h := G.atcons wsOnly_nil hv ht
    have he : (',' :: (serArr (v :: v2 :: t) ++ ']' :: r) : Str)
        = [] ++ ',' :: (serVal v ++ (',' :: (serArr (v2 :: t) ++ ']' :: r))) := by
      simp [serArr, List.append_assoc]
    rw [he]
    exact h

theorem serG_objF : ∀ ms : List (Str × Json), (∀ m ∈ ms, canonB m.2 = true) → ms ≠ [] →
    ∀ r : Str, GMembsF (serObj ms ++ '\x7d' :: r) ms r
  | [], _, hne, _ => absurd rfl hne
  | [(k, v)], hc, _, r => by
    have hval := serG_val v (hc (k, v) (by simp)) ('\x7d' :: r)
      (Or.inr ⟨'\x7d', r, rfl, by decide⟩)
    have hmemb := G.memb wsOnly_nil
      (GStr_of_jsonEsc k (':' :: (serVal v ++ '\x7d' :: r))) rfl wsOnly_nil hval
    have h := G.fcons hmemb (G.tnil wsOnly_nil)
    have he : serObj [(k, v)] ++ '\x7d' :: r
        = [] ++ '"' :: (jsonEsc k ++ '"' :: (':' :: (serVal v ++ '\x7d' :: r))) := by
      simp [serObj, serStr, List.append_assoc]
    rw [he]
    exact h
  | (k, v) :: m2 :: t, hc, _, r => by
    have hval := serG_val v (hc (k, v) (by simp)) (',' :: (serObj (m2 :: t) ++ '\x7d' :: r))
      (Or.inr ⟨',', _, rfl, by decide⟩)
    have hmemb := G.memb wsOnly_nil
      (GStr_of_jsonEsc k (':' :: (serVal v ++ ',' :: (serObj (m2 :: t) ++ '\x7d' :: r))))
      rfl wsOnly_nil hval
    have ht := serG_objT (m2 :: t) (fun x hx => hc x (List.mem_cons_of_mem _ hx))
      (by simp) r
    have h := G.fcons hmemb ht
    have he : serObj ((k, v) :: m2 :: t) ++ '\x7d' :: r
        = [] ++ '"' :: (jsonEsc k ++ '"' :: (':' ::
            (serVal v ++ ',' :: (serObj (m2 :: t) ++ '\x7d' :: r)))) := by
      simp [serObj, serStr, List.append_assoc]
    rw [he]
    exact h

theorem serG_objT : ∀ ms : List (Str × Json), (∀ m ∈ ms, canonB m.2 = true) → ms ≠ [] →
    ∀ r : Str, GMembsT (',' :: (serObj ms ++ '\x7d' :: r)) ms r
  | [], _, hne, _ => absurd rfl hne
  | [(k, v)], hc, _, r => by
    have hval := serG_val v (hc (k, v) (by simp)) ('\x7d' :: r)
      (Or.inr ⟨'\x7d', r, rfl, by decide⟩)
    have hmemb := G.memb wsOnly_nil
      (GStr_of_jsonEsc k (':' :: (serVal v ++ '\x7d' :: r))) rfl wsOnly_nil hval
    have h := G.tcons wsOnly_nil hmemb (G.tnil wsOnly_nil)
    have he : (',' :: (serObj [(k, v)] ++ '\x7d' :: r) : Str)
        = [] ++ ',' :: ([] ++ '"' :: (jsonEsc k ++ '"' :: (':' ::
            (serVal v ++ '\x7d' :: r)))) := by
      simp [serObj, serStr, List.append_assoc]
    rw [he]
    exact h
  | (k, v) :: m2 :: t, hc, _, r => by
    have hval := serG_val v (hc (k, v) (by simp)) (',' :: (serObj (m2 :: t) ++ '\x7d' :: r))
      (Or.inr ⟨',', _, rfl, by decide⟩)
    have hmemb := G.memb wsOnly_nil
      (GStr_of_jsonEsc k (':' :: (serVal v ++ ',' :: (serObj (m2 :: t) ++ '\x7d' :: r))))
      rfl wsOnly_nil hval
    have ht := serG_objT (m2 :: t) (fun x hx => hc x (List.mem_cons_of_mem _ hx))
      (by simp) r
    have h := G.tcons wsOnly_nil hmemb ht
    have he : (',' :: (serObj ((k, v) :: m2 :: t) ++ '\x7d' :: r) : Str)
        = [] ++ ',' :: ([] ++ '"' :: (jsonEsc k ++ '"' :: (':' ::
            (serVal v ++ ',' :: (serObj (m2 :: t) ++ '\x7d' :: r))))) := by
      simp [serObj, serStr, List.append_assoc]
    rw [he]
    exact h

end

/-- The compact serialization of a canonical tree parses back to it. -/
theorem parse_serVal {v : Json} (hc : canonB v = true) : parse (serVal v) = some v := by
  have h := serG_val v hc [] (Or.inl rfl)
  rw [List.append_nil] at h
  exact parse_of_GVal h wsOnly_nil

/-- C7: on any text the parser accepts, the compacting normalizer
returns the serialization of the parsed tree, and that output parses
back to a tree deep-equal (here: equal) to the original parse —
normalization changes formatting only, never the parsed value. -/
theorem C7_compress_preserves_parse :
    ∀ (T : Str) (v : Json), parse T = some v →
      compress T = some (serVal v) ∧ parse (serVal v) = some v := by
  intro T v h
  constructor
  · rw [compress, h]
    rfl
  · exact parse_serVal (parse_canonB h)

/-- Witness for C7 at the text `[1, 2.50]`, which compresses to
`[1,2.5]` and parses back to the same two numbers. -/
theorem C7_compress_preserves_parse_witness :
    compress ("[1, 2.50]".data) = some ("[1,2.5]".data) ∧
      parse ("[1,2.5]".data) = some (Json.arr [Json.num 1 0, Json.num 25 1]) := by
  have h := C7_compress_preserves_parse ("[1, 2.50]".data)
    (Json.arr [Json.num 1 0, Json.num 25 1]) (by decide)
  constructor
  · rw [h.1]
    rfl
  · have h2 := h.2
    rw [show serVal (Json.arr [Json.num 1 0, Json.num 25 1]) = ("[1,2.5]".data)
      from rfl] at h2
    exact h2

end ES

